import Mathlib

set_option maxHeartbeats 1000000

namespace SsbDb

/-- JSON values as the external codecs expose them: object fields are an
ordered association list, and string/number payloads keep their raw bytes. -/
inductive JValue : Type where
  | null : JValue
  | bool (b : Bool) : JValue
  | num (ds : List Nat) : JValue
  | str (s : List Nat) : JValue
  | arr (xs : List JValue) : JValue
  | obj (fs : List (List Nat × JValue)) : JValue

mutual

/-- Serialize a JSON value to bytes (compact form, field order preserved). -/
def serVal : JValue → List Nat
  | .null => [110, 117, 108, 108]
  | .bool true => [116, 114, 117, 101]
  | .bool false => [102, 97, 108, 115, 101]
  | .num ds => ds
  | .str s => 34 :: (s ++ [34])
  | .arr xs => 91 :: (serElems xs ++ [93])
  | .obj fs => 123 :: (serFields fs ++ [125])

/-- Serialize array elements, comma separated. -/
def serElems : List JValue → List Nat
  | [] => []
  | [x] => serVal x
  | x :: y :: xs => serVal x ++ 44 :: serElems (y :: xs)

/-- Serialize object fields, comma separated, in list order. -/
def serFields : List (List Nat × JValue) → List Nat
  | [] => []
  | [(k, v)] => 34 :: k ++ 34 :: 58 :: serVal v
  | (k, v) :: f :: fs => (34 :: k ++ 34 :: 58 :: serVal v) ++ 44 :: serFields (f :: fs)

end

/-- Whitespace bytes recognised by the JSON codecs. -/
def wsChar (b : Nat) : Bool := b = 32 || b = 9 || b = 10 || b = 13

/-- Drop leading whitespace. -/
def skipWs : List Nat → List Nat
  | [] => []
  | b :: bs => if wsChar b then skipWs bs else b :: bs

/-- Bytes that may start a JSON number token. -/
def numStart (b : Nat) : Bool := b = 45 || (decide (48 ≤ b) && decide (b ≤ 57))

/-- Bytes that may continue a JSON number token. -/
def numChar (b : Nat) : Bool :=
  (decide (48 ≤ b) && decide (b ≤ 57)) || b = 43 || b = 45 || b = 46 || b = 101 || b = 69

/-- Bytes allowed inside a string literal in the model (no quote, no escape). -/
def strChar (b : Nat) : Bool := decide (b ≠ 34) && decide (b ≠ 92)

/-- Match a literal byte sequence at the head of the input. -/
def dropLit : List Nat → List Nat → Option (List Nat)
  | [], rest => some rest
  | _ :: _, [] => none
  | p :: ps, b :: bs => if b = p then dropLit ps bs else none

/-- Read a string body up to the closing quote; escapes are not modelled. -/
def parseStrBody : List Nat → Option (List Nat × List Nat)
  | [] => none
  | b :: bs =>
    if b = 34 then some ([], bs)
    else if b = 92 then none
    else (parseStrBody bs).map (fun p => (b :: p.1, p.2))

/-- Take the longest run of number bytes from the head of the input. -/
def spanNum : List Nat → List Nat × List Nat
  | [] => ([], [])
  | b :: bs =>
    if numChar b then ((spanNum bs).1.cons b, (spanNum bs).2)
    else ([], b :: bs)

mutual

/-- Modelled from the spec: recursive-descent JSON value parser standing for the
external `serde_json` / `ssb-legacy-msg-data` byte parsers (crates outside
`src/`). Object fields are collected in their textual order. The fuel argument
bounds nesting depth. -/
def parseVal : Nat → List Nat → Option (JValue × List Nat)
  | 0, _ => none
  | fuel + 1, bytes =>
    match skipWs bytes with
    | [] => none
    | b :: bs =>
      if b = 110 then (dropLit [117, 108, 108] bs).map (fun r => (.null, r))
      else if b = 116 then (dropLit [114, 117, 101] bs).map (fun r => (.bool true, r))
      else if b = 102 then (dropLit [97, 108, 115, 101] bs).map (fun r => (.bool false, r))
      else if b = 34 then (parseStrBody bs).map (fun p => (.str p.1, p.2))
      else if b = 91 then
        match skipWs bs with
        | [] => none
        | c :: cs =>
          if c = 93 then some (.arr [], cs)
          else (parseElems fuel (c :: cs)).map (fun p => (.arr p.1, p.2))
      else if b = 123 then
        match skipWs bs with
        | [] => none
        | c :: cs =>
          if c = 125 then some (.obj [], cs)
          else (parseFields fuel (c :: cs)).map (fun p => (.obj p.1, p.2))
      else if numStart b then
        some (.num (spanNum (b :: bs)).1, (spanNum (b :: bs)).2)
      else none

/-- Parse one or more comma-separated array elements up to `]`. -/
def parseElems : Nat → List Nat → Option (List JValue × List Nat)
  | 0, _ => none
  | fuel + 1, bytes =>
    match parseVal fuel bytes with
    | none => none
    | some (v, rest) =>
      match skipWs rest with
      | [] => none
      | c :: cs =>
        if c = 44 then (parseElems fuel cs).map (fun p => (v :: p.1, p.2))
        else if c = 93 then some ([v], cs)
        else none

/-- Parse one or more comma-separated object fields up to a closing brace. -/
def parseFields : Nat → List Nat → Option (List (List Nat × JValue) × List Nat)
  | 0, _ => none
  | fuel + 1, bytes =>
    match skipWs bytes with
    | [] => none
    | b :: bs =>
      if b = 34 then
        match parseStrBody bs with
        | none => none
        | some (k, r1) =>
          match skipWs r1 with
          | [] => none
          | c :: cs =>
            if c = 58 then
              match parseVal fuel cs with
              | none => none
              | some (v, r3) =>
                match skipWs r3 with
                | [] => none
                | d :: ds =>
                  if d = 44 then (parseFields fuel ds).map (fun p => ((k, v) :: p.1, p.2))
                  else if d = 125 then some ([(k, v)], ds)
                  else none
            else none
      else none

end

mutual

/-- Well-formed values: exactly those the byte parser can produce. -/
def wfVal : JValue → Bool
  | .null => true
  | .bool _ => true
  | .num ds =>
    match ds with
    | [] => false
    | b :: bs => numStart b && (b :: bs).all numChar
  | .str s => s.all strChar
  | .arr xs => wfElems xs
  | .obj fs => wfFields fs

/-- Well-formedness for element lists. -/
def wfElems : List JValue → Bool
  | [] => true
  | x :: xs => wfVal x && wfElems xs

/-- Well-formedness for field lists. -/
def wfFields : List (List Nat × JValue) → Bool
  | [] => true
  | (k, v) :: fs => k.all strChar && wfVal v && wfFields fs

end

mutual

/-- Parser fuel sufficient for a value. -/
def vfuel : JValue → Nat
  | .null => 1
  | .bool _ => 1
  | .num _ => 1
  | .str _ => 1
  | .arr xs => efuel xs + 1
  | .obj fs => ffuel fs + 1

/-- Parser fuel sufficient for an element list. -/
def efuel : List JValue → Nat
  | [] => 1
  | x :: xs => max (vfuel x) (efuel xs) + 1

/-- Parser fuel sufficient for a field list. -/
def ffuel : List (List Nat × JValue) → Nat
  | [] => 1
  | (_, v) :: fs => max (vfuel v) (ffuel fs) + 1

end

/-- True when the input does not continue a number token. -/
def noNumHead : List Nat → Bool
  | [] => true
  | b :: _ => !numChar b

/-- Full JSON parse of a byte string, requiring all input to be consumed
(up to trailing whitespace). This models `from_slice` of the external codecs. -/
def jsonParse (bytes : List Nat) : Option JValue :=
  match parseVal (bytes.length + 1) bytes with
  | some (v, rest) => if skipWs rest = [] then some v else none
  | none => none

/-- First occurrence lookup of a field in an ordered JSON object. -/
def lookupField : List (List Nat × JValue) → List Nat → Option JValue
  | [], _ => none
  | (k, v) :: fs, k0 => if k = k0 then some v else lookupField fs k0

/-- Digit bytes. -/
def digitChar (b : Nat) : Bool := decide (48 ≤ b) && decide (b ≤ 57)

/-- Numeric value of a digit string. -/
def digitsToNat (ds : List Nat) : Nat := ds.foldl (fun a b => a * 10 + (b - 48)) 0

/-- Deserialize a JSON number as a `u32` the way serde does: plain digits,
value below 2^32; anything else (sign, fraction, exponent, overflow) fails. -/
def asU32 : JValue → Option Nat
  | .num ds =>
    if !ds.isEmpty && ds.all digitChar && decide (digitsToNat ds < 2 ^ 32) then
      some (digitsToNat ds)
    else none
  | _ => none

/-- Deserialize a JSON string. -/
def asStr : JValue → Option (List Nat)
  | .str s => some s
  | _ => none

/-- View a JSON value as an object's field list. -/
def asObjFields : JValue → Option (List (List Nat × JValue))
  | .obj fs => some fs
  | _ => none

/-- The bytes of `"key"`. -/
def keyStr : List Nat := [107, 101, 121]

/-- The bytes of `"value"`. -/
def valueStr : List Nat := [118, 97, 108, 117, 101]

/-- The bytes of `"author"`. -/
def authorStr : List Nat := [97, 117, 116, 104, 111, 114]

/-- The bytes of `"sequence"`. -/
def sequenceStr : List Nat := [115, 101, 113, 117, 101, 110, 99, 101]

/-- The deserialized shape of `SsbValue` (src/ssb_message/mod.rs): the
envelope's `value.author` string and `value.sequence : u32`. -/
structure SsbValue where
  author : List Nat
  sequence : Nat
deriving DecidableEq

/-- The deserialized shape of `SsbMessage` (src/ssb_message/mod.rs). -/
structure SsbMessage where
  key : List Nat
  value : SsbValue
deriving DecidableEq

/-- Model of `serde_json::from_slice::<SsbMessage>`: parse the bytes as JSON
and extract `.key`, `.value.author`, `.value.sequence`, ignoring extra fields
(serde's default) and failing when any required field is missing or mistyped. -/
def parseSsbMessage (bytes : List Nat) : Option SsbMessage :=
  match jsonParse bytes with
  | some (.obj fs) =>
    match lookupField fs keyStr, lookupField fs valueStr with
    | some kv, some vv =>
      match asStr kv, asObjFields vv with
      | some k, some vfs =>
        match lookupField vfs authorStr, lookupField vfs sequenceStr with
        | some av, some sv =>
          match asStr av, asU32 sv with
          | some a, some s => some ⟨k, ⟨a, s⟩⟩
          | _, _ => none
        | _, _ => none
      | _, _ => none
    | _, _ => none
  | _ => none

/-- Rust `u32 as i32` (two's-complement wrap), as in
`message.value.sequence as i32` of `append_item`. -/
def u32AsI32 (s : Nat) : Int := if s < 2 ^ 31 then (s : Int) else (s : Int) - 2 ^ 32

/-- Rust `u64 as i64` (two's-complement wrap), as in `seq as i64`. -/
def u64AsI64 (n : Nat) : Int := if n < 2 ^ 63 then (n : Int) else (n : Int) - 2 ^ 64

/-- Rust `i64 as u64` (two's-complement wrap), as in `*s as FlumeSequence`. -/
def i64AsU64 (x : Int) : Nat := (x % 2 ^ 64).toNat

/-- Fueled base-2 logarithm (kernel-reducible). -/
def log2F : Nat → Nat → Nat
  | 0, _ => 0
  | f + 1, n => if n < 2 then 0 else log2F f (n / 2) + 1

/-- Base-2 logarithm. -/
def natLog2 (n : Nat) : Nat := log2F n n

/-- Round `n` to the nearest multiple of `m`, ties to the even multiple. -/
def roundMultEven (n m : Nat) : Nat :=
  let q := n / m
  let r := n % m
  if 2 * r < m then q * m
  else if m < 2 * r then (q + 1) * m
  else if q % 2 = 0 then q * m else (q + 1) * m

/-- The exact integer value of `(n : u64/i64) as f64` under IEEE-754 binary64
round-to-nearest-even: identity below 2^53, otherwise rounded to the nearest
representable multiple of 2^(⌊log2 n⌋ - 52). -/
def natAsF64 (n : Nat) : Nat := if n < 2 ^ 53 then n else roundMultEven n (2 ^ (natLog2 n - 52))

/-- The exact integer value of `(x : i64) as f64` (all i64 round to integral
doubles). -/
def i64AsF64 (x : Int) : Int :=
  if 0 ≤ x then (natAsF64 x.toNat : Int) else -((natAsF64 x.natAbs : Int))

/-- Rust `f64 as u64` saturating cast, restricted to integral doubles. -/
def f64AsU64 (x : Int) : Nat := if x < 0 then 0 else min x.toNat (2 ^ 64 - 1)

/-- One frame of the offset log: the byte offset of the frame and its payload. -/
structure LogEntry where
  offset : Nat
  data : List Nat
deriving DecidableEq

/-- Lay out payloads as frames. Per the offset-log format a frame holds the
32-bit payload length, the payload, the length again and the 32-bit offset of
the next frame, so a payload of n bytes occupies n + 12 bytes. -/
def mkEntries : Nat → List (List Nat) → List LogEntry
  | _, [] => []
  | off, p :: ps => ⟨off, p⟩ :: mkEntries (off + p.length + 12) ps

/-- Total byte size of the frames of a payload list (n + 12 bytes each). -/
def logWeight (L : List (List Nat)) : Nat := (L.map (fun p => p.length + 12)).sum

/-- The entries of a log whose first frame is at offset 0. -/
def logEntries (L : List (List Nat)) : List LogEntry := mkEntries 0 L

/-- Modelled from the spec: `flumedb`'s `iter_at_offset` (external crate)
yields every frame at or after the given byte offset, in forward order. -/
def iter_at_offset (L : List (List Nat)) (o : Nat) : List LogEntry :=
  (logEntries L).filter (fun e => decide (o ≤ e.offset))

/-- Modelled from the spec: `flumedb`'s `get` (external crate) returns the
payload of the frame at exactly the given offset and fails otherwise. -/
def logGet (L : List (List Nat)) (o : Nat) : Option (List Nat) :=
  ((logEntries L).find? (fun e => e.offset == o)).map LogEntry.data

/-- A row of the `messages` table. -/
structure MessageRow where
  flume_seq : Int
  seq : Int
  key_id : Int
  author_id : Int
deriving DecidableEq

/-- The relational index: `authors`, `keys` and `messages` tables, rows kept
in insertion (rowid) order. -/
structure IndexState where
  authors : List (Int × List Nat)
  keys : List (Int × List Nat)
  messages : List MessageRow
deriving DecidableEq

/-- The empty index. -/
def emptyIndex : IndexState := ⟨[], [], []⟩

/-- Maximum of a list of integers. -/
def listMaxI : List Int → Option Int
  | [] => none
  | x :: xs =>
    match listMaxI xs with
    | none => some x
    | some m => some (max x m)

/-- Token for a diesel-level database error inside a transaction. -/
inductive DbError where
  | uniqueViolation
deriving DecidableEq

/-- The shared select-else-insert shape of `find_or_create_author`
(src/db/models/authors.rs): return the id of the first row holding the
string, else insert it (SQLite assigns max rowid + 1) and re-select the
largest id. -/
def findOrCreate (dict : List (Int × List Nat)) (a : List Nat) : List (Int × List Nat) × Int :=
  match dict.find? (fun p => p.2 == a) with
  | some p => (dict, p.1)
  | none =>
    let nid := ((listMaxI (dict.map Prod.fst)).getD 0) + 1
    (dict ++ [(nid, a)], nid)

/-- `find_or_create_author` of src/db/models/authors.rs. -/
def find_or_create_author (st : IndexState) (a : List Nat) : IndexState × Int :=
  let p := findOrCreate st.authors a
  ({ st with authors := p.1 }, p.2)

/-- Modelled from the spec: `find_or_create_key` (src/db/models/keys.rs is not
under src/); per the spec it mirrors `find_or_create_author` on the `keys`
table. -/
def find_or_create_key (st : IndexState) (k : List Nat) : IndexState × Int :=
  let p := findOrCreate st.keys k
  ({ st with keys := p.1 }, p.2)

/-- Maximum `flume_seq` in `messages`. -/
def maxFlumeSeq (st : IndexState) : Option Int := listMaxI (st.messages.map MessageRow.flume_seq)

/-- `get_latest` of src/db/models/messages.rs: `select max(flume_seq)` followed
by Rust's `as f64` cast — the model carries the exact integer value of that
double. -/
def get_latest (st : IndexState) : Option Int := (maxFlumeSeq st).map i64AsF64

/-- `insert_message` of src/db/models/messages.rs. Per the spec (§3.3) and the
`#[primary_key(flume_seq)]` annotation, inserting a duplicate `flume_seq` is a
constraint violation (the migration SQL itself is not under src/). -/
def insert_message (st : IndexState) (seq flume_seq key_id author_id : Int) :
    Except DbError IndexState :=
  if st.messages.any (fun r => r.flume_seq == flume_seq) then .error .uniqueViolation
  else .ok { st with messages := st.messages ++ [⟨flume_seq, seq, key_id, author_id⟩] }

/-- `append_item` of src/db/mod.rs: skip the entry when serde parsing fails,
otherwise find-or-create the key and author rows and insert the message row
with `seq = sequence as i32` and `flume_seq = offset as i64`. -/
def append_item (st : IndexState) (seq : Nat) (item : List Nat) : Except DbError IndexState :=
  match parseSsbMessage item with
  | none => .ok st
  | some m =>
    let pk := find_or_create_key st m.key
    let pa := find_or_create_author pk.1 m.value.author
    insert_message pa.1 (u32AsI32 m.value.sequence) (u64AsI64 seq) pk.2 pa.2

/-- Fold `append_item` over log entries, stopping at the first error. -/
def runItems : IndexState → List LogEntry → Except DbError IndexState
  | st, [] => .ok st
  | st, e :: es =>
    match append_item st e.offset e.data with
    | .ok st1 => runItems st1 es
    | .error err => .error err

/-- Fueled chunking into groups of 10000 (kernel-reducible). -/
def chunksGo : Nat → List LogEntry → List (List LogEntry)
  | 0, _ => []
  | _, [] => []
  | f + 1, e :: es => ((e :: es).take 10000) :: chunksGo f ((e :: es).drop 10000)

/-- Partition entries into chunks of 10000, as `Itertools::chunks(10000)`. -/
def chunks10000 (l : List LogEntry) : List (List LogEntry) := chunksGo l.length l

/-- The public error enum of src/lib.rs. -/
inductive Error where
  | IncludeKeysIncludeValuesBothFalse
  | EncodingValueAsVecError
  | ErrorParsingAsLegacyValue
  | MessageNotFound
  | FeedNotFound
  | OffsetAppendError
  | SqliteAppendError
  | OffsetGetError
  | UnableToGetLatestSequence
deriving DecidableEq

/-- Environmental outcomes of the fallible effects: whether the
`select max(flume_seq)` read succeeds, whether the offset-log append succeeds,
and whether the i-th chunk's transaction commits. -/
structure Env where
  getLatestOk : Bool
  logAppendOk : Bool
  txnOk : Nat → Bool

/-- The environment in which every effect succeeds. -/
def Env.ok : Env := ⟨true, true, fun _ => true⟩

/-- Run chunk transactions in order: a failing transaction rolls its chunk
back and surfaces `SqliteAppendError`; earlier chunks stay committed
(`collect::<Result<()>>` stops at the first error). -/
def runChunks (env : Env) : Nat → IndexState → List (List LogEntry) → IndexState × Option Error
  | _, st, [] => (st, none)
  | i, st, c :: cs =>
    if env.txnOk i then
      match runItems st c with
      | .ok st1 => runChunks env (i + 1) st1 cs
      | .error _ => (st, some .SqliteAppendError)
    else (st, some .SqliteAppendError)

/-- `num_to_skip` of `update_indexes_from_offset_file`: 1 when the index is
non-empty, else 0. -/
def numToSkip (st : IndexState) : Nat :=
  match get_latest st with
  | none => 0
  | some _ => 1

/-- The starting offset of `update_indexes_from_offset_file`:
`max_seq.map(|val| val as u64).unwrap_or(0)` applied to `get_latest`'s f64. -/
def startingOffset (st : IndexState) : Nat := ((get_latest st).map f64AsU64).getD 0

/-- `update_indexes_from_offset_file` of src/lib.rs: read the high-water mark,
iterate the log from it, skip one already-indexed frame when present, and
index the remaining entries in chunked transactions. Returns the resulting
index state and the surfaced error, if any. -/
def update_indexes_from_offset_file (env : Env) (L : List (List Nat)) (st : IndexState) :
    IndexState × Option Error :=
  if env.getLatestOk then
    runChunks env 0 st (chunks10000 ((iter_at_offset L (startingOffset st)).drop (numToSkip st)))
  else (st, some .UnableToGetLatestSequence)

/-- `append_batch` of src/lib.rs: append the raw messages to the offset log,
then run `update_indexes_from_offset_file`. The feed id argument is ignored by
the source, so it is omitted here. -/
def append_batch (env : Env) (L : List (List Nat)) (st : IndexState)
    (messages : List (List Nat)) : List (List Nat) × IndexState × Option Error :=
  if env.logAppendOk then
    let L1 := L ++ messages
    let p := update_indexes_from_offset_file env L1 st
    (L1, p.1, p.2)
  else (L, st, some .OffsetAppendError)

/-- The `authors ⋈ messages on author_id = id, filter author = a` join
condition. -/
def authorMatch (st : IndexState) (author_id : Int) (a : List Nat) : Bool :=
  st.authors.any (fun p => p.1 == author_id && p.2 == a)

/-- The `keys ⋈ messages on key_id = id, filter key = k` join condition. -/
def keyMatch (st : IndexState) (key_id : Int) (k : List Nat) : Bool :=
  st.keys.any (fun p => p.1 == key_id && p.2 == k)

/-- `limit(limit.unwrap_or(i64::MAX))`: `None` is i64::MAX, which never
truncates a SQLite table (rowids are below 2^63); a negative SQL LIMIT also
means no limit. -/
def applyLimit (limit : Option Int) (l : List MessageRow) : List MessageRow :=
  match limit with
  | none => l
  | some n => if n < 0 then l else l.take n.toNat

/-- `find_feed_flume_seqs_newer_than` of src/db/models/messages.rs: offsets
(cast `as u64`) of messages rows with `seq > sequence` and matching author, in
rowid (insertion) order, capped at `limit`. -/
def find_feed_flume_seqs_newer_than (st : IndexState) (author : List Nat) (sequence : Int)
    (limit : Option Int) : List Nat :=
  (applyLimit limit
      (st.messages.filter (fun r => decide (sequence < r.seq) && authorMatch st r.author_id author))).map
    (fun r => i64AsU64 r.flume_seq)

/-- `find_feed_latest_seq` of src/db/models/messages.rs: `max(seq)` over the
author's rows. -/
def find_feed_latest_seq (st : IndexState) (author : List Nat) : Option Int :=
  listMaxI ((st.messages.filter (fun r => authorMatch st r.author_id author)).map MessageRow.seq)

/-- `find_message_flume_seq_by_key` of src/db/models/messages.rs: the first
row joined to the key, its offset cast `as u64`; `none` models diesel's
NotFound. -/
def find_message_flume_seq_by_key (st : IndexState) (k : List Nat) : Option Nat :=
  ((st.messages.find? (fun r => keyMatch st r.key_id k)).map (fun r => i64AsU64 r.flume_seq))

/-- `find_message_flume_seq_by_author_and_sequence` of
src/db/models/messages.rs. -/
def find_message_flume_seq_by_author_and_sequence (st : IndexState) (author : List Nat)
    (sequence : Int) : Option Int :=
  ((st.messages.find? (fun r => r.seq == sequence && authorMatch st r.author_id author)).map
    MessageRow.flume_seq)

/-- `get_feed_latest_sequence` of the façade: passthrough to
`find_feed_latest_seq`. -/
def get_feed_latest_sequence (st : IndexState) (feed_id : List Nat) : Option Int :=
  find_feed_latest_seq st feed_id

/-- `get_entry_by_key` of the façade. -/
def get_entry_by_key (L : List (List Nat)) (st : IndexState) (k : List Nat) :
    Except Error (List Nat) :=
  match find_message_flume_seq_by_key st k with
  | none => .error .MessageNotFound
  | some o =>
    match logGet L o with
    | none => .error .OffsetGetError
    | some d => .ok d

/-- `get_entry_by_seq` of the façade (src/sqlite_ssb_db/mod.rs): a missing row
is `Ok(None)`, a failing log read is `OffsetGetError`. -/
def get_entry_by_seq (L : List (List Nat)) (st : IndexState) (author : List Nat) (sequence : Int) :
    Except Error (Option (List Nat)) :=
  match find_message_flume_seq_by_author_and_sequence st author sequence with
  | none => .ok none
  | some fs =>
    match logGet L (i64AsU64 fs) with
    | none => .error .OffsetGetError
    | some d => .ok (some d)

/-- The value projection of the `(false, true)` arm: if the parsed legacy
value is an object, reserialize its `"value"` field preserving order, else
fail the call with `ErrorParsingAsLegacyValue`. -/
def projectValue : JValue → Except Error (List Nat)
  | .obj fs =>
    match lookupField fs valueStr with
    | some v => .ok (serVal v)
    | none => .error .ErrorParsingAsLegacyValue
  | _ => .error .ErrorParsingAsLegacyValue

/-- `collect::<Result<Vec<_>>>`: keep all successes, stop at the first error. -/
def collectExcept : List (Except Error (List Nat)) → Except Error (List (List Nat))
  | [] => .ok []
  | .error e :: _ => .error e
  | .ok b :: rest => (collectExcept rest).map (fun l => b :: l)

/-- Observable I/O events of a façade call: an index (SQL) read or an
offset-log read. -/
inductive Ev where
  | sqlRead
  | logRead (offset : Nat)
deriving DecidableEq

/-- The `(true, true)` arm's `map(get).collect::<Result>`: short-circuits at
the first failed log read, recording the log reads actually performed. -/
def getAllTr (L : List (List Nat)) : List Nat → List Ev × Except Error (List (List Nat))
  | [] => ([], .ok [])
  | o :: os =>
    match logGet L o with
    | none => ([.logRead o], .error .OffsetGetError)
    | some d =>
      let p := getAllTr L os
      (.logRead o :: p.1, p.2.map (fun l => d :: l))

/-- `get_entries_newer_than_sequence` of src/lib.rs, with its I/O event trace.
The index query runs first; then the flag pair selects the projection:
`(false,false)` errors, `(true,false)` keeps keys of entries whose read and
serde parse succeed (failures silently dropped by `flat_map`), `(false,true)`
reserializes the `value` field of entries whose read and legacy parse succeed
(failures silently dropped), `(true,true)` returns raw payloads and aborts on
the first failed read. -/
def get_entries_newer_than_sequence (L : List (List Nat)) (st : IndexState) (feed_id : List Nat)
    (sequence : Int) (limit : Option Int) (include_keys include_values : Bool) :
    List Ev × Except Error (List (List Nat)) :=
  let seqs := find_feed_flume_seqs_newer_than st feed_id sequence limit
  match include_keys, include_values with
  | false, false => ([.sqlRead], .error .IncludeKeysIncludeValuesBothFalse)
  | true, false =>
    (Ev.sqlRead :: seqs.map Ev.logRead,
      .ok (((seqs.filterMap (logGet L)).filterMap parseSsbMessage).map SsbMessage.key))
  | false, true =>
    (Ev.sqlRead :: seqs.map Ev.logRead,
      collectExcept (((seqs.filterMap (logGet L)).filterMap jsonParse).map projectValue))
  | true, true =>
    let p := getAllTr L seqs
    (Ev.sqlRead :: p.1, p.2)

/-- Insert into a first-occurrence list. -/
def insSeen (seen : List (List Nat)) (a : List Nat) : List (List Nat) :=
  if a ∈ seen then seen else seen ++ [a]

/-- First occurrences, in order. -/
def seenOf (l : List (List Nat)) : List (List Nat) := l.foldl insSeen []

/-- Position of an element in a list (length when absent). -/
def posOf : List (List Nat) → List Nat → Nat
  | [], _ => 0
  | x :: xs, a => if x = a then 0 else posOf xs a + 1

/-- Ids 1,2,… attached to a list of strings in order. -/
def dictFrom : Int → List (List Nat) → List (Int × List Nat)
  | _, [] => []
  | i, a :: as => (i, a) :: dictFrom (i + 1) as

/-- The dictionary table holding the given strings with ids 1..n. -/
def dictOf (seen : List (List Nat)) : List (Int × List Nat) := dictFrom 1 seen

/-- The parseable frames of a log: offset, raw payload and parsed message. -/
def parseablesR (L : List (List Nat)) : List (Nat × List Nat × SsbMessage) :=
  (logEntries L).filterMap (fun e => (parseSsbMessage e.data).map (fun m => (e.offset, e.data, m)))

/-- Offsets of the parseable frames. -/
def parseableOffsets (L : List (List Nat)) : List Nat := (parseablesR L).map (fun t => t.1)

/-- Raw payload and parsed message of the parseable frames (offset-free). -/
def parseablePayloads (L : List (List Nat)) : List (List Nat × SsbMessage) :=
  (parseablesR L).map (fun t => t.2)

/-- The offset/message pairs of the parseable frames. -/
def parseableMsgs (L : List (List Nat)) : List (Nat × SsbMessage) :=
  (parseablesR L).map (fun t => (t.1, t.2.2))

/-- The indexed view of one log entry: its offset paired with its parsed
message, when the payload parses. -/
def parseEntry (e : LogEntry) : Option (Nat × SsbMessage) :=
  (parseSsbMessage e.data).map (fun m => (e.offset, m))

/-- The canonical index over a list of indexed (offset, message) pairs:
authors and keys are first occurrences with ids 1..n, and each message row
holds the wrapped casts of its offset and declared sequence. -/
def canonicalSt (ps : List (Nat × SsbMessage)) : IndexState :=
  let authorsSeen := seenOf (ps.map (fun p => p.2.value.author))
  let keysSeen := seenOf (ps.map (fun p => p.2.key))
  { authors := dictOf authorsSeen
    keys := dictOf keysSeen
    messages :=
      ps.map (fun p =>
        ⟨u64AsI64 p.1, u32AsI32 p.2.value.sequence, (posOf keysSeen p.2.key : Int) + 1,
          (posOf authorsSeen p.2.value.author : Int) + 1⟩) }

/-- The message row the canonical index holds for one (offset, message) pair. -/
def rowOf (ps : List (Nat × SsbMessage)) (p : Nat × SsbMessage) : MessageRow :=
  ⟨u64AsI64 p.1, u32AsI32 p.2.value.sequence,
    (posOf (seenOf (ps.map (fun q => q.2.key))) p.2.key : Int) + 1,
    (posOf (seenOf (ps.map (fun q => q.2.value.author))) p.2.value.author : Int) + 1⟩

/-- The index produced by a full reindex of a log from the empty index. -/
def buildIndexFromLog (L : List (List Nat)) : IndexState :=
  (update_indexes_from_offset_file Env.ok L emptyIndex).1

/-- The `flume_seq` column of `messages`, in rowid order. -/
def flumeSeqs (st : IndexState) : List Int := st.messages.map MessageRow.flume_seq

/-- The states reachable by the indexing pipeline: the indexed offsets are a
prefix of the log's parseable offsets, in log order. -/
def ConsistentPrefix (L : List (List Nat)) (st : IndexState) : Prop :=
  ∃ k, flumeSeqs st = (((parseableOffsets L).map u64AsI64).take k)

/-- Logs whose offsets stay below 2^53, where the `f64` round trip of the
high-water mark is exact (any log under 9 PB). -/
def smallLog (L : List (List Nat)) : Prop := ∀ e ∈ logEntries L, e.offset < 2 ^ 53

/-- Index states whose offsets are non-negative and below 2^53. -/
def smallState (st : IndexState) : Prop := ∀ x ∈ flumeSeqs st, 0 ≤ x ∧ x < 2 ^ 53

/-- ASCII bytes of a string literal. -/
def bytesOfAscii (s : String) : List Nat := s.data.map Char.toNat

/-- Bytes that can start a serialized JSON value. -/
def GoodHead (b : Nat) : Prop :=
  b = 110 ∨ b = 116 ∨ b = 102 ∨ b = 34 ∨ b = 91 ∨ b = 123 ∨ numStart b = true

/-- The messages rows selected by `find_feed_flume_seqs_newer_than`, viewed as
the underlying parseable log frames (offset, raw payload, parsed message). -/
def selectedRows (L : List (List Nat)) (a : List Nat) (s : Int) (limit : Option Int) :
    List (Nat × List Nat × SsbMessage) :=
  let rs := (parseablesR L).filter
    (fun r => decide (s < u32AsI32 r.2.2.value.sequence) && (r.2.2.value.author == a))
  match limit with
  | none => rs
  | some n => if n < 0 then rs else rs.take n.toNat

/-- The result of each projection arm of `get_entries_newer_than_sequence` as
a function of the fetched payloads. -/
def armResult (ik iv : Bool) (fetched : List (List Nat)) : Except Error (List (List Nat)) :=
  match ik, iv with
  | false, false => .error .IncludeKeysIncludeValuesBothFalse
  | true, false => .ok ((fetched.filterMap parseSsbMessage).map SsbMessage.key)
  | false, true => collectExcept ((fetched.filterMap jsonParse).map projectValue)
  | true, true => .ok fetched

/-- Concrete test envelope `{"key":"a","value":{"author":"b","sequence":1}}`. -/
def fsA : List (List Nat × JValue) :=
  [(keyStr, .str [97]), (valueStr, .obj [(authorStr, .str [98]), (sequenceStr, .num [49])])]

/-- Its serialized bytes. -/
def wPayA : List Nat := serVal (.obj fsA)

/-- Concrete test envelope `{"key":"c","value":{"author":"b","sequence":2}}`. -/
def fsB : List (List Nat × JValue) :=
  [(keyStr, .str [99]), (valueStr, .obj [(authorStr, .str [98]), (sequenceStr, .num [50])])]

/-- Its serialized bytes. -/
def wPayB : List Nat := serVal (.obj fsB)

/-- A value object whose fields are deliberately not in sorted order:
`{"sequence":3,"author":"e"}`. -/
def valC : JValue := .obj [(sequenceStr, .num [51]), (authorStr, .str [101])]

/-- Concrete test envelope `{"key":"d","value":{"sequence":3,"author":"e"}}`. -/
def fsC : List (List Nat × JValue) :=
  [(keyStr, .str [100]), (valueStr, valC)]

/-- Its serialized bytes. -/
def wPayC : List Nat := serVal (.obj fsC)

/-- Concrete test envelope `{"key":"f","value":{"author":"g","sequence":2147483648}}`
whose declared sequence is 2^31. -/
def fsD : List (List Nat × JValue) :=
  [(keyStr, .str [102]),
    (valueStr, .obj [(authorStr, .str [103]),
      (sequenceStr, .num [50, 49, 52, 55, 52, 56, 51, 54, 52, 56])])]

/-- Its serialized bytes. -/
def wPayD : List Nat := serVal (.obj fsD)

/-- An unparseable (tombstone-like) payload. -/
def wJunk : List Nat := [0, 0, 0]

/-- An index state holding a message row whose offset points past the end of
the log (a stale index over a truncated log). -/
def staleSt : IndexState := ⟨[(1, [98])], [(1, [97])], [⟨999, 1, 1, 1⟩]⟩

/-- An index state whose only message row has `flume_seq` 2^53 + 1. -/
def bigSt : IndexState := ⟨[(1, [98])], [(1, [97])], [⟨9007199254740993, 2, 1, 1⟩]⟩

/-- Filler payload putting the next frame just past 2^53 (at 2^53 + 3). -/
def cexFill1 : List Nat := List.replicate (2 ^ 53 - 9) 0

/-- A log whose two parseable frames sit at offsets 2^53 + 3 and 2^53 + 62. -/
def cexLog1 : List (List Nat) := [cexFill1, wPayA, wPayB]

/-- An index reflecting exactly the first parseable frame of `cexLog1`
(flume_seq 2^53 + 3 = 9007199254740995). -/
def cexSt1 : IndexState := ⟨[(1, [98])], [(1, [97])], [⟨9007199254740995, 1, 1, 1⟩]⟩

/-- Filler payload putting the next frame just past 2^57 (at 2^57 + 1). -/
def cexFill2 : List Nat := List.replicate (2 ^ 57 - 11) 0

/-- A log with an unparseable frame at 2^57 + 1 and a parseable frame at
2^57 + 16, where the f64 cast of 2^57 + 16 rounds down to 2^57. -/
def cexLog2 : List (List Nat) := [cexFill2, wJunk, wPayA]

/-- An index fully reflecting `cexLog2` (its one parseable frame, at
flume_seq 2^57 + 16 = 144115188075855888). -/
def cexSt2 : IndexState := ⟨[(1, [98])], [(1, [97])], [⟨144115188075855888, 1, 1, 1⟩]⟩

/-! ### Lemmas about the byte-level JSON codec -/

theorem wsChar_iff (b : Nat) : wsChar b = true ↔ (b = 32 ∨ b = 9 ∨ b = 10 ∨ b = 13) := by
  simp only [wsChar, Bool.or_eq_true, decide_eq_true_eq]
  tauto

theorem numChar_iff (b : Nat) :
    numChar b = true ↔ ((48 ≤ b ∧ b ≤ 57) ∨ b = 43 ∨ b = 45 ∨ b = 46 ∨ b = 101 ∨ b = 69) := by
  simp only [numChar, Bool.or_eq_true, Bool.and_eq_true, decide_eq_true_eq]
  tauto

theorem numStart_iff (b : Nat) : numStart b = true ↔ (b = 45 ∨ (48 ≤ b ∧ b ≤ 57)) := by
  simp [numStart]

theorem wsChar_eq_false_of (b : Nat) (h : ¬(b = 32 ∨ b = 9 ∨ b = 10 ∨ b = 13)) :
    wsChar b = false := by
  cases hw : wsChar b
  · rfl
  · exact absurd ((wsChar_iff b).mp hw) h

theorem GoodHead.ranges {b : Nat} (h : GoodHead b) :
    b = 110 ∨ b = 116 ∨ b = 102 ∨ b = 34 ∨ b = 91 ∨ b = 123 ∨ b = 45 ∨ (48 ≤ b ∧ b ≤ 57) := by
  rcases h with h | h | h | h | h | h | h
  case inr.inr.inr.inr.inr.inr =>
    have hn := (numStart_iff b).mp h
    omega
  all_goals omega

theorem GoodHead.not_ws {b : Nat} (h : GoodHead b) : wsChar b = false := by
  have := h.ranges
  exact wsChar_eq_false_of b (by omega)

theorem skipWs_cons (b : Nat) (bs : List Nat) (h : wsChar b = false) :
    skipWs (b :: bs) = b :: bs := by
  simp [skipWs, h]

theorem dropLit_append (ps rest : List Nat) : dropLit ps (ps ++ rest) = some rest := by
  induction ps with
  | nil => rfl
  | cons p ps ih => simp [dropLit, ih]

theorem parseStrBody_append (s rest : List Nat) (h : s.all strChar = true) :
    parseStrBody (s ++ 34 :: rest) = some (s, rest) := by
  induction s with
  | nil => simp [parseStrBody]
  | cons b bs ih =>
    simp only [List.all_cons, Bool.and_eq_true] at h
    obtain ⟨hb, hrest⟩ := h
    simp only [strChar, Bool.and_eq_true, decide_eq_true_eq] at hb
    simp [parseStrBody, hb.1, hb.2, ih hrest]

theorem parseStrBody_all_strChar :
    ∀ bs s r, parseStrBody bs = some (s, r) → s.all strChar = true := by
  intro bs
  induction bs with
  | nil => intro s r h; simp [parseStrBody] at h
  | cons b bs ih =>
    intro s r h
    simp only [parseStrBody] at h
    split_ifs at h with h34 h92
    · simp only [Option.some.injEq, Prod.mk.injEq] at h
      rw [← h.1]
      rfl
    · cases hp : parseStrBody bs with
      | none => rw [hp] at h; simp at h
      | some p =>
        rw [hp] at h
        simp only [Option.map_some', Option.some.injEq, Prod.mk.injEq] at h
        rw [← h.1]
        have hc : strChar b = true := by simp [strChar, h34, h92]
        simp [List.all_cons, hc, ih p.1 p.2 (by rw [hp])]

theorem spanNum_append (ds rest : List Nat) (h1 : ds.all numChar = true)
    (h2 : noNumHead rest = true) : spanNum (ds ++ rest) = (ds, rest) := by
  induction ds with
  | nil =>
    cases rest with
    | nil => rfl
    | cons b bs =>
      simp only [noNumHead, Bool.not_eq_true'] at h2
      simp [spanNum, h2]
  | cons d ds ih =>
    simp only [List.all_cons, Bool.and_eq_true] at h1
    simp [spanNum, h1.1, ih h1.2]

theorem spanNum_all (l : List Nat) : (spanNum l).1.all numChar = true := by
  induction l with
  | nil => rfl
  | cons b bs ih =>
    simp only [spanNum]
    split_ifs with h
    · simp [List.all_cons, h, ih]
    · rfl

theorem vfuel_pos (v : JValue) : 1 ≤ vfuel v := by
  cases v <;> simp only [vfuel] <;> omega

theorem efuel_pos (xs : List JValue) : 1 ≤ efuel xs := by
  cases xs <;> simp only [efuel] <;> omega

theorem ffuel_pos (fs : List (List Nat × JValue)) : 1 ≤ ffuel fs := by
  cases fs with
  | nil => simp only [ffuel]; omega
  | cons f fs => obtain ⟨k, v⟩ := f; simp only [ffuel]; omega

theorem serVal_head (v : JValue) (h : wfVal v = true) :
    ∃ b t, serVal v = b :: t ∧ GoodHead b := by
  cases v with
  | null => exact ⟨110, _, rfl, Or.inl rfl⟩
  | bool b =>
    cases b
    · exact ⟨102, _, rfl, Or.inr (Or.inr (Or.inl rfl))⟩
    · exact ⟨116, _, rfl, Or.inr (Or.inl rfl)⟩
  | num ds =>
    cases ds with
    | nil => simp [wfVal] at h
    | cons b bs =>
      refine ⟨b, bs, rfl, ?_⟩
      simp only [wfVal, Bool.and_eq_true] at h
      exact Or.inr (Or.inr (Or.inr (Or.inr (Or.inr (Or.inr h.1)))))
  | str s => exact ⟨34, _, rfl, Or.inr (Or.inr (Or.inr (Or.inl rfl)))⟩
  | arr xs => exact ⟨91, _, rfl, Or.inr (Or.inr (Or.inr (Or.inr (Or.inl rfl))))⟩
  | obj fs => exact ⟨123, _, rfl, Or.inr (Or.inr (Or.inr (Or.inr (Or.inr (Or.inl rfl)))))⟩

theorem serElems_head (x : JValue) (xs : List JValue) (h : wfElems (x :: xs) = true) :
    ∃ b t, serElems (x :: xs) = b :: t ∧ GoodHead b := by
  have hx : wfVal x = true := by
    simp only [wfElems, Bool.and_eq_true] at h
    exact h.1
  obtain ⟨b, t, hbt, hg⟩ := serVal_head x hx
  cases xs with
  | nil => exact ⟨b, t, by simp [serElems, hbt], hg⟩
  | cons y ys => exact ⟨b, t ++ 44 :: serElems (y :: ys), by simp [serElems, hbt], hg⟩

theorem serFields_head (k : List Nat) (v : JValue) (fs : List (List Nat × JValue)) :
    ∃ t, serFields ((k, v) :: fs) = 34 :: t := by
  cases fs with
  | nil => exact ⟨k ++ 34 :: 58 :: serVal v, by simp [serFields]⟩
  | cons f fs =>
    exact ⟨(k ++ 34 :: 58 :: serVal v) ++ 44 :: serFields (f :: fs), by simp [serFields]⟩

theorem parse_ser_roundtrip : ∀ F : Nat,
    (∀ v rest, wfVal v = true → vfuel v ≤ F → noNumHead rest = true →
      parseVal F (serVal v ++ rest) = some (v, rest)) ∧
    (∀ xs rest, xs ≠ [] → wfElems xs = true → efuel xs ≤ F →
      parseElems F (serElems xs ++ 93 :: rest) = some (xs, rest)) ∧
    (∀ fs rest, fs ≠ [] → wfFields fs = true → ffuel fs ≤ F →
      parseFields F (serFields fs ++ 125 :: rest) = some (fs, rest)) := by
  intro F
  induction F with
  | zero =>
    refine ⟨?_, ?_, ?_⟩
    · intro v rest _ hfu _
      exact absurd hfu (by have := vfuel_pos v; omega)
    · intro xs rest _ _ hfu
      exact absurd hfu (by have := efuel_pos xs; omega)
    · intro fs rest _ _ hfu
      exact absurd hfu (by have := ffuel_pos fs; omega)
  | succ F ih =>
    obtain ⟨ihv, ihe, ihf⟩ := ih
    refine ⟨?_, ?_, ?_⟩
    · intro v rest hwf hfu hrest
      cases v with
      | null => simp [serVal, parseVal, skipWs, wsChar, dropLit]
      | bool b => cases b <;> simp [serVal, parseVal, skipWs, wsChar, dropLit]
      | num ds =>
        cases ds with
        | nil => simp [wfVal] at hwf
        | cons b bs =>
          simp only [wfVal, Bool.and_eq_true] at hwf
          obtain ⟨hstart, hall⟩ := hwf
          have hr := (numStart_iff b).mp hstart
          have h110 : ¬(b = 110) := by omega
          have h116 : ¬(b = 116) := by omega
          have h102 : ¬(b = 102) := by omega
          have h34 : ¬(b = 34) := by omega
          have h91 : ¬(b = 91) := by omega
          have h123 : ¬(b = 123) := by omega
          have hws : wsChar b = false := wsChar_eq_false_of b (by omega)
          simp only [serVal, List.cons_append, parseVal, skipWs_cons b _ hws]
          rw [if_neg h110, if_neg h116, if_neg h102, if_neg h34, if_neg h91, if_neg h123,
            if_pos hstart]
          rw [← List.cons_append, spanNum_append _ _ hall hrest]
      | str s =>
        simp only [wfVal] at hwf
        simp only [serVal, List.cons_append, List.append_assoc, List.singleton_append]
        simp only [parseVal]
        rw [skipWs_cons 34 _ (by decide)]
        simp [parseStrBody_append s rest hwf]
      | arr xs =>
        simp only [wfVal] at hwf
        cases xs with
        | nil =>
          simp only [serVal, serElems, List.nil_append]
          simp [parseVal, skipWs, wsChar]
        | cons x xs =>
          have hef : efuel (x :: xs) ≤ F := by
            have hm : efuel (x :: xs) + 1 ≤ F + 1 := hfu
            omega
          obtain ⟨b0, t0, hser, hgood⟩ := serElems_head x xs hwf
          have hR := hgood.ranges
          have hb93 : ¬(b0 = 93) := by omega
          have h32 : ¬(b0 = 32) := by omega
          have h9 : ¬(b0 = 9) := by omega
          have h10 : ¬(b0 = 10) := by omega
          have h13 : ¬(b0 = 13) := by omega
          have helems := ihe (x :: xs) rest (by simp) hwf hef
          rw [hser, List.cons_append] at helems
          simp only [serVal, hser, List.cons_append, List.append_assoc, List.singleton_append]
          simp [parseVal, skipWs, wsChar, hb93, h32, h9, h10, h13, helems]
      | obj fs =>
        simp only [wfVal] at hwf
        cases fs with
        | nil =>
          simp only [serVal, serFields, List.nil_append]
          simp [parseVal, skipWs, wsChar]
        | cons f fs =>
          obtain ⟨k, v⟩ := f
          have hff : ffuel ((k, v) :: fs) ≤ F := by
            have hm : ffuel ((k, v) :: fs) + 1 ≤ F + 1 := hfu
            omega
          obtain ⟨t0, hser⟩ := serFields_head k v fs
          have hflds := ihf ((k, v) :: fs) rest (by simp) hwf hff
          rw [hser, List.cons_append] at hflds
          simp only [serVal, hser, List.cons_append, List.append_assoc, List.singleton_append]
          simp [parseVal, skipWs, wsChar, hflds]
    · intro xs rest hne hwf hfu
      cases xs with
      | nil => exact absurd rfl hne
      | cons x xs =>
        simp only [wfElems, Bool.and_eq_true] at hwf
        obtain ⟨hwx, hwxs⟩ := hwf
        cases xs with
        | nil =>
          have hvf : vfuel x ≤ F := by
            have hm : max (vfuel x) (efuel ([] : List JValue)) + 1 ≤ F + 1 := hfu
            have h1 : efuel ([] : List JValue) = 1 := rfl
            have := Nat.le_max_left (vfuel x) (efuel ([] : List JValue))
            omega
          have hval := ihv x (93 :: rest) hwx hvf rfl
          simp only [serElems]
          simp [parseElems, hval, skipWs, wsChar]
        | cons y ys =>
          have hm : max (vfuel x) (efuel (y :: ys)) + 1 ≤ F + 1 := hfu
          have hvf : vfuel x ≤ F := by
            have := Nat.le_max_left (vfuel x) (efuel (y :: ys))
            omega
          have hef : efuel (y :: ys) ≤ F := by
            have := Nat.le_max_right (vfuel x) (efuel (y :: ys))
            omega
          have hval := ihv x (44 :: (serElems (y :: ys) ++ 93 :: rest)) hwx hvf rfl
          have htail := ihe (y :: ys) rest (by simp) hwxs hef
          simp only [serElems, List.append_assoc, List.cons_append]
          simp [parseElems, hval, skipWs, wsChar, htail]
    · intro fs rest hne hwf hfu
      cases fs with
      | nil => exact absurd rfl hne
      | cons f fs =>
        obtain ⟨k, v⟩ := f
        simp only [wfFields, Bool.and_eq_true] at hwf
        obtain ⟨⟨hk, hv⟩, hfs⟩ := hwf
        cases fs with
        | nil =>
          have hvf : vfuel v ≤ F := by
            have hm : max (vfuel v) (ffuel ([] : List (List Nat × JValue))) + 1 ≤ F + 1 := hfu
            have h1 : ffuel ([] : List (List Nat × JValue)) = 1 := rfl
            have := Nat.le_max_left (vfuel v) (ffuel ([] : List (List Nat × JValue)))
            omega
          have hval := ihv v (125 :: rest) hv hvf rfl
          simp only [serFields, List.cons_append, List.append_assoc]
          simp [parseFields, skipWs, wsChar, parseStrBody_append, hk, hval]
        | cons g gs =>
          have hm : max (vfuel v) (ffuel (g :: gs)) + 1 ≤ F + 1 := hfu
          have hvf : vfuel v ≤ F := by
            have := Nat.le_max_left (vfuel v) (ffuel (g :: gs))
            omega
          have hff : ffuel (g :: gs) ≤ F := by
            have := Nat.le_max_right (vfuel v) (ffuel (g :: gs))
            omega
          have hval := ihv v (44 :: (serFields (g :: gs) ++ 125 :: rest)) hv hvf rfl
          have htail := ihf (g :: gs) rest (by simp) hfs hff
          simp only [serFields, List.cons_append, List.append_assoc]
          simp [parseFields, skipWs, wsChar, parseStrBody_append, hk, hval, htail]

theorem numStart_numChar {b : Nat} (h : numStart b = true) : numChar b = true := by
  have := (numStart_iff b).mp h
  rw [numChar_iff]
  omega

theorem fuel_le_serLen : ∀ N : Nat,
    (∀ v, vfuel v ≤ N → vfuel v ≤ (serVal v).length + 1) ∧
    (∀ xs, efuel xs ≤ N → efuel xs ≤ (serElems xs).length + 2) ∧
    (∀ fs, ffuel fs ≤ N → ffuel fs ≤ (serFields fs).length + 2) := by
  intro N
  induction N with
  | zero =>
    refine ⟨?_, ?_, ?_⟩
    · intro v h
      exact absurd h (by have := vfuel_pos v; omega)
    · intro xs h
      exact absurd h (by have := efuel_pos xs; omega)
    · intro fs h
      exact absurd h (by have := ffuel_pos fs; omega)
  | succ N ih =>
    obtain ⟨ihv, ihe, ihf⟩ := ih
    refine ⟨?_, ?_, ?_⟩
    · intro v hv
      cases v with
      | null => simp [vfuel, serVal]
      | bool b => cases b <;> simp [vfuel, serVal]
      | num ds => simp [vfuel, serVal]
      | str s => simp [vfuel, serVal]
      | arr xs =>
        have hm : efuel xs + 1 ≤ N + 1 := hv
        have h2 := ihe xs (by omega)
        have hg : vfuel (JValue.arr xs) = efuel xs + 1 := rfl
        simp only [serVal, List.length_cons, List.length_append, List.length_singleton]
        omega
      | obj fs =>
        have hm : ffuel fs + 1 ≤ N + 1 := hv
        have h2 := ihf fs (by omega)
        have hg : vfuel (JValue.obj fs) = ffuel fs + 1 := rfl
        simp only [serVal, List.length_cons, List.length_append, List.length_singleton]
        omega
    · intro xs h
      cases xs with
      | nil => simp [efuel, serElems]
      | cons x xs =>
        have hm : max (vfuel x) (efuel xs) + 1 ≤ N + 1 := h
        have h1 := ihv x (by have := Nat.le_max_left (vfuel x) (efuel xs); omega)
        have h2 := ihe xs (by have := Nat.le_max_right (vfuel x) (efuel xs); omega)
        cases xs with
        | nil =>
          have he : efuel ([] : List JValue) = 1 := rfl
          have hg : efuel [x] = max (vfuel x) (efuel ([] : List JValue)) + 1 := rfl
          simp only [serElems]
          omega
        | cons y ys =>
          have hg : efuel (x :: y :: ys) = max (vfuel x) (efuel (y :: ys)) + 1 := rfl
          simp only [serElems, List.length_append, List.length_cons]
          omega
    · intro fs h
      cases fs with
      | nil => simp [ffuel, serFields]
      | cons f fs =>
        obtain ⟨k, v⟩ := f
        have hm : max (vfuel v) (ffuel fs) + 1 ≤ N + 1 := h
        have h1 := ihv v (by have := Nat.le_max_left (vfuel v) (ffuel fs); omega)
        have h2 := ihf fs (by have := Nat.le_max_right (vfuel v) (ffuel fs); omega)
        cases fs with
        | nil =>
          have hff : ffuel ([] : List (List Nat × JValue)) = 1 := rfl
          have hg : ffuel [(k, v)] = max (vfuel v) (ffuel ([] : List (List Nat × JValue))) + 1 := rfl
          simp only [serFields, List.length_append, List.length_cons]
          omega
        | cons g gs =>
          have hg : ffuel ((k, v) :: g :: gs) = max (vfuel v) (ffuel (g :: gs)) + 1 := rfl
          simp only [serFields, List.length_append, List.length_cons]
          omega

theorem jsonParse_serVal (v : JValue) (h : wfVal v = true) : jsonParse (serVal v) = some v := by
  have hfu : vfuel v ≤ (serVal v).length + 1 := (fuel_le_serLen (vfuel v)).1 v le_rfl
  have hr := (parse_ser_roundtrip ((serVal v).length + 1)).1 v [] h hfu rfl
  rw [List.append_nil] at hr
  simp [jsonParse, hr, skipWs]

theorem parse_wf : ∀ F : Nat,
    (∀ bytes v rest, parseVal F bytes = some (v, rest) → wfVal v = true) ∧
    (∀ bytes xs rest, parseElems F bytes = some (xs, rest) → wfElems xs = true) ∧
    (∀ bytes fs rest, parseFields F bytes = some (fs, rest) → wfFields fs = true) := by
  intro F
  induction F with
  | zero =>
    refine ⟨?_, ?_, ?_⟩
    · intro bytes v rest h
      simp [parseVal] at h
    · intro bytes xs rest h
      simp [parseElems] at h
    · intro bytes fs rest h
      simp [parseFields] at h
  | succ F ih =>
    obtain ⟨ihv, ihe, ihf⟩ := ih
    refine ⟨?_, ?_, ?_⟩
    · intro bytes v rest h
      simp only [parseVal] at h
      cases hsk : skipWs bytes with
      | nil => simp only [hsk] at h; exact Option.noConfusion h
      | cons b bs =>
        simp only [hsk] at h
        split_ifs at h with h110 h116 h102 h34 h91 h123 hnum
        · cases hd : dropLit [117, 108, 108] bs with
          | none => simp only [hd, Option.map_none'] at h; exact Option.noConfusion h
          | some r =>
            simp only [hd, Option.map_some', Option.some.injEq, Prod.mk.injEq] at h
            rw [← h.1]
            rfl
        · cases hd : dropLit [114, 117, 101] bs with
          | none => simp only [hd, Option.map_none'] at h; exact Option.noConfusion h
          | some r =>
            simp only [hd, Option.map_some', Option.some.injEq, Prod.mk.injEq] at h
            rw [← h.1]
            rfl
        · cases hd : dropLit [97, 108, 115, 101] bs with
          | none => simp only [hd, Option.map_none'] at h; exact Option.noConfusion h
          | some r =>
            simp only [hd, Option.map_some', Option.some.injEq, Prod.mk.injEq] at h
            rw [← h.1]
            rfl
        · cases hd : parseStrBody bs with
          | none => simp only [hd, Option.map_none'] at h; exact Option.noConfusion h
          | some p =>
            obtain ⟨s1, r1⟩ := p
            simp only [hd, Option.map_some', Option.some.injEq, Prod.mk.injEq] at h
            rw [← h.1]
            simp only [wfVal]
            exact parseStrBody_all_strChar bs s1 r1 hd
        · cases hsk2 : skipWs bs with
          | nil => simp only [hsk2] at h; exact Option.noConfusion h
          | cons c cs =>
            simp only [hsk2] at h
            split_ifs at h with h93
            · simp only [Option.some.injEq, Prod.mk.injEq] at h
              rw [← h.1]
              rfl
            · cases he : parseElems F (c :: cs) with
              | none => simp only [he, Option.map_none'] at h; exact Option.noConfusion h
              | some p =>
                obtain ⟨xs1, r1⟩ := p
                simp only [he, Option.map_some', Option.some.injEq, Prod.mk.injEq] at h
                rw [← h.1]
                simp only [wfVal]
                exact ihe (c :: cs) xs1 r1 he
        · cases hsk2 : skipWs bs with
          | nil => simp only [hsk2] at h; exact Option.noConfusion h
          | cons c cs =>
            simp only [hsk2] at h
            split_ifs at h with h125
            · simp only [Option.some.injEq, Prod.mk.injEq] at h
              rw [← h.1]
              rfl
            · cases he : parseFields F (c :: cs) with
              | none => simp only [he, Option.map_none'] at h; exact Option.noConfusion h
              | some p =>
                obtain ⟨fs1, r1⟩ := p
                simp only [he, Option.map_some', Option.some.injEq, Prod.mk.injEq] at h
                rw [← h.1]
                simp only [wfVal]
                exact ihf (c :: cs) fs1 r1 he
        · simp only [Option.some.injEq, Prod.mk.injEq] at h
          rw [← h.1]
          have hc : numChar b = true := numStart_numChar hnum
          simp [wfVal, spanNum, hc, hnum, spanNum_all]
    · intro bytes xs rest h
      simp only [parseElems] at h
      cases hv : parseVal F bytes with
      | none => simp only [hv] at h; exact Option.noConfusion h
      | some p =>
        obtain ⟨v, r⟩ := p
        simp only [hv] at h
        cases hsk : skipWs r with
        | nil => simp only [hsk] at h; exact Option.noConfusion h
        | cons c cs =>
          simp only [hsk] at h
          split_ifs at h with h44 h93
          · cases he : parseElems F cs with
            | none => simp only [he, Option.map_none'] at h; exact Option.noConfusion h
            | some q =>
              obtain ⟨ys, r2⟩ := q
              simp only [he, Option.map_some', Option.some.injEq, Prod.mk.injEq] at h
              rw [← h.1]
              simp only [wfElems, Bool.and_eq_true]
              exact ⟨ihv bytes v r hv, ihe cs ys r2 he⟩
          · simp only [Option.some.injEq, Prod.mk.injEq] at h
            rw [← h.1]
            simp only [wfElems, Bool.and_eq_true]
            exact ⟨ihv bytes v r hv, trivial⟩
    · intro bytes fs rest h
      simp only [parseFields] at h
      cases hsk : skipWs bytes with
      | nil => simp only [hsk] at h; exact Option.noConfusion h
      | cons b bs =>
        simp only [hsk] at h
        split_ifs at h with h34
        · cases hd : parseStrBody bs with
          | none => simp only [hd] at h; exact Option.noConfusion h
          | some p =>
            obtain ⟨k, r1⟩ := p
            simp only [hd] at h
            cases hsk2 : skipWs r1 with
            | nil => simp only [hsk2] at h; exact Option.noConfusion h
            | cons c cs =>
              simp only [hsk2] at h
              split_ifs at h with h58
              · cases hv : parseVal F cs with
                | none => simp only [hv] at h; exact Option.noConfusion h
                | some q =>
                  obtain ⟨v, r3⟩ := q
                  simp only [hv] at h
                  cases hsk3 : skipWs r3 with
                  | nil => simp only [hsk3] at h; exact Option.noConfusion h
                  | cons d ds =>
                    simp only [hsk3] at h
                    split_ifs at h with h44 h125
                    · cases hf : parseFields F ds with
                      | none => simp only [hf, Option.map_none'] at h; exact Option.noConfusion h
                      | some q2 =>
                        obtain ⟨gs, r4⟩ := q2
                        simp only [hf, Option.map_some', Option.some.injEq,
                          Prod.mk.injEq] at h
                        rw [← h.1]
                        simp only [wfFields, Bool.and_eq_true]
                        exact ⟨⟨parseStrBody_all_strChar bs k r1 hd, ihv cs v r3 hv⟩,
                          ihf ds gs r4 hf⟩
                    · simp only [Option.some.injEq, Prod.mk.injEq] at h
                      rw [← h.1]
                      simp only [wfFields, Bool.and_eq_true]
                      exact ⟨⟨parseStrBody_all_strChar bs k r1 hd, ihv cs v r3 hv⟩, trivial⟩

theorem jsonParse_wf (bytes : List Nat) (v : JValue) (h : jsonParse bytes = some v) :
    wfVal v = true := by
  simp only [jsonParse] at h
  cases hp : parseVal (bytes.length + 1) bytes with
  | none => rw [hp] at h; simp at h
  | some p =>
    obtain ⟨v0, r0⟩ := p
    simp only [hp] at h
    split_ifs at h
    · simp only [Option.some.injEq] at h
      rw [← h]
      exact (parse_wf _).1 bytes v0 r0 hp

theorem wfVal_lookupField {fs : List (List Nat × JValue)} (h : wfVal (.obj fs) = true)
    {k : List Nat} {v : JValue} (hl : lookupField fs k = some v) : wfVal v = true := by
  induction fs with
  | nil => simp [lookupField] at hl
  | cons f fs ih =>
    obtain ⟨k0, v0⟩ := f
    simp only [wfVal, wfFields, Bool.and_eq_true] at h
    simp only [lookupField] at hl
    split_ifs at hl with hk
    · simp only [Option.some.injEq] at hl
      rw [← hl]
      exact h.1.2
    · exact ih (by simp only [wfVal]; exact h.2) hl

/-! ### Cast lemmas -/

theorem u64AsI64_small {n : Nat} (h : n < 2 ^ 63) : u64AsI64 n = (n : Int) := by
  simp only [u64AsI64]
  rw [if_pos h]

theorem i64AsU64_u64AsI64 {n : Nat} (h : n < 2 ^ 63) : i64AsU64 (u64AsI64 n) = n := by
  rw [u64AsI64_small h]
  simp only [i64AsU64]
  rw [Int.emod_eq_of_lt (by positivity) (by exact_mod_cast lt_trans h (by norm_num))]
  exact Int.toNat_natCast n

theorem u64AsI64_lt {a b : Nat} (ha : a < 2 ^ 63) (hb : b < 2 ^ 63) (h : a < b) :
    u64AsI64 a < u64AsI64 b := by
  rw [u64AsI64_small ha, u64AsI64_small hb]
  exact_mod_cast h

theorem natAsF64_small {n : Nat} (h : n < 2 ^ 53) : natAsF64 n = n := by
  simp only [natAsF64]
  rw [if_pos h]

theorem i64AsF64_small {x : Int} (h0 : 0 ≤ x) (h : x < 2 ^ 53) : i64AsF64 x = x := by
  simp only [i64AsF64, if_pos h0]
  rw [natAsF64_small (by omega)]
  omega

theorem f64AsU64_small {x : Int} (h0 : 0 ≤ x) (h : x < 2 ^ 53) : f64AsU64 x = x.toNat := by
  simp only [f64AsU64, if_neg (by omega : ¬x < 0)]
  omega

/-! ### Lemmas about listMaxI -/

theorem listMaxI_eq_none_iff (l : List Int) : listMaxI l = none ↔ l = [] := by
  cases l with
  | nil => simp [listMaxI]
  | cons x xs =>
    simp only [listMaxI]
    constructor
    · intro h
      cases hm : listMaxI xs <;> simp [hm] at h
    · intro h
      exact absurd h (by simp)

theorem listMaxI_append (l1 l2 : List Int) :
    listMaxI (l1 ++ l2) =
      match listMaxI l1, listMaxI l2 with
      | none, o => o
      | some a, none => some a
      | some a, some b => some (max a b) := by
  induction l1 with
  | nil => simp [listMaxI]
  | cons x xs ih =>
    cases h1 : listMaxI xs <;> cases h2 : listMaxI l2 <;>
      simp [listMaxI, ih, h1, h2, max_assoc]

theorem listMaxI_append_last (A : List Int) (m : Int) (h : ∀ x ∈ A, x < m) :
    listMaxI (A ++ [m]) = some m := by
  induction A with
  | nil => rfl
  | cons a A ih =>
    have ihm := ih (fun x hx => h x (List.mem_cons_of_mem a hx))
    have ha := h a (List.mem_cons_self a A)
    simp only [List.cons_append, listMaxI, List.append_eq, ihm, Option.some.injEq]
    exact max_eq_right ha.le

theorem listMaxI_mem_le (l : List Int) :
    ∀ m, listMaxI l = some m → m ∈ l ∧ ∀ x ∈ l, x ≤ m := by
  induction l with
  | nil => intro m h; simp [listMaxI] at h
  | cons a l ih =>
    intro m h
    simp only [listMaxI] at h
    cases hl : listMaxI l with
    | none =>
      rw [hl] at h
      simp only [Option.some.injEq] at h
      rw [listMaxI_eq_none_iff] at hl
      subst hl
      simp [← h]
    | some m0 =>
      rw [hl] at h
      simp only [Option.some.injEq] at h
      obtain ⟨hm0, hle⟩ := ih m0 hl
      constructor
      · rcases max_cases a m0 with ⟨he, _⟩ | ⟨he, _⟩
        · rw [← h, he]; exact List.mem_cons_self a l
        · rw [← h, he]; exact List.mem_cons_of_mem a hm0
      · intro x hx
        rcases List.mem_cons.mp hx with hx | hx
        · rw [hx, ← h]; exact le_max_left a m0
        · exact le_trans (hle x hx) (by rw [← h]; exact le_max_right a m0)

/-! ### Lemmas about the offset log -/

theorem mkEntries_offset_ge :
    ∀ (ps : List (List Nat)) (off : Nat), ∀ e ∈ mkEntries off ps, off ≤ e.offset := by
  intro ps
  induction ps with
  | nil => intro off e he; simp [mkEntries] at he
  | cons p ps ih =>
    intro off e he
    simp only [mkEntries, List.mem_cons] at he
    rcases he with he | he
    · rw [he]
    · have := ih (off + p.length + 12) e he
      omega

theorem mkEntries_pairwise :
    ∀ (ps : List (List Nat)) (off : Nat),
      (mkEntries off ps).Pairwise (fun a b => a.offset < b.offset) := by
  intro ps
  induction ps with
  | nil => intro off; simp [mkEntries]
  | cons p ps ih =>
    intro off
    simp only [mkEntries]
    refine List.Pairwise.cons ?_ (ih _)
    intro e he
    have := mkEntries_offset_ge ps (off + p.length + 12) e he
    show off < e.offset
    omega

theorem logEntries_pairwise (L : List (List Nat)) :
    (logEntries L).Pairwise (fun a b => a.offset < b.offset) := mkEntries_pairwise L 0

theorem find?_offset (es : List LogEntry) (hp : es.Pairwise (fun a b => a.offset < b.offset)) :
    ∀ e ∈ es, es.find? (fun x => x.offset == e.offset) = some e := by
  induction es with
  | nil => intro e he; simp at he
  | cons a es ih =>
    intro e he
    rcases List.mem_cons.mp he with he | he
    · rw [he]
      simp [List.find?]
    · have ha : a.offset < e.offset := (List.pairwise_cons.mp hp).1 e he
      have hne : (a.offset == e.offset) = false := by
        simp only [beq_eq_false_iff_ne, ne_eq]
        omega
      simp only [List.find?, hne]
      exact ih (List.pairwise_cons.mp hp).2 e he

theorem logGet_mem (L : List (List Nat)) (e : LogEntry) (he : e ∈ logEntries L) :
    logGet L e.offset = some e.data := by
  simp only [logGet]
  rw [find?_offset (logEntries L) (logEntries_pairwise L) e he]
  rfl

theorem filter_gt_decomp (e : LogEntry) :
    ∀ (l1 l2 : List LogEntry),
      (l1 ++ e :: l2).Pairwise (fun a b => a.offset < b.offset) →
      (l1 ++ e :: l2).filter (fun x => decide (e.offset < x.offset)) = l2 := by
  intro l1
  induction l1 with
  | nil =>
    intro l2 hs
    rw [List.nil_append] at hs
    have h2 := List.pairwise_cons.mp hs
    simp only [List.nil_append, List.filter_cons]
    rw [if_neg (by simp)]
    rw [List.filter_eq_self.mpr]
    intro b hb
    simp only [decide_eq_true_eq]
    exact h2.1 b hb
  | cons a l1 ih =>
    intro l2 hs
    rw [List.cons_append] at hs
    have hcons := List.pairwise_cons.mp hs
    have hae : a.offset < e.offset := hcons.1 e (by simp)
    simp only [List.cons_append, List.filter_cons]
    rw [if_neg (by simp only [decide_eq_true_eq]; omega)]
    exact ih l2 hcons.2

theorem filter_ge_decomp (e : LogEntry) :
    ∀ (l1 l2 : List LogEntry),
      (l1 ++ e :: l2).Pairwise (fun a b => a.offset < b.offset) →
      (l1 ++ e :: l2).filter (fun x => decide (e.offset ≤ x.offset)) = e :: l2 := by
  intro l1
  induction l1 with
  | nil =>
    intro l2 hs
    rw [List.nil_append] at hs
    have h2 := List.pairwise_cons.mp hs
    simp only [List.nil_append, List.filter_cons]
    rw [if_pos (by simp)]
    congr 1
    rw [List.filter_eq_self.mpr]
    intro b hb
    simp only [decide_eq_true_eq]
    exact le_of_lt (h2.1 b hb)
  | cons a l1 ih =>
    intro l2 hs
    rw [List.cons_append] at hs
    have hcons := List.pairwise_cons.mp hs
    have hae : a.offset < e.offset := hcons.1 e (by simp)
    simp only [List.cons_append, List.filter_cons]
    rw [if_neg (by simp only [decide_eq_true_eq]; omega)]
    exact ih l2 hcons.2

theorem iter_at_offset_decomp (L : List (List Nat)) (l1 : List LogEntry) (e : LogEntry)
    (l2 : List LogEntry) (hdec : logEntries L = l1 ++ e :: l2) :
    iter_at_offset L e.offset = e :: l2 := by
  have hp := logEntries_pairwise L
  rw [hdec] at hp
  simp only [iter_at_offset, hdec]
  exact filter_ge_decomp e l1 l2 hp

theorem iter_at_offset_zero (L : List (List Nat)) : iter_at_offset L 0 = logEntries L := by
  simp only [iter_at_offset]
  rw [List.filter_eq_self.mpr]
  intro e _
  simp

/-! ### Lemmas about parseable frames -/

theorem parseEntry_offset {e : LogEntry} {t : Nat × SsbMessage} (h : parseEntry e = some t) :
    t.1 = e.offset ∧ parseSsbMessage e.data = some t.2 := by
  simp only [parseEntry] at h
  cases hq : parseSsbMessage e.data with
  | none => rw [hq] at h; exact Option.noConfusion h
  | some m =>
    rw [hq] at h
    simp only [Option.map_some', Option.some.injEq] at h
    rw [← h]
    exact ⟨rfl, rfl⟩

theorem parseEntry_of_parse {e : LogEntry} {m : SsbMessage} (h : parseSsbMessage e.data = some m) :
    parseEntry e = some (e.offset, m) := by
  simp [parseEntry, h]

theorem parseEntry_none {e : LogEntry} (h : parseSsbMessage e.data = none) :
    parseEntry e = none := by
  simp [parseEntry, h]

theorem parseableMsgs_eq (L : List (List Nat)) :
    parseableMsgs L = (logEntries L).filterMap parseEntry := by
  simp only [parseableMsgs, parseablesR]
  rw [List.map_filterMap]
  congr 1
  funext e
  cases hq : parseSsbMessage e.data <;> simp [parseEntry, hq]

theorem parseableOffsets_eq (L : List (List Nat)) :
    parseableOffsets L = (parseableMsgs L).map (fun t => t.1) := by
  simp only [parseableOffsets, parseableMsgs]
  rw [List.map_map]
  rfl

theorem pairwise_filterMap_fst (es : List LogEntry)
    (hp : es.Pairwise (fun a b => a.offset < b.offset)) :
    (es.filterMap parseEntry).Pairwise (fun a b => a.1 < b.1) := by
  induction es with
  | nil => simp
  | cons a es ih =>
    obtain ⟨h1, h2⟩ := List.pairwise_cons.mp hp
    simp only [List.filterMap_cons]
    cases hpa : parseEntry a with
    | none => exact ih h2
    | some t =>
      refine List.Pairwise.cons ?_ (ih h2)
      intro u hu
      obtain ⟨e1, he1, hpe1⟩ := List.mem_filterMap.mp hu
      have hta := (parseEntry_offset hpa).1
      have hua := (parseEntry_offset hpe1).1
      rw [hta, hua]
      exact h1 e1 he1

theorem filterMap_eq_append_cons {α β : Type} (f : α → Option β) :
    ∀ (l : List α) (y1 : List β) (y : β) (y2 : List β),
      l.filterMap f = y1 ++ y :: y2 →
      ∃ l1 x l2, l = l1 ++ x :: l2 ∧ f x = some y ∧ l1.filterMap f = y1 ∧
        l2.filterMap f = y2 := by
  intro l
  induction l with
  | nil =>
    intro y1 y y2 h
    simp only [List.filterMap_nil] at h
    exact absurd h.symm (by simp)
  | cons a l ih =>
    intro y1 y y2 h
    simp only [List.filterMap_cons] at h
    cases hfa : f a with
    | none =>
      rw [hfa] at h
      obtain ⟨l1, x, l2, hdec, hfx, h1, h2⟩ := ih y1 y y2 h
      exact ⟨a :: l1, x, l2, by rw [hdec]; rfl, hfx, by simp [List.filterMap_cons, hfa, h1], h2⟩
    | some b =>
      rw [hfa] at h
      cases y1 with
      | nil =>
        simp only [List.nil_append, List.cons.injEq] at h
        exact ⟨[], a, l, rfl, by rw [hfa, h.1], rfl, h.2⟩
      | cons c y1 =>
        simp only [List.cons_append, List.cons.injEq] at h
        obtain ⟨l1, x, l2, hdec, hfx, h1, h2⟩ := ih y1 y y2 h.2
        exact ⟨a :: l1, x, l2, by rw [hdec]; rfl, hfx,
          by simp [List.filterMap_cons, hfa, h1, h.1], h2⟩

theorem filterMap_filter_comm (es : List LogEntry) (c : Nat) :
    (es.filter (fun x => decide (c < x.offset))).filterMap parseEntry =
      (es.filterMap parseEntry).filter (fun t => decide (c < t.1)) := by
  induction es with
  | nil => rfl
  | cons a es ih =>
    simp only [List.filter_cons, List.filterMap_cons]
    cases hpa : parseEntry a with
    | none =>
      split_ifs with hc
      · simp only [List.filterMap_cons, hpa]
        exact ih
      · exact ih
    | some t =>
      have hta := (parseEntry_offset hpa).1
      split_ifs with hc
      · simp only [List.filterMap_cons, hpa, List.filter_cons]
        rw [if_pos (by rw [hta]; exact hc)]
        rw [ih]
      · simp only [List.filter_cons]
        rw [if_neg (by rw [hta]; exact hc)]
        exact ih

/-! ### Lemmas about append_item and runItems -/

theorem append_item_none (st : IndexState) (o : Nat) (raw : List Nat)
    (h : parseSsbMessage raw = none) : append_item st o raw = .ok st := by
  simp [append_item, h]

theorem append_item_some (st : IndexState) (o : Nat) (raw : List Nat) (m : SsbMessage)
    (hp : parseSsbMessage raw = some m)
    (hfresh : ∀ x ∈ flumeSeqs st, x < u64AsI64 o) :
    ∃ st1, append_item st o raw = .ok st1 ∧
      ∃ kid aid,
        st1.messages = st.messages ++ [⟨u64AsI64 o, u32AsI32 m.value.sequence, kid, aid⟩] ∧
        st1.authors = (find_or_create_author (find_or_create_key st m.key).1 m.value.author).1.authors ∧
        st1.keys = (find_or_create_key st m.key).1.keys := by
  have hmsg :
      ((find_or_create_author (find_or_create_key st m.key).1 m.value.author).1).messages =
        st.messages := rfl
  have hany :
      ((find_or_create_author (find_or_create_key st m.key).1 m.value.author).1).messages.any
        (fun r => r.flume_seq == u64AsI64 o) = false := by
    rw [hmsg, List.any_eq_false]
    intro r hr
    have := hfresh r.flume_seq (List.mem_map_of_mem MessageRow.flume_seq hr)
    simp only [beq_iff_eq]
    omega
  simp only [append_item, hp, insert_message, hany, Bool.false_eq_true, if_false]
  refine ⟨_, rfl, (find_or_create_key st m.key).2,
    (find_or_create_author (find_or_create_key st m.key).1 m.value.author).2, ?_, rfl, rfl⟩
  rw [← hmsg]

theorem runItems_flume : ∀ (es : List LogEntry) (st : IndexState),
    (∀ e ∈ es, ∀ x ∈ flumeSeqs st, x < u64AsI64 e.offset) →
    es.Pairwise (fun a b => a.offset < b.offset) →
    (∀ e ∈ es, e.offset < 2 ^ 63) →
    ∃ st1, runItems st es = .ok st1 ∧
      flumeSeqs st1 = flumeSeqs st ++ ((es.filterMap parseEntry).map (fun t => u64AsI64 t.1)) := by
  intro es
  induction es with
  | nil =>
    intro st _ _ _
    exact ⟨st, rfl, by simp⟩
  | cons e es ih =>
    intro st hfresh hp hb
    obtain ⟨hph, hpt⟩ := List.pairwise_cons.mp hp
    cases hq : parseSsbMessage e.data with
    | none =>
      have h1 := append_item_none st e.offset e.data hq
      obtain ⟨st1, hrun, hfl⟩ :=
        ih st (fun e1 he1 x hx => hfresh e1 (List.mem_cons_of_mem e he1) x hx) hpt
          (fun e1 he1 => hb e1 (List.mem_cons_of_mem e he1))
      refine ⟨st1, ?_, ?_⟩
      · simp only [runItems, h1]
        exact hrun
      · rw [hfl]
        simp [List.filterMap_cons, parseEntry_none hq]
    | some m =>
      obtain ⟨st1, hrun1, kid, aid, hmsg1, _, _⟩ :=
        append_item_some st e.offset e.data m hq (hfresh e (List.mem_cons_self e es))
      have hfl1 : flumeSeqs st1 = flumeSeqs st ++ [u64AsI64 e.offset] := by
        simp [flumeSeqs, hmsg1]
      have hfresh1 : ∀ e1 ∈ es, ∀ x ∈ flumeSeqs st1, x < u64AsI64 e1.offset := by
        intro e1 he1 x hx
        rw [hfl1] at hx
        rcases List.mem_append.mp hx with hx | hx
        · exact hfresh e1 (List.mem_cons_of_mem e he1) x hx
        · simp only [List.mem_singleton] at hx
          rw [hx]
          exact u64AsI64_lt (hb e (List.mem_cons_self e es))
            (hb e1 (List.mem_cons_of_mem e he1)) (hph e1 he1)
      obtain ⟨st2, hrun2, hfl2⟩ :=
        ih st1 hfresh1 hpt (fun e1 he1 => hb e1 (List.mem_cons_of_mem e he1))
      refine ⟨st2, ?_, ?_⟩
      · simp only [runItems, hrun1]
        exact hrun2
      · rw [hfl2, hfl1]
        simp [List.filterMap_cons, parseEntry_of_parse hq]

theorem runItems_noop (es : List LogEntry) : ∀ st,
    (∀ e ∈ es, parseSsbMessage e.data = none) → runItems st es = .ok st := by
  induction es with
  | nil => intro st _; rfl
  | cons e es ih =>
    intro st h
    simp only [runItems, append_item_none st e.offset e.data (h e (List.mem_cons_self e es))]
    exact ih st (fun e1 he1 => h e1 (List.mem_cons_of_mem e he1))

theorem runItems_append (l1 l2 : List LogEntry) : ∀ st,
    runItems st (l1 ++ l2) =
      match runItems st l1 with
      | .ok st1 => runItems st1 l2
      | .error err => .error err := by
  induction l1 with
  | nil => intro st; rfl
  | cons e l1 ih =>
    intro st
    simp only [List.cons_append, runItems]
    cases h : append_item st e.offset e.data with
    | ok st1 =>
      simp only [h]
      exact ih st1
    | error err => simp only [h]

/-! ### Lemmas about chunking -/

theorem chunksGo_join : ∀ (f : Nat) (l : List LogEntry), l.length ≤ f →
    (chunksGo f l).flatten = l := by
  intro f
  induction f with
  | zero =>
    intro l h
    cases l with
    | nil => rfl
    | cons e es => simp at h
  | succ f ih =>
    intro l h
    cases l with
    | nil => rfl
    | cons e es =>
      simp only [chunksGo, List.flatten_cons]
      rw [ih]
      · exact List.take_append_drop 10000 (e :: es)
      · simp only [List.length_drop, List.length_cons] at *
        omega

theorem chunks10000_join (l : List LogEntry) : (chunks10000 l).flatten = l :=
  chunksGo_join l.length l le_rfl

theorem runChunks_all_ok (cs : List (List LogEntry)) : ∀ (i : Nat) (st st1 : IndexState),
    runItems st cs.flatten = .ok st1 → runChunks Env.ok i st cs = (st1, none) := by
  induction cs with
  | nil =>
    intro i st st1 h
    simp only [List.flatten_nil, runItems] at h
    cases h
    rfl
  | cons c cs ih =>
    intro i st st1 h
    rw [List.flatten_cons, runItems_append] at h
    cases hc : runItems st c with
    | ok stc =>
      rw [hc] at h
      simp only [runChunks, show Env.ok.txnOk i = true from rfl, if_true, hc]
      exact ih (i + 1) stc st1 h
    | error err =>
      rw [hc] at h
      exact Except.noConfusion h

/-! ### Lemmas about the author/key dictionaries -/

theorem dictFrom_append (s1 : List (List Nat)) :
    ∀ (i : Int) (s2 : List (List Nat)),
      dictFrom i (s1 ++ s2) = dictFrom i s1 ++ dictFrom (i + s1.length) s2 := by
  induction s1 with
  | nil => intro i s2; simp [dictFrom]
  | cons x xs ih =>
    intro i s2
    have harith : i + 1 + (xs.length : Int) = i + ((x :: xs).length : Int) := by
      simp only [List.length_cons]
      push_cast
      ring
    simp only [List.cons_append, List.append_eq, dictFrom, ih (i + 1) s2, harith]

theorem dictFrom_find?_mem (a : List Nat) :
    ∀ (seen : List (List Nat)) (i : Int), a ∈ seen →
      (dictFrom i seen).find? (fun p => p.2 == a) = some (i + (posOf seen a : Int), a) := by
  intro seen
  induction seen with
  | nil => intro i h; simp at h
  | cons x xs ih =>
    intro i h
    by_cases hx : x = a
    · subst hx
      simp [dictFrom, List.find?, posOf]
    · have hmem : a ∈ xs := by
        rcases List.mem_cons.mp h with h1 | h1
        · exact absurd h1.symm hx
        · exact h1
      have hbeq : (x == a) = false := by
        simp only [beq_eq_false_iff_ne, ne_eq]
        exact hx
      simp only [dictFrom, List.find?, hbeq, posOf, if_neg hx]
      rw [ih (i + 1) hmem]
      simp only [Option.some.injEq, Prod.mk.injEq, and_true]
      push_cast
      ring

theorem dictFrom_find?_not_mem (a : List Nat) :
    ∀ (seen : List (List Nat)) (i : Int), a ∉ seen →
      (dictFrom i seen).find? (fun p => p.2 == a) = none := by
  intro seen
  induction seen with
  | nil => intro i _; rfl
  | cons x xs ih =>
    intro i h
    have hx : x ≠ a := fun he => h (he ▸ List.mem_cons_self x xs)
    have hbeq : (x == a) = false := by
      simp only [beq_eq_false_iff_ne, ne_eq]
      exact hx
    simp only [dictFrom, List.find?, hbeq]
    exact ih (i + 1) (fun hmem => h (List.mem_cons_of_mem x hmem))

theorem dictFrom_ids_bound :
    ∀ (seen : List (List Nat)) (i : Int), ∀ p ∈ dictFrom i seen,
      i ≤ p.1 ∧ p.1 < i + seen.length := by
  intro seen
  induction seen with
  | nil => intro i p hp; simp [dictFrom] at hp
  | cons x xs ih =>
    intro i p hp
    simp only [dictFrom, List.mem_cons] at hp
    rcases hp with hp | hp
    · rw [hp]
      simp only [List.length_cons]
      push_cast
      omega
    · have := ih (i + 1) p hp
      simp only [List.length_cons]
      push_cast at this ⊢
      omega

theorem dictFrom_maxId (seen : List (List Nat)) (i : Int) (hne : seen ≠ []) :
    listMaxI ((dictFrom i seen).map Prod.fst) = some (i + seen.length - 1) := by
  rcases List.eq_nil_or_concat seen with h | ⟨s, a, h⟩
  · exact absurd h hne
  · subst h
    rw [List.concat_eq_append, dictFrom_append s i [a], List.map_append]
    simp only [dictFrom, List.map_cons, List.map_nil]
    rw [listMaxI_append_last]
    · simp only [Option.some.injEq, List.length_append, List.length_singleton]
      push_cast
      ring
    · intro x hx
      obtain ⟨p, hp, hpx⟩ := List.mem_map.mp hx
      have := dictFrom_ids_bound s i p hp
      omega

theorem posOf_append_of_mem (a : List Nat) :
    ∀ (l l2 : List (List Nat)), a ∈ l → posOf (l ++ l2) a = posOf l a := by
  intro l
  induction l with
  | nil => intro l2 h; simp at h
  | cons x xs ih =>
    intro l2 h
    by_cases hx : x = a
    · simp [posOf, hx]
    · have hmem : a ∈ xs := by
        rcases List.mem_cons.mp h with h1 | h1
        · exact absurd h1.symm hx
        · exact h1
      simp only [List.cons_append, List.append_eq, posOf, if_neg hx]
      rw [ih l2 hmem]

theorem posOf_append_not_mem (a : List Nat) :
    ∀ (l : List (List Nat)), a ∉ l → posOf (l ++ [a]) a = l.length := by
  intro l
  induction l with
  | nil => intro _; simp [posOf]
  | cons x xs ih =>
    intro h
    have hx : x ≠ a := fun he => h (he ▸ List.mem_cons_self x xs)
    simp only [List.cons_append, List.append_eq, posOf, if_neg hx, List.length_cons]
    rw [ih (fun hmem => h (List.mem_cons_of_mem x hmem))]

theorem insSeen_posOf_of_mem (seen : List (List Nat)) (a b : List Nat) (hb : b ∈ seen) :
    posOf (insSeen seen a) b = posOf seen b := by
  simp only [insSeen]
  split_ifs with hmem
  · rfl
  · exact posOf_append_of_mem b seen [a] hb

theorem mem_insSeen_self (seen : List (List Nat)) (a : List Nat) : a ∈ insSeen seen a := by
  simp only [insSeen]
  split_ifs with hmem
  · exact hmem
  · simp

theorem insSeen_posOf_self (seen : List (List Nat)) (a : List Nat) :
    a ∈ insSeen seen a ∧
      (a ∈ seen → posOf (insSeen seen a) a = posOf seen a) ∧
      (a ∉ seen → posOf (insSeen seen a) a = seen.length) := by
  refine ⟨mem_insSeen_self seen a, fun h => insSeen_posOf_of_mem seen a a h, fun h => ?_⟩
  simp only [insSeen, if_neg h]
  exact posOf_append_not_mem a seen h

theorem findOrCreate_dictOf (seen : List (List Nat)) (a : List Nat) :
    findOrCreate (dictOf seen) a =
      (dictOf (insSeen seen a), (posOf (insSeen seen a) a : Int) + 1) := by
  by_cases hmem : a ∈ seen
  · have hins : insSeen seen a = seen := by simp [insSeen, hmem]
    simp only [findOrCreate, dictOf, dictFrom_find?_mem a seen 1 hmem, hins,
      insSeen_posOf_of_mem seen a a hmem, Prod.mk.injEq]
    exact ⟨trivial, by ring⟩
  · have hins : insSeen seen a = seen ++ [a] := by simp [insSeen, hmem]
    simp only [findOrCreate, dictOf, dictFrom_find?_not_mem a seen 1 hmem]
    cases seen with
    | nil => simp [dictFrom, listMaxI, hins, posOf]
    | cons x xs =>
      rw [dictFrom_maxId (x :: xs) 1 (by simp)]
      simp only [Option.getD_some]
      rw [hins, dictFrom_append (x :: xs) 1 [a], posOf_append_not_mem a (x :: xs) hmem]
      simp only [Prod.mk.injEq]
      constructor
      · simp only [dictFrom]
        congr 3
        push_cast
        ring
      · push_cast
        ring

/-! ### Lemmas about the canonical index -/

theorem seenOf_go : ∀ (l acc : List (List Nat)) (a : List Nat),
    a ∈ l.foldl insSeen acc ↔ a ∈ acc ∨ a ∈ l := by
  intro l
  induction l with
  | nil => intro acc a; simp
  | cons x xs ih =>
    intro acc a
    simp only [List.foldl_cons, ih, List.mem_cons]
    constructor
    · rintro (h | h)
      · simp only [insSeen] at h
        split_ifs at h with hx
        · exact Or.inl h
        · rcases List.mem_append.mp h with h | h
          · exact Or.inl h
          · simp only [List.mem_singleton] at h
            exact Or.inr (Or.inl h)
      · exact Or.inr (Or.inr h)
    · rintro (h | h | h)
      · left
        simp only [insSeen]
        split_ifs with hx
        · exact h
        · exact List.mem_append_left _ h
      · left
        subst h
        exact mem_insSeen_self acc a
      · right
        exact h

theorem mem_seenOf (l : List (List Nat)) (a : List Nat) : a ∈ seenOf l ↔ a ∈ l := by
  rw [seenOf, seenOf_go]
  simp

theorem seenOf_append_one (l : List (List Nat)) (a : List Nat) :
    seenOf (l ++ [a]) = insSeen (seenOf l) a := by
  simp [seenOf, List.foldl_append]

theorem canonicalSt_nil : canonicalSt [] = emptyIndex := rfl

theorem append_item_canonical (ps : List (Nat × SsbMessage)) (o : Nat) (raw : List Nat)
    (m : SsbMessage) (hp : parseSsbMessage raw = some m)
    (hfresh : ∀ p ∈ ps, p.1 < o) (hbo : o < 2 ^ 63) (hbp : ∀ p ∈ ps, p.1 < 2 ^ 63) :
    append_item (canonicalSt ps) o raw = .ok (canonicalSt (ps ++ [(o, m)])) := by
  have hany : (canonicalSt ps).messages.any (fun r => r.flume_seq == u64AsI64 o) = false := by
    rw [List.any_eq_false]
    intro r hr
    simp only [canonicalSt, List.mem_map] at hr
    obtain ⟨p, hpmem, hpr⟩ := hr
    simp only [beq_iff_eq]
    rw [← hpr]
    show u64AsI64 p.1 ≠ u64AsI64 o
    rw [u64AsI64_small (hbp p hpmem), u64AsI64_small hbo]
    have := hfresh p hpmem
    omega
  have hseenK : seenOf ((ps ++ [(o, m)]).map (fun p => p.2.key)) =
      insSeen (seenOf (ps.map (fun p => p.2.key))) m.key := by
    rw [List.map_append]
    simp only [List.map_cons, List.map_nil]
    rw [seenOf_append_one]
  have hseenA : seenOf ((ps ++ [(o, m)]).map (fun p => p.2.value.author)) =
      insSeen (seenOf (ps.map (fun p => p.2.value.author))) m.value.author := by
    rw [List.map_append]
    simp only [List.map_cons, List.map_nil]
    rw [seenOf_append_one]
  have hrows : (ps ++ [(o, m)]).map (fun p =>
      (⟨u64AsI64 p.1, u32AsI32 p.2.value.sequence,
        (posOf (insSeen (seenOf (ps.map (fun q => q.2.key))) m.key) p.2.key : Int) + 1,
        (posOf (insSeen (seenOf (ps.map (fun q => q.2.value.author))) m.value.author)
          p.2.value.author : Int) + 1⟩ : MessageRow)) =
      ps.map (fun p =>
        (⟨u64AsI64 p.1, u32AsI32 p.2.value.sequence,
          (posOf (seenOf (ps.map (fun q => q.2.key))) p.2.key : Int) + 1,
          (posOf (seenOf (ps.map (fun q => q.2.value.author))) p.2.value.author : Int) + 1⟩ :
            MessageRow)) ++
        [⟨u64AsI64 o, u32AsI32 m.value.sequence,
          (posOf (insSeen (seenOf (ps.map (fun q => q.2.key))) m.key) m.key : Int) + 1,
          (posOf (insSeen (seenOf (ps.map (fun q => q.2.value.author))) m.value.author)
            m.value.author : Int) + 1⟩] := by
    rw [List.map_append]
    congr 1
    apply List.map_congr_left
    intro p hpmem
    have hkmem : p.2.key ∈ seenOf (ps.map (fun q => q.2.key)) :=
      (mem_seenOf _ _).mpr (List.mem_map_of_mem _ hpmem)
    have hamem : p.2.value.author ∈ seenOf (ps.map (fun q => q.2.value.author)) :=
      (mem_seenOf _ _).mpr (List.mem_map_of_mem _ hpmem)
    rw [insSeen_posOf_of_mem _ _ _ hkmem, insSeen_posOf_of_mem _ _ _ hamem]
  simp only [canonicalSt] at hany ⊢
  simp only [append_item, hp, find_or_create_key, findOrCreate_dictOf, find_or_create_author,
    insert_message, hany, Bool.false_eq_true, if_false, hseenK, hseenA]
  rw [hrows]

theorem runItems_canonical : ∀ (es : List LogEntry) (ps : List (Nat × SsbMessage)),
    (∀ e ∈ es, ∀ p ∈ ps, p.1 < e.offset) →
    es.Pairwise (fun a b => a.offset < b.offset) →
    (∀ e ∈ es, e.offset < 2 ^ 63) → (∀ p ∈ ps, p.1 < 2 ^ 63) →
    runItems (canonicalSt ps) es = .ok (canonicalSt (ps ++ es.filterMap parseEntry)) := by
  intro es
  induction es with
  | nil =>
    intro ps _ _ _ _
    simp [runItems]
  | cons e es ih =>
    intro ps hfresh hp hbe hbp
    obtain ⟨hph, hpt⟩ := List.pairwise_cons.mp hp
    cases hq : parseSsbMessage e.data with
    | none =>
      simp only [runItems, append_item_none _ e.offset e.data hq]
      rw [ih ps (fun e1 he1 p hpm => hfresh e1 (List.mem_cons_of_mem e he1) p hpm) hpt
        (fun e1 he1 => hbe e1 (List.mem_cons_of_mem e he1)) hbp]
      simp [List.filterMap_cons, parseEntry_none hq]
    | some m =>
      have hstep := append_item_canonical ps e.offset e.data m hq
        (fun p hpm => hfresh e (List.mem_cons_self e es) p hpm)
        (hbe e (List.mem_cons_self e es)) hbp
      simp only [runItems, hstep]
      have hfresh1 : ∀ e1 ∈ es, ∀ p ∈ ps ++ [(e.offset, m)], p.1 < e1.offset := by
        intro e1 he1 p hpm
        rcases List.mem_append.mp hpm with hpm | hpm
        · exact hfresh e1 (List.mem_cons_of_mem e he1) p hpm
        · simp only [List.mem_singleton] at hpm
          rw [hpm]
          exact hph e1 he1
      have hbp1 : ∀ p ∈ ps ++ [(e.offset, m)], p.1 < 2 ^ 63 := by
        intro p hpm
        rcases List.mem_append.mp hpm with hpm | hpm
        · exact hbp p hpm
        · simp only [List.mem_singleton] at hpm
          rw [hpm]
          exact hbe e (List.mem_cons_self e es)
      rw [ih (ps ++ [(e.offset, m)]) hfresh1 hpt
        (fun e1 he1 => hbe e1 (List.mem_cons_of_mem e he1)) hbp1]
      simp [List.filterMap_cons, parseEntry_of_parse hq]

theorem buildIndexFromLog_eq (L : List (List Nat))
    (hb : ∀ e ∈ logEntries L, e.offset < 2 ^ 63) :
    update_indexes_from_offset_file Env.ok L emptyIndex =
      (canonicalSt (parseableMsgs L), none) := by
  have hstart : startingOffset emptyIndex = 0 := rfl
  have hskip : numToSkip emptyIndex = 0 := rfl
  simp only [update_indexes_from_offset_file, show Env.ok.getLatestOk = true from rfl, if_true,
    hstart, hskip, List.drop_zero, iter_at_offset_zero]
  apply runChunks_all_ok
  rw [chunks10000_join]
  rw [← canonicalSt_nil, runItems_canonical (logEntries L) [] (by simp) (logEntries_pairwise L)
    hb (by simp)]
  rw [parseableMsgs_eq]
  simp

/-! ### The incremental indexing window -/

theorem offsets_map_eq (L : List (List Nat)) :
    (parseableOffsets L).map u64AsI64 = (parseableMsgs L).map (fun t => u64AsI64 t.1) := by
  rw [parseableOffsets_eq, List.map_map]
  rfl

theorem parseableMsgs_mem (L : List (List Nat)) (t : Nat × SsbMessage)
    (ht : t ∈ parseableMsgs L) :
    ∃ e ∈ logEntries L, e.offset = t.1 ∧ parseSsbMessage e.data = some t.2 := by
  rw [parseableMsgs_eq] at ht
  obtain ⟨e, he, hpe⟩ := List.mem_filterMap.mp ht
  obtain ⟨h1, h2⟩ := parseEntry_offset hpe
  exact ⟨e, he, h1.symm, h2⟩

theorem parseEntry_eq_none {e : LogEntry} : parseEntry e = none ↔ parseSsbMessage e.data = none := by
  constructor
  · intro h
    cases hq : parseSsbMessage e.data with
    | none => rfl
    | some m => rw [parseEntry_of_parse hq] at h; exact Option.noConfusion h
  · exact parseEntry_none

theorem maxFlumeSeq_eq (st : IndexState) : maxFlumeSeq st = listMaxI (flumeSeqs st) := rfl

theorem consistent_window (L : List (List Nat)) (st : IndexState) (hsl : smallLog L) (k0 : Nat)
    (hk0 : flumeSeqs st = ((parseableOffsets L).map u64AsI64).take k0)
    (hne : flumeSeqs st ≠ []) :
    ∃ (x : LogEntry) (l2 : List LogEntry),
      startingOffset st = x.offset ∧ numToSkip st = 1 ∧
      iter_at_offset L x.offset = x :: l2 ∧
      l2.Pairwise (fun a b => a.offset < b.offset) ∧
      (∀ e ∈ l2, e ∈ logEntries L) ∧
      (∀ e ∈ l2, ∀ v ∈ flumeSeqs st, v < u64AsI64 e.offset) ∧
      l2.filterMap parseEntry =
        (parseableMsgs L).drop ((parseableMsgs L).take k0).length ∧
      flumeSeqs st ++
          (((parseableMsgs L).drop ((parseableMsgs L).take k0).length).map
            (fun t => u64AsI64 t.1)) =
        (parseableOffsets L).map u64AsI64 := by
  have hPk : (parseableMsgs L).take k0 ≠ [] := by
    intro hnil
    apply hne
    rw [hk0, offsets_map_eq, ← List.map_take, hnil]
    rfl
  rcases List.eq_nil_or_concat ((parseableMsgs L).take k0) with h | ⟨q, tH, hqt⟩
  · exact absurd h hPk
  have hTpref : (parseableMsgs L).take k0 =
      (parseableMsgs L).take ((parseableMsgs L).take k0).length :=
    List.prefix_iff_eq_take.mp (List.take_prefix k0 (parseableMsgs L))
  have hPdec : parseableMsgs L =
      q ++ tH :: (parseableMsgs L).drop ((parseableMsgs L).take k0).length := by
    conv_lhs =>
      rw [← List.take_append_drop ((parseableMsgs L).take k0).length (parseableMsgs L)]
    rw [← hTpref, hqt, List.concat_eq_append, List.append_assoc, List.singleton_append]
  obtain ⟨l1, x, l2, hLdec, hpx, hfm1, hfm2⟩ :=
    filterMap_eq_append_cons parseEntry (logEntries L) q tH
      ((parseableMsgs L).drop ((parseableMsgs L).take k0).length)
      (by rw [← parseableMsgs_eq]; exact hPdec)
  have hxoff : x.offset = tH.1 := ((parseEntry_offset hpx).1).symm
  have hxmem : x ∈ logEntries L := by
    rw [hLdec]
    exact List.mem_append_right _ (List.mem_cons_self x l2)
  have hPp : (parseableMsgs L).Pairwise (fun a b => a.1 < b.1) := by
    rw [parseableMsgs_eq]
    exact pairwise_filterMap_fst _ (logEntries_pairwise L)
  have hPdecp := hPp
  rw [hPdec] at hPdecp
  have hq_lt : ∀ u ∈ q, u.1 < tH.1 := by
    intro u hu
    exact (List.pairwise_append.mp hPdecp).2.2 u hu tH (List.mem_cons_self tH _)
  have hLp := logEntries_pairwise L
  rw [hLdec] at hLp
  have hl2_gt : ∀ e ∈ l2, x.offset < e.offset :=
    (List.pairwise_cons.mp (List.pairwise_append.mp hLp).2.1).1
  have hl2_pair : l2.Pairwise (fun a b => a.offset < b.offset) :=
    (List.pairwise_cons.mp (List.pairwise_append.mp hLp).2.1).2
  have hl2_mem : ∀ e ∈ l2, e ∈ logEntries L := by
    intro e he
    rw [hLdec]
    exact List.mem_append_right _ (List.mem_cons_of_mem x he)
  have hbtH : tH.1 < 2 ^ 53 := by
    rw [← hxoff]
    exact hsl x hxmem
  have hq_small : ∀ u ∈ q, u.1 < 2 ^ 53 := fun u hu => lt_trans (hq_lt u hu) hbtH
  have hflst : flumeSeqs st = q.map (fun t => u64AsI64 t.1) ++ [u64AsI64 tH.1] := by
    rw [hk0, offsets_map_eq, ← List.map_take, hqt, List.concat_eq_append, List.map_append]
    rfl
  have hmax : maxFlumeSeq st = some (u64AsI64 tH.1) := by
    rw [maxFlumeSeq_eq, hflst]
    apply listMaxI_append_last
    intro v hv
    obtain ⟨u, hu, huv⟩ := List.mem_map.mp hv
    rw [← huv]
    exact u64AsI64_lt (lt_trans (hq_small u hu) (by norm_num))
      (lt_trans hbtH (by norm_num)) (hq_lt u hu)
  have hcast : u64AsI64 tH.1 = (tH.1 : Int) := u64AsI64_small (lt_trans hbtH (by norm_num))
  have hlat : get_latest st = some ((tH.1 : Nat) : Int) := by
    simp only [get_latest, hmax, Option.map_some']
    rw [hcast, i64AsF64_small (by positivity) (by exact_mod_cast hbtH)]
  have hstart : startingOffset st = x.offset := by
    simp only [startingOffset, hlat, Option.map_some', Option.getD_some]
    rw [f64AsU64_small (by positivity) (by exact_mod_cast hbtH)]
    rw [hxoff]
    exact Int.toNat_natCast _
  have hskip : numToSkip st = 1 := by simp [numToSkip, hlat]
  have hiter : iter_at_offset L x.offset = x :: l2 := iter_at_offset_decomp L l1 x l2 hLdec
  refine ⟨x, l2, hstart, hskip, hiter, hl2_pair, hl2_mem, ?_, hfm2, ?_⟩
  · intro e he v hv
    have heb : e.offset < 2 ^ 63 := lt_trans (hsl e (hl2_mem e he)) (by norm_num)
    have hxe : x.offset < e.offset := hl2_gt e he
    rw [hflst] at hv
    rcases List.mem_append.mp hv with hv | hv
    · obtain ⟨u, hu, huv⟩ := List.mem_map.mp hv
      rw [← huv]
      exact u64AsI64_lt (lt_trans (hq_small u hu) (by norm_num)) heb
        (by have := hq_lt u hu; omega)
    · simp only [List.mem_singleton] at hv
      rw [hv]
      exact u64AsI64_lt (lt_trans hbtH (by norm_num)) heb (by omega)
  · rw [hflst, offsets_map_eq]
    conv_rhs => rw [hPdec]
    simp [List.map_append]

theorem update_of_consistent (L : List (List Nat)) (st : IndexState)
    (hsl : smallLog L) (hcons : ConsistentPrefix L st) :
    ∃ st1, update_indexes_from_offset_file Env.ok L st = (st1, none) ∧
      flumeSeqs st1 = (parseableOffsets L).map u64AsI64 := by
  obtain ⟨k0, hk0⟩ := hcons
  by_cases hne : flumeSeqs st = []
  · have hlat : get_latest st = none := by
      simp only [get_latest, maxFlumeSeq_eq, hne]
      rfl
    have hstart : startingOffset st = 0 := by simp [startingOffset, hlat]
    have hskip : numToSkip st = 0 := by simp [numToSkip, hlat]
    obtain ⟨st1, hrun, hfl⟩ := runItems_flume (logEntries L) st
      (by intro e he v hv; rw [hne] at hv; exact absurd hv (List.not_mem_nil v))
      (logEntries_pairwise L)
      (fun e he => lt_trans (hsl e he) (by norm_num))
    refine ⟨st1, ?_, ?_⟩
    · simp only [update_indexes_from_offset_file, show Env.ok.getLatestOk = true from rfl,
        if_true, hstart, hskip, List.drop_zero, iter_at_offset_zero]
      exact runChunks_all_ok _ 0 st st1 (by rw [chunks10000_join]; exact hrun)
    · rw [hfl, hne, List.nil_append, offsets_map_eq, parseableMsgs_eq]
  · obtain ⟨x, l2, hstart, hskip, hiter, hl2p, hl2m, hfresh, hfm, hfinal⟩ :=
      consistent_window L st hsl k0 hk0 hne
    obtain ⟨st1, hrun, hfl⟩ := runItems_flume l2 st hfresh hl2p
      (fun e he => lt_trans (hsl e (hl2m e he)) (by norm_num))
    refine ⟨st1, ?_, ?_⟩
    · simp only [update_indexes_from_offset_file, show Env.ok.getLatestOk = true from rfl,
        if_true, hstart, hskip, hiter, List.drop_one, List.tail_cons]
      exact runChunks_all_ok _ 0 st st1 (by rw [chunks10000_join]; exact hrun)
    · rw [hfl, hfm, ← hfinal]

theorem update_reflects_noop (L : List (List Nat)) (st : IndexState) (hsl : smallLog L)
    (hfull : flumeSeqs st = (parseableOffsets L).map u64AsI64) :
    update_indexes_from_offset_file Env.ok L st = (st, none) := by
  by_cases hne : flumeSeqs st = []
  · have hlat : get_latest st = none := by
      simp only [get_latest, maxFlumeSeq_eq, hne]
      rfl
    have hstart : startingOffset st = 0 := by simp [startingOffset, hlat]
    have hskip : numToSkip st = 0 := by simp [numToSkip, hlat]
    have hP : parseableMsgs L = [] := by
      have : (parseableOffsets L).map u64AsI64 = [] := by rw [← hfull, hne]
      rw [offsets_map_eq] at this
      exact List.map_eq_nil_iff.mp this
    have hall : ∀ e ∈ logEntries L, parseSsbMessage e.data = none := by
      intro e he
      rw [← parseEntry_eq_none]
      have := parseableMsgs_eq L
      rw [hP] at this
      exact List.filterMap_eq_nil_iff.mp this.symm e he
    simp only [update_indexes_from_offset_file, show Env.ok.getLatestOk = true from rfl,
      if_true, hstart, hskip, List.drop_zero, iter_at_offset_zero]
    exact runChunks_all_ok _ 0 st st (by rw [chunks10000_join]; exact runItems_noop _ st hall)
  · obtain ⟨x, l2, hstart, hskip, hiter, hl2p, hl2m, hfresh, hfm, hfinal⟩ :=
      consistent_window L st hsl (parseableOffsets L).length
        (by rw [hfull, List.take_of_length_le (by simp)]) hne
    have hlen : (parseableOffsets L).length = (parseableMsgs L).length := by
      rw [parseableOffsets_eq, List.length_map]
    have hdropnil :
        (parseableMsgs L).drop
          ((parseableMsgs L).take (parseableOffsets L).length).length = [] := by
      rw [List.length_take, hlen, min_self, List.drop_length]
    have hl2none : ∀ e ∈ l2, parseSsbMessage e.data = none := by
      intro e he
      rw [← parseEntry_eq_none]
      rw [hdropnil] at hfm
      exact List.filterMap_eq_nil_iff.mp hfm e he
    simp only [update_indexes_from_offset_file, show Env.ok.getLatestOk = true from rfl,
      if_true, hstart, hskip, hiter, List.drop_one, List.tail_cons]
    exact runChunks_all_ok _ 0 st st
      (by rw [chunks10000_join]; exact runItems_noop l2 st hl2none)

theorem update_run_fixpoint (L : List (List Nat)) (st : IndexState)
    (hsl : smallLog L) (hss : smallState st) :
    ∃ st1, update_indexes_from_offset_file Env.ok L st = (st1, none) ∧
      update_indexes_from_offset_file Env.ok L st1 = (st1, none) := by
  by_cases hne : flumeSeqs st = []
  · obtain ⟨st1, hrun, hfl⟩ := update_of_consistent L st hsl ⟨0, by rw [hne]; rfl⟩
    exact ⟨st1, hrun, update_reflects_noop L st1 hsl hfl⟩
  · obtain ⟨M, hM⟩ : ∃ M, maxFlumeSeq st = some M := by
      cases hq : maxFlumeSeq st with
      | none =>
        rw [maxFlumeSeq_eq, listMaxI_eq_none_iff] at hq
        exact absurd hq hne
      | some m => exact ⟨m, rfl⟩
    obtain ⟨hMmem, hMub⟩ := listMaxI_mem_le _ M (by rw [← maxFlumeSeq_eq]; exact hM)
    obtain ⟨hM0, hM53⟩ := hss M hMmem
    have hMtn : M = (M.toNat : Int) := (Int.toNat_of_nonneg hM0).symm
    have hlat : get_latest st = some M := by
      simp only [get_latest, hM, Option.map_some']
      rw [i64AsF64_small hM0 hM53]
    have hstart : startingOffset st = M.toNat := by
      simp only [startingOffset, hlat, Option.map_some', Option.getD_some]
      exact f64AsU64_small hM0 hM53
    have hskip : numToSkip st = 1 := by simp [numToSkip, hlat]
    cases hF : (logEntries L).filter (fun e => decide (M.toNat ≤ e.offset)) with
    | nil =>
      have hupd : update_indexes_from_offset_file Env.ok L st = (st, none) := by
        simp only [update_indexes_from_offset_file, show Env.ok.getLatestOk = true from rfl,
          if_true, hstart, hskip, iter_at_offset, hF]
        rfl
      exact ⟨st, hupd, hupd⟩
    | cons f0 rest =>
      have hFp : (f0 :: rest).Pairwise (fun a b => a.offset < b.offset) := by
        rw [← hF]
        exact (logEntries_pairwise L).filter _
      obtain ⟨hf0r, hrestp⟩ := List.pairwise_cons.mp hFp
      have hrest_mem : ∀ e ∈ rest, e ∈ logEntries L := by
        intro e he
        have hmem : e ∈ (logEntries L).filter (fun e => decide (M.toNat ≤ e.offset)) := by
          rw [hF]
          exact List.mem_cons_of_mem f0 he
        exact (List.mem_filter.mp hmem).1
      have hf0_ge : M.toNat ≤ f0.offset := by
        have hmem : f0 ∈ (logEntries L).filter (fun e => decide (M.toNat ≤ e.offset)) := by
          rw [hF]
          exact List.mem_cons_self f0 rest
        have := (List.mem_filter.mp hmem).2
        simpa using this
      have hfresh : ∀ e ∈ rest, ∀ v ∈ flumeSeqs st, v < u64AsI64 e.offset := by
        intro e he v hv
        have hvM : v ≤ M := hMub v hv
        have heoff : f0.offset < e.offset := hf0r e he
        have heb : e.offset < 2 ^ 53 := hsl e (hrest_mem e he)
        rw [u64AsI64_small (by omega)]
        omega
      obtain ⟨st1, hrun, hfl⟩ := runItems_flume rest st hfresh hrestp
        (fun e he => lt_trans (hsl e (hrest_mem e he)) (by norm_num))
      have hupd1 : update_indexes_from_offset_file Env.ok L st = (st1, none) := by
        simp only [update_indexes_from_offset_file, show Env.ok.getLatestOk = true from rfl,
          if_true, hstart, hskip, iter_at_offset, hF, List.drop_one, List.tail_cons]
        exact runChunks_all_ok _ 0 st st1 (by rw [chunks10000_join]; exact hrun)
      rcases List.eq_nil_or_concat (rest.filterMap parseEntry) with hnew | ⟨q2, tL, hq2⟩
      · have hnoop : runItems st rest = .ok st :=
          runItems_noop rest st
            (fun e he => parseEntry_eq_none.mp (List.filterMap_eq_nil_iff.mp hnew e he))
        rw [hnoop] at hrun
        obtain rfl : st = st1 := Except.ok.inj hrun
        exact ⟨st, hupd1, hupd1⟩
      · have hNb : ∀ t ∈ rest.filterMap parseEntry, t.1 < 2 ^ 53 := by
          intro t ht
          obtain ⟨e, he, hpe⟩ := List.mem_filterMap.mp ht
          rw [(parseEntry_offset hpe).1]
          exact hsl e (hrest_mem e he)
        have hNp : (rest.filterMap parseEntry).Pairwise (fun a b => a.1 < b.1) :=
          pairwise_filterMap_fst rest hrestp
        have htLmem : tL ∈ rest.filterMap parseEntry := by
          rw [hq2, List.concat_eq_append]
          exact List.mem_append_right _ (List.mem_singleton.mpr rfl)
        obtain ⟨xL, hxLrest, hpxL⟩ := List.mem_filterMap.mp htLmem
        have hxLoff : xL.offset = tL.1 := ((parseEntry_offset hpxL).1).symm
        have hxLlog : xL ∈ logEntries L := hrest_mem xL hxLrest
        have hxLb : xL.offset < 2 ^ 53 := hsl xL hxLlog
        have htLb : tL.1 < 2 ^ 53 := by rw [← hxLoff]; exact hxLb
        have hq2_lt : ∀ u ∈ q2, u.1 < tL.1 := by
          have := hNp
          rw [hq2, List.concat_eq_append] at this
          intro u hu
          exact (List.pairwise_append.mp this).2.2 u hu tL (List.mem_singleton.mpr rfl)
        have hq2_mem : ∀ u ∈ q2, u ∈ rest.filterMap parseEntry := by
          intro u hu
          rw [hq2, List.concat_eq_append]
          exact List.mem_append_left _ hu
        have hfl1 : flumeSeqs st1 =
            (flumeSeqs st ++ q2.map (fun t => u64AsI64 t.1)) ++ [u64AsI64 tL.1] := by
          rw [hfl, hq2, List.concat_eq_append, List.map_append, List.append_assoc]
          rfl
        have hf0xL : f0.offset < xL.offset := hf0r xL hxLrest
        have hmax1 : maxFlumeSeq st1 = some (u64AsI64 tL.1) := by
          rw [maxFlumeSeq_eq, hfl1]
          apply listMaxI_append_last
          intro v hv
          rw [u64AsI64_small (by omega : tL.1 < 2 ^ 63)]
          rcases List.mem_append.mp hv with hv | hv
          · have hvM : v ≤ M := hMub v hv
            omega
          · obtain ⟨u, hu, huv⟩ := List.mem_map.mp hv
            rw [← huv, u64AsI64_small (by have := hNb u (hq2_mem u hu); omega)]
            have := hq2_lt u hu
            omega
        have hcast1 : u64AsI64 tL.1 = (tL.1 : Int) := u64AsI64_small (by omega)
        have hlat1 : get_latest st1 = some ((tL.1 : Nat) : Int) := by
          simp only [get_latest, hmax1, Option.map_some']
          rw [hcast1, i64AsF64_small (by positivity) (by exact_mod_cast htLb)]
        have hstart1 : startingOffset st1 = xL.offset := by
          simp only [startingOffset, hlat1, Option.map_some', Option.getD_some]
          rw [f64AsU64_small (by positivity) (by exact_mod_cast htLb), hxLoff]
          exact Int.toNat_natCast _
        have hskip1 : numToSkip st1 = 1 := by simp [numToSkip, hlat1]
        obtain ⟨m1, m2, hm12⟩ := List.append_of_mem hxLlog
        have hiter1 : iter_at_offset L xL.offset = xL :: m2 :=
          iter_at_offset_decomp L m1 xL m2 hm12
        have hLp2 := logEntries_pairwise L
        rw [hm12] at hLp2
        have hm2_gt : ∀ e ∈ m2, xL.offset < e.offset :=
          (List.pairwise_cons.mp (List.pairwise_append.mp hLp2).2.1).1
        have hm2_none : ∀ e ∈ m2, parseSsbMessage e.data = none := by
          intro e he
          cases hq : parseSsbMessage e.data with
          | none => rfl
          | some me =>
            exfalso
            have heoff : xL.offset < e.offset := hm2_gt e he
            have helog : e ∈ logEntries L := by
              rw [hm12]
              exact List.mem_append_right _ (List.mem_cons_of_mem xL he)
            have heF : e ∈ (logEntries L).filter (fun e => decide (M.toNat ≤ e.offset)) := by
              rw [List.mem_filter]
              refine ⟨helog, by simp only [decide_eq_true_eq]; omega⟩
            rw [hF] at heF
            have herest : e ∈ rest := by
              rcases List.mem_cons.mp heF with h1 | h1
              · exfalso
                rw [h1] at heoff
                omega
              · exact h1
            have hte : (e.offset, me) ∈ rest.filterMap parseEntry :=
              List.mem_filterMap.mpr ⟨e, herest, parseEntry_of_parse hq⟩
            have hle : e.offset ≤ tL.1 := by
              rw [hq2, List.concat_eq_append] at hte
              rcases List.mem_append.mp hte with h1 | h1
              · have := hq2_lt _ h1
                simp only at this
                omega
              · simp only [List.mem_singleton] at h1
                have : e.offset = tL.1 := congrArg Prod.fst h1
                omega
            omega
        have hupd2 : update_indexes_from_offset_file Env.ok L st1 = (st1, none) := by
          simp only [update_indexes_from_offset_file, show Env.ok.getLatestOk = true from rfl,
            if_true, hstart1, hskip1, hiter1, List.drop_one, List.tail_cons]
          exact runChunks_all_ok _ 0 st1 st1
            (by rw [chunks10000_join]; exact runItems_noop m2 st1 hm2_none)
        exact ⟨st1, hupd1, hupd2⟩

/-! ### Resolving dictionary joins on the canonical index -/

theorem dictFrom_any_id (a x : List Nat) :
    ∀ (seen : List (List Nat)) (i : Int), x ∈ seen →
      (dictFrom i seen).any (fun p => p.1 == (i + (posOf seen x : Int)) && p.2 == a) =
        (x == a) := by
  intro seen
  induction seen with
  | nil => intro i h; simp at h
  | cons y ys ih =>
    intro i h
    by_cases hy : y = x
    · subst hy
      have htail : (dictFrom (i + 1) ys).any (fun p => p.1 == i && p.2 == a) = false := by
        rw [List.any_eq_false]
        intro p hp
        have hb := dictFrom_ids_bound ys (i + 1) p hp
        simp only [Bool.and_eq_true, beq_iff_eq, not_and]
        intro hpi
        omega
      simp only [posOf, eq_self_iff_true, if_true, Nat.cast_zero, add_zero, dictFrom,
        List.any_cons, beq_self_eq_true, Bool.true_and, htail, Bool.or_false]
    · have hmem : x ∈ ys := by
        rcases List.mem_cons.mp h with h1 | h1
        · exact absurd h1.symm hy
        · exact h1
      have hpos : posOf (y :: ys) x = posOf ys x + 1 := by simp [posOf, hy]
      have harith : i + ((posOf ys x + 1 : Nat) : Int) = (i + 1) + (posOf ys x : Int) := by
        push_cast
        ring
      simp only [hpos, harith, dictFrom, List.any_cons]
      have hhead : (i == (i + 1) + (posOf ys x : Int) && y == a) = false := by
        have hne : ¬(i = (i + 1) + (posOf ys x : Int)) := by
          have := Int.natCast_nonneg (posOf ys x)
          omega
        simp [hne]
      rw [hhead, Bool.false_or]
      exact ih (i + 1) hmem

theorem dictOf_match (A : List (List Nat)) (x a : List Nat) (hx : x ∈ A) :
    (dictOf A).any (fun p => p.1 == ((posOf A x : Int) + 1) && p.2 == a) = (x == a) := by
  rw [show ((posOf A x : Int) + 1) = (1 + (posOf A x : Int)) from by ring]
  exact dictFrom_any_id a x A 1 hx

theorem canonicalSt_messages (ps : List (Nat × SsbMessage)) :
    (canonicalSt ps).messages = ps.map (rowOf ps) := rfl

theorem canonicalSt_authors (ps : List (Nat × SsbMessage)) :
    (canonicalSt ps).authors = dictOf (seenOf (ps.map (fun p => p.2.value.author))) := rfl

theorem canonicalSt_keys (ps : List (Nat × SsbMessage)) :
    (canonicalSt ps).keys = dictOf (seenOf (ps.map (fun p => p.2.key))) := rfl

theorem authorMatch_canonical (ps : List (Nat × SsbMessage)) (x a : List Nat)
    (hx : x ∈ seenOf (ps.map (fun p => p.2.value.author))) :
    authorMatch (canonicalSt ps)
      ((posOf (seenOf (ps.map (fun p => p.2.value.author))) x : Int) + 1) a = (x == a) := by
  simp only [authorMatch, canonicalSt_authors]
  exact dictOf_match _ x a hx

theorem keyMatch_canonical (ps : List (Nat × SsbMessage)) (x a : List Nat)
    (hx : x ∈ seenOf (ps.map (fun p => p.2.key))) :
    keyMatch (canonicalSt ps)
      ((posOf (seenOf (ps.map (fun p => p.2.key))) x : Int) + 1) a = (x == a) := by
  simp only [keyMatch, canonicalSt_keys]
  exact dictOf_match _ x a hx

theorem find_newer_canonical (ps : List (Nat × SsbMessage)) (a : List Nat) (s : Int)
    (hb : ∀ p ∈ ps, p.1 < 2 ^ 63) :
    find_feed_flume_seqs_newer_than (canonicalSt ps) a s none =
      ((ps.filter (fun p =>
          decide (s < u32AsI32 p.2.value.sequence) && (p.2.value.author == a))).map
        (fun p => p.1)) := by
  simp only [find_feed_flume_seqs_newer_than, applyLimit, canonicalSt_messages]
  rw [List.filter_map, List.map_map]
  have hpred : ps.filter
      ((fun r => decide (s < r.seq) && authorMatch (canonicalSt ps) r.author_id a) ∘ rowOf ps) =
      ps.filter (fun p => decide (s < u32AsI32 p.2.value.sequence) && (p.2.value.author == a)) := by
    apply List.filter_congr
    intro p hp
    simp only [Function.comp_apply, rowOf]
    rw [authorMatch_canonical ps p.2.value.author a
      ((mem_seenOf _ _).mpr (List.mem_map_of_mem _ hp))]
  rw [hpred]
  apply List.map_congr_left
  intro p hp
  simp only [Function.comp_apply, rowOf]
  exact i64AsU64_u64AsI64 (hb p (List.mem_filter.mp hp).1)

theorem find_newer_some (st : IndexState) (a : List Nat) (s : Int) (n : Int) (hn : 0 ≤ n) :
    find_feed_flume_seqs_newer_than st a s (some n) =
      (find_feed_flume_seqs_newer_than st a s none).take n.toNat := by
  simp only [find_feed_flume_seqs_newer_than, applyLimit]
  rw [if_neg (not_lt.mpr hn), List.map_take]

theorem find_newer_sublist (st : IndexState) (a : List Nat) (s : Int) (limit : Option Int) :
    (find_feed_flume_seqs_newer_than st a s limit).Sublist
      (find_feed_flume_seqs_newer_than st a s none) := by
  cases limit with
  | none => exact List.Sublist.refl _
  | some n =>
    simp only [find_feed_flume_seqs_newer_than, applyLimit]
    split_ifs
    · exact List.Sublist.refl _
    · exact (List.take_sublist _ _).map _

theorem parseableMsgs_bound (L : List (List Nat)) (hsl : smallLog L) :
    ∀ p ∈ parseableMsgs L, p.1 < 2 ^ 53 := by
  intro p hp
  obtain ⟨e, he, hoff, _⟩ := parseableMsgs_mem L p hp
  rw [← hoff]
  exact hsl e he

theorem parseableMsgs_pairwise (L : List (List Nat)) :
    (parseableMsgs L).Pairwise (fun a b => a.1 < b.1) := by
  rw [parseableMsgs_eq]
  exact pairwise_filterMap_fst _ (logEntries_pairwise L)

theorem parseableOffsets_pairwise (L : List (List Nat)) :
    (parseableOffsets L).Pairwise (· < ·) := by
  rw [parseableOffsets_eq]
  exact (parseableMsgs_pairwise L).map _ (fun p q hpq => hpq)

theorem find_newer_canonical_sorted (L : List (List Nat)) (hsl : smallLog L)
    (a : List Nat) (s : Int) (limit : Option Int) :
    List.Pairwise (· < ·)
      (find_feed_flume_seqs_newer_than (canonicalSt (parseableMsgs L)) a s limit) := by
  have hb : ∀ p ∈ parseableMsgs L, p.1 < 2 ^ 63 :=
    fun p hp => lt_trans (parseableMsgs_bound L hsl p hp) (by norm_num)
  have hnone : List.Pairwise (· < ·)
      (find_feed_flume_seqs_newer_than (canonicalSt (parseableMsgs L)) a s none) := by
    rw [find_newer_canonical _ a s hb]
    exact ((parseableMsgs_pairwise L).filter _).map _ (fun p q hpq => hpq)
  exact List.Pairwise.sublist (find_newer_sublist _ a s limit) hnone

theorem pairwise_offset_inj : ∀ (es : List LogEntry),
    es.Pairwise (fun a b => a.offset < b.offset) →
    ∀ e1 ∈ es, ∀ e2 ∈ es, e1.offset = e2.offset → e1 = e2 := by
  intro es
  induction es with
  | nil =>
    intro _ e1 h1
    simp at h1
  | cons a es ih =>
    intro hp e1 h1 e2 h2 heq
    obtain ⟨ha, ht⟩ := List.pairwise_cons.mp hp
    rcases List.mem_cons.mp h1 with h1 | h1
    · rcases List.mem_cons.mp h2 with h2 | h2
      · rw [h1, h2]
      · rw [h1] at heq
        have := ha e2 h2
        rw [h1]
        omega
    · rcases List.mem_cons.mp h2 with h2 | h2
      · rw [h2] at heq
        have := ha e1 h1
        rw [h2]
        omega
      · exact ih ht e1 h1 e2 h2 heq

theorem mem_parseableOffsets {L : List (List Nat)} {e : LogEntry} {m : SsbMessage}
    (he : e ∈ logEntries L) (hq : parseSsbMessage e.data = some m) :
    e.offset ∈ parseableOffsets L := by
  rw [parseableOffsets_eq, parseableMsgs_eq]
  exact List.mem_map_of_mem _ (List.mem_filterMap.mpr ⟨e, he, parseEntry_of_parse hq⟩)

theorem not_mem_parseableOffsets {L : List (List Nat)} {e : LogEntry}
    (he : e ∈ logEntries L) (hq : parseSsbMessage e.data = none) :
    e.offset ∉ parseableOffsets L := by
  intro hmem
  rw [parseableOffsets_eq] at hmem
  obtain ⟨p, hp, hpo⟩ := List.mem_map.mp hmem
  obtain ⟨e2, he2, hoff2, hparse2⟩ := parseableMsgs_mem L p hp
  have : e2 = e :=
    pairwise_offset_inj _ (logEntries_pairwise L) e2 he2 e he (by rw [hoff2, hpo])
  rw [this, hq] at hparse2
  exact Option.noConfusion hparse2

theorem rows_per_offset (L : List (List Nat)) (st1 : IndexState) (hsl : smallLog L)
    (hfl : flumeSeqs st1 = (parseableOffsets L).map u64AsI64) (e : LogEntry)
    (he : e ∈ logEntries L) :
    (st1.messages.filter (fun r => r.flume_seq == (e.offset : Int))).length =
      if (parseSsbMessage e.data).isSome then 1 else 0 := by
  have h1 : (st1.messages.filter (fun r => r.flume_seq == (e.offset : Int))).length =
      (flumeSeqs st1).countP (fun x => x == (e.offset : Int)) := by
    rw [← List.countP_eq_length_filter, flumeSeqs, List.countP_map]
    rfl
  rw [h1, hfl, List.countP_map]
  have h2 : (parseableOffsets L).countP ((fun x => x == (e.offset : Int)) ∘ u64AsI64) =
      (parseableOffsets L).countP (fun o => o == e.offset) := by
    rw [List.countP_eq_length_filter, List.countP_eq_length_filter]
    congr 1
    apply List.filter_congr
    intro o ho
    have hob : o < 2 ^ 63 := by
      rw [parseableOffsets_eq] at ho
      obtain ⟨p, hp, hpo⟩ := List.mem_map.mp ho
      rw [← hpo]
      exact lt_trans (parseableMsgs_bound L hsl p hp) (by norm_num)
    simp only [Function.comp_apply]
    rw [u64AsI64_small hob]
    by_cases heq : o = e.offset
    · subst heq
      simp
    · have hne : ((o : Int)) ≠ (e.offset : Int) := by exact_mod_cast heq
      rw [beq_eq_false_iff_ne.mpr hne, beq_eq_false_iff_ne.mpr heq]
  rw [h2]
  have hnodup : (parseableOffsets L).Nodup :=
    (parseableOffsets_pairwise L).imp (fun h => Nat.ne_of_lt h)
  cases hq : parseSsbMessage e.data with
  | some m =>
    simp only [Option.isSome_some, if_true]
    have := List.count_eq_one_of_mem hnodup (mem_parseableOffsets he hq)
    simpa [List.count] using this
  | none =>
    simp only [Option.isSome_none, Bool.false_eq_true, if_false]
    have := List.count_eq_zero_of_not_mem (not_mem_parseableOffsets he hq)
    simpa [List.count] using this

/-! ### Appending to the log and partially committed runs -/

theorem mkEntries_append : ∀ (A : List (List Nat)) (o : Nat) (B : List (List Nat)),
    mkEntries o (A ++ B) = mkEntries o A ++ mkEntries (o + logWeight A) B := by
  intro A
  induction A with
  | nil =>
    intro o B
    simp [mkEntries, logWeight]
  | cons p ps ih =>
    intro o B
    simp only [List.cons_append, mkEntries, ih (o + p.length + 12) B, List.append_eq]
    have harith : o + p.length + 12 + logWeight ps = o + logWeight (p :: ps) := by
      simp only [logWeight, List.map_cons, List.sum_cons]
      omega
    rw [harith]

theorem logEntries_append (L M : List (List Nat)) :
    logEntries (L ++ M) = logEntries L ++ mkEntries (logWeight L) M := by
  simp only [logEntries, mkEntries_append L 0 M, Nat.zero_add]

theorem parseableOffsets_append (L M : List (List Nat)) :
    parseableOffsets (L ++ M) =
      parseableOffsets L ++
        ((mkEntries (logWeight L) M).filterMap
            (fun e => (parseSsbMessage e.data).map (fun m => (e.offset, e.data, m)))).map
          (fun t => t.1) := by
  simp only [parseableOffsets, parseablesR, logEntries_append, List.filterMap_append,
    List.map_append]

theorem ConsistentPrefix_mono (L M : List (List Nat)) (st : IndexState)
    (hcp : ConsistentPrefix L st) : ConsistentPrefix (L ++ M) st := by
  obtain ⟨k, hk⟩ := hcp
  obtain ⟨t, ht⟩ : ∃ t, (parseableOffsets (L ++ M)).map u64AsI64 =
      (parseableOffsets L).map u64AsI64 ++ t :=
    ⟨_, by rw [parseableOffsets_append, List.map_append]⟩
  by_cases hkl : k ≤ ((parseableOffsets L).map u64AsI64).length
  · exact ⟨k, by rw [ht, List.take_append_of_le_length hkl]; exact hk⟩
  · refine ⟨((parseableOffsets L).map u64AsI64).length, ?_⟩
    rw [ht, List.take_append_of_le_length le_rfl, List.take_length, hk,
      List.take_of_length_le (le_of_lt (lt_of_not_le hkl))]

theorem runChunks_prefix (env : Env) : ∀ (cs : List (List LogEntry)) (i : Nat) (st : IndexState),
    ∃ k, runItems st ((cs.take k).flatten) = .ok (runChunks env i st cs).1 := by
  intro cs
  induction cs with
  | nil =>
    intro i st
    exact ⟨0, rfl⟩
  | cons c cs ih =>
    intro i st
    by_cases htxn : env.txnOk i = true
    · cases hr : runItems st c with
      | ok st1 =>
        obtain ⟨k, hk⟩ := ih (i + 1) st1
        refine ⟨k + 1, ?_⟩
        have heq : runChunks env i st (c :: cs) = runChunks env (i + 1) st1 cs := by
          simp only [runChunks, htxn, eq_self_iff_true, if_true, hr]
        rw [heq, List.take_succ_cons, List.flatten_cons, runItems_append, hr]
        exact hk
      | error e =>
        refine ⟨0, ?_⟩
        have heq : (runChunks env i st (c :: cs)).1 = st := by
          simp only [runChunks, htxn, eq_self_iff_true, if_true, hr]
        rw [heq]
        rfl
    · refine ⟨0, ?_⟩
      have heq : (runChunks env i st (c :: cs)).1 = st := by
        simp only [runChunks]
        rw [if_neg htxn]
      rw [heq]
      rfl

theorem runChunks_err (env : Env) : ∀ (cs : List (List LogEntry)) (i : Nat) (st : IndexState),
    (runChunks env i st cs).2 = none ∨ (runChunks env i st cs).2 = some .SqliteAppendError := by
  intro cs
  induction cs with
  | nil =>
    intro i st
    exact Or.inl rfl
  | cons c cs ih =>
    intro i st
    by_cases htxn : env.txnOk i = true
    · cases hr : runItems st c with
      | ok st1 =>
        have heq : runChunks env i st (c :: cs) = runChunks env (i + 1) st1 cs := by
          simp only [runChunks, htxn, eq_self_iff_true, if_true, hr]
        rw [heq]
        exact ih (i + 1) st1
      | error e =>
        have heq : (runChunks env i st (c :: cs)).2 = some .SqliteAppendError := by
          simp only [runChunks, htxn, eq_self_iff_true, if_true, hr]
        exact Or.inr heq
    · have heq : (runChunks env i st (c :: cs)).2 = some .SqliteAppendError := by
        simp only [runChunks]
        rw [if_neg htxn]
      exact Or.inr heq

theorem flatten_take_front {α : Type} (cs : List (List α)) (k : Nat) :
    (cs.take k).flatten <+: cs.flatten :=
  ⟨(cs.drop k).flatten, by rw [← List.flatten_append, List.take_append_drop]⟩

theorem update_consistent_general (env : Env) (L : List (List Nat)) (st : IndexState)
    (hgl : env.getLatestOk = true) (hsl : smallLog L) (hcp : ConsistentPrefix L st) :
    ConsistentPrefix L ((update_indexes_from_offset_file env L st).1) := by
  obtain ⟨k0, hk0⟩ := hcp
  by_cases hne : flumeSeqs st = []
  · have hlat : get_latest st = none := by
      simp only [get_latest, maxFlumeSeq_eq, hne]
      rfl
    have hstart : startingOffset st = 0 := by simp [startingOffset, hlat]
    have hskip : numToSkip st = 0 := by simp [numToSkip, hlat]
    obtain ⟨k, hpre⟩ :=
      runChunks_prefix env (chunks10000 (logEntries L)) 0 st
    have hupd : (update_indexes_from_offset_file env L st).1 =
        (runChunks env 0 st (chunks10000 (logEntries L))).1 := by
      simp only [update_indexes_from_offset_file, hgl, eq_self_iff_true, if_true, hstart, hskip,
        List.drop_zero, iter_at_offset_zero]
    obtain ⟨t, ht⟩ : ∃ t, logEntries L = ((chunks10000 (logEntries L)).take k).flatten ++ t := by
      obtain ⟨t, ht⟩ := flatten_take_front (chunks10000 (logEntries L)) k
      rw [chunks10000_join] at ht
      exact ⟨t, ht.symm⟩
    have hsub : (((chunks10000 (logEntries L)).take k).flatten).Sublist (logEntries L) := by
      have h := (flatten_take_front (chunks10000 (logEntries L)) k).sublist
      rwa [chunks10000_join] at h
    obtain ⟨st1, hok, hflume⟩ := runItems_flume (((chunks10000 (logEntries L)).take k).flatten) st
      (by rw [hne]; intro e _ v hv; exact absurd hv (List.not_mem_nil v))
      (List.Pairwise.sublist hsub (logEntries_pairwise L))
      (fun e he => lt_trans (hsl e (hsub.subset he)) (by norm_num))
    rw [hpre] at hok
    have hst1 : (runChunks env 0 st (chunks10000 (logEntries L))).1 = st1 := Except.ok.inj hok
    rw [hupd, hst1]
    refine ⟨(flumeSeqs st1).length, ?_⟩
    have hsplit : (logEntries L).filterMap parseEntry =
        (((chunks10000 (logEntries L)).take k).flatten).filterMap parseEntry ++
          t.filterMap parseEntry := by
      conv_lhs => rw [ht]
      rw [List.filterMap_append]
    have hdecomp : (parseableOffsets L).map u64AsI64 =
        flumeSeqs st1 ++ ((t.filterMap parseEntry).map (fun t => u64AsI64 t.1)) := by
      rw [hflume, hne, List.nil_append, offsets_map_eq, parseableMsgs_eq, hsplit,
        List.map_append]
    rw [hdecomp, List.take_left]
  · obtain ⟨x, l2, hstart, hskip, hiter, hl2p, hl2m, hfresh, hfm, hfinal⟩ :=
      consistent_window L st hsl k0 hk0 hne
    obtain ⟨k, hpre⟩ := runChunks_prefix env (chunks10000 l2) 0 st
    have hupd : (update_indexes_from_offset_file env L st).1 =
        (runChunks env 0 st (chunks10000 l2)).1 := by
      simp only [update_indexes_from_offset_file, hgl, eq_self_iff_true, if_true, hstart, hskip,
        hiter, List.drop_one, List.tail_cons]
    obtain ⟨t, ht⟩ : ∃ t, l2 = ((chunks10000 l2).take k).flatten ++ t := by
      obtain ⟨t, ht⟩ := flatten_take_front (chunks10000 l2) k
      rw [chunks10000_join] at ht
      exact ⟨t, ht.symm⟩
    have hsub : (((chunks10000 l2).take k).flatten).Sublist l2 := by
      have h := (flatten_take_front (chunks10000 l2) k).sublist
      rwa [chunks10000_join] at h
    obtain ⟨st1, hok, hflume⟩ := runItems_flume (((chunks10000 l2).take k).flatten) st
      (fun e he => hfresh e (hsub.subset he))
      (List.Pairwise.sublist hsub hl2p)
      (fun e he => lt_trans (hsl e (hl2m e (hsub.subset he))) (by norm_num))
    rw [hpre] at hok
    have hst1 : (runChunks env 0 st (chunks10000 l2)).1 = st1 := Except.ok.inj hok
    rw [hupd, hst1]
    refine ⟨(flumeSeqs st1).length, ?_⟩
    have hl2fm : l2.filterMap parseEntry =
        (((chunks10000 l2).take k).flatten.filterMap parseEntry) ++ t.filterMap parseEntry := by
      conv_lhs => rw [ht]
      rw [List.filterMap_append]
    have hdecomp : (parseableOffsets L).map u64AsI64 =
        flumeSeqs st1 ++ (t.filterMap parseEntry).map (fun p => u64AsI64 p.1) := by
      rw [hflume, ← hfinal, hfm.symm, hl2fm, List.map_append, List.append_assoc]
    rw [hdecomp, List.take_left]

/-! ### Shifting frames past an inserted tombstone -/

theorem mkEntries_shift : ∀ (A : List (List Nat)) (o d : Nat),
    mkEntries (o + d) A = (mkEntries o A).map (fun e => ⟨e.offset + d, e.data⟩) := by
  intro A
  induction A with
  | nil =>
    intro o d
    rfl
  | cons p ps ih =>
    intro o d
    simp only [mkEntries, List.map_cons]
    have harith : o + d + p.length + 12 = o + p.length + 12 + d := by omega
    rw [harith, ih (o + p.length + 12) d]

theorem parseablesR_shiftL (A : List (List Nat)) (o d : Nat) :
    (mkEntries (o + d) A).filterMap
        (fun e => (parseSsbMessage e.data).map (fun m => (e.offset, e.data, m))) =
      ((mkEntries o A).filterMap
          (fun e => (parseSsbMessage e.data).map (fun m => (e.offset, e.data, m)))).map
        (fun r => (r.1 + d, r.2)) := by
  rw [mkEntries_shift, List.filterMap_map, List.map_filterMap]
  congr 1
  funext e
  cases hq : parseSsbMessage e.data <;> simp [hq]

theorem parseablesR_append (L1 L2 : List (List Nat)) :
    parseablesR (L1 ++ L2) =
      parseablesR L1 ++
        (mkEntries (logWeight L1) L2).filterMap
          (fun e => (parseSsbMessage e.data).map (fun m => (e.offset, e.data, m))) := by
  simp only [parseablesR, logEntries_append, List.filterMap_append]

theorem parseablesR_tombstone (L1 L2 : List (List Nat)) (z : List Nat)
    (hz : parseSsbMessage z = none) :
    parseablesR (L1 ++ z :: L2) =
      parseablesR L1 ++
        ((mkEntries (logWeight L1) L2).filterMap
            (fun e => (parseSsbMessage e.data).map (fun m => (e.offset, e.data, m)))).map
          (fun r => (r.1 + (z.length + 12), r.2)) := by
  simp only [parseablesR, logEntries_append, List.filterMap_append]
  congr 1
  simp only [mkEntries, List.filterMap_cons, hz, Option.map_none']
  rw [Nat.add_assoc]
  exact parseablesR_shiftL L2 (logWeight L1) (z.length + 12)

/-! ### Generic list helpers for the query layer -/

theorem find?_map_pres {α : Type} (f : α → α) (q : α → Bool) (hq : ∀ x, q (f x) = q x) :
    ∀ l : List α, (l.map f).find? q = (l.find? q).map f := by
  intro l
  induction l with
  | nil => rfl
  | cons x xs ih =>
    simp only [List.map_cons]
    cases hqx : q x with
    | true =>
      rw [List.find?_cons_of_pos _ (by rw [hq x]; exact hqx), List.find?_cons_of_pos _ hqx]
      rfl
    | false =>
      rw [List.find?_cons_of_neg _ (by rw [hq x, hqx]; exact Bool.false_ne_true),
        List.find?_cons_of_neg _ (by rw [hqx]; exact Bool.false_ne_true)]
      exact ih

theorem find?_congr_mem {α : Type} (p q : α → Bool) :
    ∀ (l : List α), (∀ x ∈ l, p x = q x) → l.find? p = l.find? q := by
  intro l
  induction l with
  | nil =>
    intro _
    rfl
  | cons x xs ih =>
    intro h
    cases hqx : q x with
    | true =>
      rw [List.find?_cons_of_pos _ (by rw [h x (List.mem_cons_self x xs)]; exact hqx),
        List.find?_cons_of_pos _ hqx]
    | false =>
      rw [List.find?_cons_of_neg _
          (by rw [h x (List.mem_cons_self x xs), hqx]; exact Bool.false_ne_true),
        List.find?_cons_of_neg _ (by rw [hqx]; exact Bool.false_ne_true)]
      exact ih (fun y hy => h y (List.mem_cons_of_mem x hy))

theorem filterMap_length_of_some {α β : Type} (f : α → Option β) :
    ∀ (l : List α), (∀ x ∈ l, (f x).isSome = true) → (l.filterMap f).length = l.length := by
  intro l
  induction l with
  | nil =>
    intro _
    rfl
  | cons x xs ih =>
    intro h
    have hx := h x (List.mem_cons_self x xs)
    cases hfx : f x with
    | none => rw [hfx] at hx; exact Bool.noConfusion hx
    | some b =>
      simp only [List.filterMap_cons, hfx, List.length_cons]
      rw [ih (fun y hy => h y (List.mem_cons_of_mem x hy))]

theorem filterMap_length_lt {α β : Type} (f : α → Option β) :
    ∀ (l : List α) (x : α), x ∈ l → f x = none → (l.filterMap f).length < l.length := by
  intro l
  induction l with
  | nil =>
    intro x hx
    simp at hx
  | cons y ys ih =>
    intro x hx hfx
    simp only [List.filterMap_cons]
    rcases List.mem_cons.mp hx with h | h
    · rw [← h, hfx]
      have := List.length_filterMap_le f ys
      simp only [List.length_cons]
      omega
    · cases hfy : f y with
      | none =>
        have := ih x h hfx
        simp only [List.length_cons]
        omega
      | some b =>
        have := ih x h hfx
        simp only [List.length_cons]
        omega

theorem collectExcept_ok : ∀ (l : List (Except Error (List Nat))),
    (∀ x ∈ l, ∃ b, x = .ok b) →
    ∃ outs, collectExcept l = .ok outs ∧ outs.length = l.length ∧
      ∀ o ∈ outs, Except.ok o ∈ l := by
  intro l
  induction l with
  | nil =>
    intro _
    exact ⟨[], rfl, rfl, by simp⟩
  | cons x xs ih =>
    intro h
    obtain ⟨b, hb⟩ := h x (List.mem_cons_self x xs)
    obtain ⟨outs, houts, hlen, hmem⟩ := ih (fun y hy => h y (List.mem_cons_of_mem x hy))
    subst hb
    refine ⟨b :: outs, ?_, ?_, ?_⟩
    · show (collectExcept xs).map (fun l => b :: l) = .ok (b :: outs)
      rw [houts]
      rfl
    · simp [hlen]
    · intro o ho
      rcases List.mem_cons.mp ho with h1 | h1
      · rw [h1]
        exact List.mem_cons_self _ _
      · exact List.mem_cons_of_mem _ (hmem o h1)

theorem mkEntries_data_mem : ∀ (ps : List (List Nat)) (o : Nat) (e : LogEntry),
    e ∈ mkEntries o ps → e.data ∈ ps := by
  intro ps
  induction ps with
  | nil =>
    intro o e he
    simp [mkEntries] at he
  | cons p ps ih =>
    intro o e he
    simp only [mkEntries, List.mem_cons] at he
    rcases he with he | he
    · rw [he]
      exact List.mem_cons_self p ps
    · exact List.mem_cons_of_mem p (ih _ e he)

theorem logGet_some_mem (L : List (List Nat)) (o : Nat) (d : List Nat)
    (h : logGet L o = some d) : d ∈ L := by
  simp only [logGet] at h
  cases hf : (logEntries L).find? (fun e => e.offset == o) with
  | none => rw [hf] at h; exact Option.noConfusion h
  | some e =>
    rw [hf] at h
    have hd : e.data = d := Option.some.inj h
    rw [← hd]
    exact mkEntries_data_mem L 0 e (List.mem_of_find?_eq_some hf)

theorem logGet_parseablesR (L : List (List Nat)) :
    ∀ r ∈ parseablesR L, logGet L r.1 = some r.2.1 ∧ parseSsbMessage r.2.1 = some r.2.2 := by
  intro r hr
  simp only [parseablesR] at hr
  obtain ⟨e, he, hre⟩ := List.mem_filterMap.mp hr
  cases hq : parseSsbMessage e.data with
  | none =>
    rw [hq] at hre
    exact Option.noConfusion hre
  | some m =>
    rw [hq] at hre
    simp only [Option.map_some'] at hre
    obtain rfl : (e.offset, e.data, m) = r := Option.some.inj hre
    exact ⟨logGet_mem L e he, hq⟩

theorem parseablesR_bound (L : List (List Nat)) (hsl : smallLog L) :
    ∀ r ∈ parseablesR L, r.1 < 2 ^ 53 := by
  intro r hr
  simp only [parseablesR] at hr
  obtain ⟨e, he, hre⟩ := List.mem_filterMap.mp hr
  cases hq : parseSsbMessage e.data with
  | none =>
    rw [hq] at hre
    exact Option.noConfusion hre
  | some m =>
    rw [hq] at hre
    simp only [Option.map_some'] at hre
    obtain rfl : (e.offset, e.data, m) = r := Option.some.inj hre
    exact hsl e he

theorem filterMap_logGet_of_mem (L : List (List Nat)) :
    ∀ (rs : List (Nat × List Nat × SsbMessage)),
      (∀ r ∈ rs, logGet L r.1 = some r.2.1) →
      (rs.map (fun r => r.1)).filterMap (logGet L) = rs.map (fun r => r.2.1) := by
  intro rs
  induction rs with
  | nil =>
    intro _
    rfl
  | cons r rs ih =>
    intro h
    simp only [List.map_cons, List.filterMap_cons, h r (List.mem_cons_self r rs)]
    rw [ih (fun y hy => h y (List.mem_cons_of_mem r hy))]

theorem getAllTr_snd (L : List (List Nat)) :
    ∀ (rs : List (Nat × List Nat × SsbMessage)),
      (∀ r ∈ rs, logGet L r.1 = some r.2.1) →
      (getAllTr L (rs.map (fun r => r.1))).2 = .ok (rs.map (fun r => r.2.1)) := by
  intro rs
  induction rs with
  | nil =>
    intro _
    rfl
  | cons r rs ih =>
    intro h
    simp only [List.map_cons, getAllTr, h r (List.mem_cons_self r rs)]
    rw [ih (fun y hy => h y (List.mem_cons_of_mem r hy))]
    rfl

theorem getAllTr_error (L : List (List Nat)) :
    ∀ (os : List Nat), (∃ o ∈ os, logGet L o = none) →
      (getAllTr L os).2 = .error .OffsetGetError := by
  intro os
  induction os with
  | nil =>
    rintro ⟨o, ho, _⟩
    simp at ho
  | cons o os ih =>
    rintro ⟨o1, ho1, hnone⟩
    rcases List.mem_cons.mp ho1 with h | h
    · rw [← h] at *
      simp only [getAllTr, hnone]
    · cases hq : logGet L o with
      | none => simp only [getAllTr, hq]
      | some d =>
        simp only [getAllTr, hq]
        rw [ih ⟨o1, h, hnone⟩]
        rfl

theorem filter_append_shift {α : Type} (sh : α → α) (q : α → Bool) (hq : ∀ x, q (sh x) = q x)
    (A B : List α) :
    (A ++ B.map sh).filter q = A.filter q ++ (B.filter q).map sh := by
  rw [List.filter_append, List.filter_map]
  have hcongr : B.filter (q ∘ sh) = B.filter q :=
    List.filter_congr (fun x _ => by simp only [Function.comp_apply, hq x])
  rw [hcongr]

theorem map_take_append_shift {α β : Type} (sh : α → α) (g : α → β)
    (hg : ∀ x, g (sh x) = g x) (X Y : List α) (n : Nat) :
    ((X ++ Y.map sh).take n).map g = ((X ++ Y).take n).map g := by
  rw [List.take_append_eq_append_take, List.take_append_eq_append_take, List.map_append,
    List.map_append]
  congr 1
  rw [← List.map_take, List.map_map]
  exact List.map_congr_left (fun y _ => hg y)

theorem map_filter_append_shift {α β : Type} (sh : α → α) (q : α → Bool) (g : α → β)
    (hq : ∀ x, q (sh x) = q x) (hg : ∀ x, g (sh x) = g x) (A B : List α) :
    ((A ++ B.map sh).filter q).map g = ((A ++ B).filter q).map g := by
  rw [filter_append_shift sh q hq, List.filter_append, List.map_append, List.map_append,
    List.map_map]
  congr 1
  exact List.map_congr_left (fun y _ => hg y)

/-! ### The facade queries on a canonical index -/

theorem selectedRows_mem (L : List (List Nat)) (a : List Nat) (s : Int) (limit : Option Int) :
    ∀ r ∈ selectedRows L a s limit, r ∈ parseablesR L := by
  intro r hr
  have hsub : r ∈ (parseablesR L).filter
      (fun r => decide (s < u32AsI32 r.2.2.value.sequence) && (r.2.2.value.author == a)) := by
    cases limit with
    | none => exact hr
    | some n =>
      simp only [selectedRows] at hr
      split_ifs at hr with hn
      · exact hr
      · exact (List.take_sublist _ _).subset hr
  exact (List.mem_filter.mp hsub).1

theorem find_newer_canonical_rows (L : List (List Nat)) (hsl : smallLog L) (a : List Nat)
    (s : Int) (limit : Option Int) :
    find_feed_flume_seqs_newer_than (canonicalSt (parseableMsgs L)) a s limit =
      (selectedRows L a s limit).map (fun r => r.1) := by
  have hb : ∀ p ∈ parseableMsgs L, p.1 < 2 ^ 63 :=
    fun p hp => lt_trans (parseableMsgs_bound L hsl p hp) (by norm_num)
  have hnone : find_feed_flume_seqs_newer_than (canonicalSt (parseableMsgs L)) a s none =
      (selectedRows L a s none).map (fun r => r.1) := by
    rw [find_newer_canonical _ a s hb]
    simp only [parseableMsgs, selectedRows]
    rw [List.filter_map, List.map_map]
    rfl
  cases limit with
  | none => exact hnone
  | some n =>
    by_cases hn : n < 0
    · have h1 : find_feed_flume_seqs_newer_than (canonicalSt (parseableMsgs L)) a s (some n) =
          find_feed_flume_seqs_newer_than (canonicalSt (parseableMsgs L)) a s none := by
        simp only [find_feed_flume_seqs_newer_than, applyLimit]
        rw [if_pos hn]
      have h2 : selectedRows L a s (some n) = selectedRows L a s none := by
        simp only [selectedRows]
        rw [if_pos hn]
      rw [h1, hnone, h2]
    · have hn' : 0 ≤ n := not_lt.mp hn
      rw [find_newer_some _ a s n hn', hnone]
      have h2 : selectedRows L a s (some n) = (selectedRows L a s none).take n.toNat := by
        simp only [selectedRows]
        rw [if_neg hn]
      rw [h2, List.map_take]

theorem get_entries_canonical_snd (L : List (List Nat)) (hsl : smallLog L) (a : List Nat)
    (s : Int) (limit : Option Int) (ik iv : Bool) :
    (get_entries_newer_than_sequence L (canonicalSt (parseableMsgs L)) a s limit ik iv).2 =
      armResult ik iv ((selectedRows L a s limit).map (fun r => r.2.1)) := by
  have hrows := find_newer_canonical_rows L hsl a s limit
  have hget : ∀ r ∈ selectedRows L a s limit, logGet L r.1 = some r.2.1 :=
    fun r hr => (logGet_parseablesR L r (selectedRows_mem L a s limit r hr)).1
  have hfetch : (((selectedRows L a s limit).map (fun r => r.1)).filterMap (logGet L)) =
      (selectedRows L a s limit).map (fun r => r.2.1) :=
    filterMap_logGet_of_mem L _ hget
  cases ik <;> cases iv
  · rfl
  · simp only [get_entries_newer_than_sequence, armResult]
    rw [hrows, hfetch]
  · simp only [get_entries_newer_than_sequence, armResult]
    rw [hrows, hfetch]
  · simp only [get_entries_newer_than_sequence, armResult]
    rw [hrows, getAllTr_snd L _ hget]

theorem feed_latest_canonical_ps (ps : List (Nat × SsbMessage)) (a : List Nat) :
    find_feed_latest_seq (canonicalSt ps) a =
      listMaxI ((ps.filter (fun p => p.2.value.author == a)).map
        (fun p => u32AsI32 p.2.value.sequence)) := by
  simp only [find_feed_latest_seq, canonicalSt_messages]
  rw [List.filter_map]
  have hpred : ps.filter ((fun r => authorMatch (canonicalSt ps) r.author_id a) ∘ rowOf ps) =
      ps.filter (fun p => p.2.value.author == a) := by
    apply List.filter_congr
    intro p hp
    simp only [Function.comp_apply, rowOf]
    exact authorMatch_canonical ps p.2.value.author a
      ((mem_seenOf _ _).mpr (List.mem_map_of_mem _ hp))
  rw [hpred, List.map_map]
  rfl

theorem feed_latest_canonical (L : List (List Nat)) (a : List Nat) :
    get_feed_latest_sequence (canonicalSt (parseableMsgs L)) a =
      listMaxI (((parseablesR L).filter (fun r => r.2.2.value.author == a)).map
        (fun r => u32AsI32 r.2.2.value.sequence)) := by
  rw [show get_feed_latest_sequence (canonicalSt (parseableMsgs L)) a =
      find_feed_latest_seq (canonicalSt (parseableMsgs L)) a from rfl,
    feed_latest_canonical_ps]
  simp only [parseableMsgs]
  rw [List.filter_map, List.map_map]
  rfl

theorem find_key_canonical_ps (ps : List (Nat × SsbMessage)) (k : List Nat) :
    find_message_flume_seq_by_key (canonicalSt ps) k =
      ((ps.find? (fun p => p.2.key == k)).map (fun p => i64AsU64 (u64AsI64 p.1))) := by
  simp only [find_message_flume_seq_by_key, canonicalSt_messages]
  rw [List.find?_map]
  have hpred : ps.find? ((fun r => keyMatch (canonicalSt ps) r.key_id k) ∘ rowOf ps) =
      ps.find? (fun p => p.2.key == k) := by
    apply find?_congr_mem
    intro p hp
    simp only [Function.comp_apply, rowOf]
    exact keyMatch_canonical ps p.2.key k ((mem_seenOf _ _).mpr (List.mem_map_of_mem _ hp))
  rw [hpred, Option.map_map]
  rfl

theorem get_entry_by_key_canonical (L : List (List Nat)) (hsl : smallLog L) (k : List Nat) :
    get_entry_by_key L (canonicalSt (parseableMsgs L)) k =
      (match (parseablesR L).find? (fun r => r.2.2.key == k) with
       | none => .error .MessageNotFound
       | some r => .ok r.2.1) := by
  have hps : (parseableMsgs L).find? (fun p => p.2.key == k) =
      ((parseablesR L).find? (fun r => r.2.2.key == k)).map (fun t => (t.1, t.2.2)) := by
    simp only [parseableMsgs]
    rw [List.find?_map]
    rfl
  simp only [get_entry_by_key, find_key_canonical_ps, hps]
  cases hf : (parseablesR L).find? (fun r => r.2.2.key == k) with
  | none => rfl
  | some r =>
    have hrmem := List.mem_of_find?_eq_some hf
    have hb : r.1 < 2 ^ 63 := lt_trans (parseablesR_bound L hsl r hrmem) (by norm_num)
    simp only [Option.map_some']
    rw [show i64AsU64 (u64AsI64 (r.1, r.2.2).1) = r.1 from i64AsU64_u64AsI64 hb]
    rw [(logGet_parseablesR L r hrmem).1]

/-! ### Queries are insensitive to inserted tombstone frames -/

theorem selectedRows_snd_tombstone (L1 L2 : List (List Nat)) (z : List Nat)
    (hz : parseSsbMessage z = none) (a : List Nat) (s : Int) (limit : Option Int) :
    (selectedRows (L1 ++ z :: L2) a s limit).map (fun r => r.2) =
      (selectedRows (L1 ++ L2) a s limit).map (fun r => r.2) := by
  have hdec := parseablesR_tombstone L1 L2 z hz
  have hdec2 := parseablesR_append L1 L2
  cases limit with
  | none =>
    simp only [selectedRows, hdec, hdec2]
    exact map_filter_append_shift (fun r : Nat × List Nat × SsbMessage => (r.1 + (z.length + 12), r.2)) (fun r : Nat × List Nat × SsbMessage => decide (s < u32AsI32 r.2.2.value.sequence) && (r.2.2.value.author == a)) (fun r : Nat × List Nat × SsbMessage => r.2) (fun x => rfl) (fun x => rfl) _ _
  | some n =>
    by_cases hn : n < 0
    · simp only [selectedRows, hdec, hdec2]
      rw [if_pos hn, if_pos hn]
      exact map_filter_append_shift (fun r : Nat × List Nat × SsbMessage => (r.1 + (z.length + 12), r.2)) (fun r : Nat × List Nat × SsbMessage => decide (s < u32AsI32 r.2.2.value.sequence) && (r.2.2.value.author == a)) (fun r : Nat × List Nat × SsbMessage => r.2) (fun x => rfl) (fun x => rfl) _ _
    · simp only [selectedRows, hdec, hdec2]
      rw [if_neg hn, if_neg hn,
        filter_append_shift (fun r : Nat × List Nat × SsbMessage => (r.1 + (z.length + 12), r.2)) (fun r : Nat × List Nat × SsbMessage => decide (s < u32AsI32 r.2.2.value.sequence) && (r.2.2.value.author == a)) (fun x => rfl),
        List.filter_append]
      exact map_take_append_shift (fun r : Nat × List Nat × SsbMessage => (r.1 + (z.length + 12), r.2)) (fun r : Nat × List Nat × SsbMessage => r.2) (fun x => rfl) _ _ _

theorem selectedRows_payload_tombstone (L1 L2 : List (List Nat)) (z : List Nat)
    (hz : parseSsbMessage z = none) (a : List Nat) (s : Int) (limit : Option Int) :
    (selectedRows (L1 ++ z :: L2) a s limit).map (fun r => r.2.1) =
      (selectedRows (L1 ++ L2) a s limit).map (fun r => r.2.1) := by
  have h := selectedRows_snd_tombstone L1 L2 z hz a s limit
  have h1 := congrArg (List.map Prod.fst) h
  rw [List.map_map, List.map_map] at h1
  exact h1

theorem get_entries_tombstone (L1 L2 : List (List Nat)) (z : List Nat)
    (hz : parseSsbMessage z = none) (hsl1 : smallLog (L1 ++ z :: L2))
    (hsl2 : smallLog (L1 ++ L2)) (a : List Nat) (s : Int) (limit : Option Int) (ik iv : Bool) :
    (get_entries_newer_than_sequence (L1 ++ z :: L2)
        (canonicalSt (parseableMsgs (L1 ++ z :: L2))) a s limit ik iv).2 =
      (get_entries_newer_than_sequence (L1 ++ L2)
        (canonicalSt (parseableMsgs (L1 ++ L2))) a s limit ik iv).2 := by
  rw [get_entries_canonical_snd _ hsl1, get_entries_canonical_snd _ hsl2,
    selectedRows_payload_tombstone L1 L2 z hz]

theorem feed_latest_tombstone (L1 L2 : List (List Nat)) (z : List Nat)
    (hz : parseSsbMessage z = none) (a : List Nat) :
    get_feed_latest_sequence (canonicalSt (parseableMsgs (L1 ++ z :: L2))) a =
      get_feed_latest_sequence (canonicalSt (parseableMsgs (L1 ++ L2))) a := by
  rw [feed_latest_canonical, feed_latest_canonical, parseablesR_tombstone L1 L2 z hz,
    parseablesR_append L1 L2]
  congr 1
  exact map_filter_append_shift (fun r : Nat × List Nat × SsbMessage => (r.1 + (z.length + 12), r.2)) (fun r : Nat × List Nat × SsbMessage => r.2.2.value.author == a) (fun r : Nat × List Nat × SsbMessage => u32AsI32 r.2.2.value.sequence) (fun x => rfl) (fun x => rfl) _ _

theorem get_entry_by_key_tombstone (L1 L2 : List (List Nat)) (z : List Nat)
    (hz : parseSsbMessage z = none) (hsl1 : smallLog (L1 ++ z :: L2))
    (hsl2 : smallLog (L1 ++ L2)) (k : List Nat) :
    get_entry_by_key (L1 ++ z :: L2) (canonicalSt (parseableMsgs (L1 ++ z :: L2))) k =
      get_entry_by_key (L1 ++ L2) (canonicalSt (parseableMsgs (L1 ++ L2))) k := by
  rw [get_entry_by_key_canonical _ hsl1 k, get_entry_by_key_canonical _ hsl2 k,
    parseablesR_tombstone L1 L2 z hz, parseablesR_append L1 L2]
  rw [List.find?_append, List.find?_append,
    find?_map_pres (fun r : Nat × List Nat × SsbMessage => (r.1 + (z.length + 12), r.2)) (fun r : Nat × List Nat × SsbMessage => r.2.2.key == k) (fun x => rfl)]
  cases hA : (parseablesR L1).find? (fun r => r.2.2.key == k) with
  | some r => rfl
  | none =>
    cases hB : ((mkEntries (logWeight L1) L2).filterMap
        (fun e => (parseSsbMessage e.data).map (fun m => (e.offset, e.data, m)))).find?
        (fun r => r.2.2.key == k) with
    | none => rfl
    | some r => rfl

/-! ### The facade's by-sequence lookup on a canonical index -/

theorem find_seq_canonical_ps (ps : List (Nat × SsbMessage)) (a : List Nat) (s : Int) :
    find_message_flume_seq_by_author_and_sequence (canonicalSt ps) a s =
      ((ps.find? (fun p => (u32AsI32 p.2.value.sequence == s) && (p.2.value.author == a))).map
        (fun p => u64AsI64 p.1)) := by
  simp only [find_message_flume_seq_by_author_and_sequence, canonicalSt_messages]
  rw [List.find?_map]
  have hpred : ps.find? ((fun r => r.seq == s && authorMatch (canonicalSt ps) r.author_id a) ∘
      rowOf ps) =
      ps.find? (fun p => (u32AsI32 p.2.value.sequence == s) && (p.2.value.author == a)) := by
    apply find?_congr_mem
    intro p hp
    simp only [Function.comp_apply, rowOf]
    rw [authorMatch_canonical ps p.2.value.author a
      ((mem_seenOf _ _).mpr (List.mem_map_of_mem _ hp))]
  rw [hpred, Option.map_map]
  rfl

theorem get_entry_by_seq_canonical (L : List (List Nat)) (hsl : smallLog L) (a : List Nat)
    (s : Int) :
    get_entry_by_seq L (canonicalSt (parseableMsgs L)) a s =
      (match (parseablesR L).find?
          (fun r => (u32AsI32 r.2.2.value.sequence == s) && (r.2.2.value.author == a)) with
       | none => .ok none
       | some r => .ok (some r.2.1)) := by
  have hps : (parseableMsgs L).find?
      (fun p => (u32AsI32 p.2.value.sequence == s) && (p.2.value.author == a)) =
      ((parseablesR L).find?
        (fun r => (u32AsI32 r.2.2.value.sequence == s) && (r.2.2.value.author == a))).map
        (fun t => (t.1, t.2.2)) := by
    simp only [parseableMsgs]
    rw [List.find?_map]
    rfl
  simp only [get_entry_by_seq, find_seq_canonical_ps, hps]
  cases hf : (parseablesR L).find?
      (fun r => (u32AsI32 r.2.2.value.sequence == s) && (r.2.2.value.author == a)) with
  | none => rfl
  | some r =>
    have hrmem := List.mem_of_find?_eq_some hf
    have hb : r.1 < 2 ^ 63 := lt_trans (parseablesR_bound L hsl r hrmem) (by norm_num)
    simp only [Option.map_some']
    rw [show i64AsU64 (u64AsI64 (r.1, r.2.2).1) = r.1 from i64AsU64_u64AsI64 hb]
    rw [(logGet_parseablesR L r hrmem).1]

theorem get_entry_by_seq_tombstone (L1 L2 : List (List Nat)) (z : List Nat)
    (hz : parseSsbMessage z = none) (hsl1 : smallLog (L1 ++ z :: L2))
    (hsl2 : smallLog (L1 ++ L2)) (a : List Nat) (s : Int) :
    get_entry_by_seq (L1 ++ z :: L2) (canonicalSt (parseableMsgs (L1 ++ z :: L2))) a s =
      get_entry_by_seq (L1 ++ L2) (canonicalSt (parseableMsgs (L1 ++ L2))) a s := by
  rw [get_entry_by_seq_canonical _ hsl1 a s, get_entry_by_seq_canonical _ hsl2 a s,
    parseablesR_tombstone L1 L2 z hz, parseablesR_append L1 L2]
  rw [List.find?_append, List.find?_append,
    find?_map_pres (fun r : Nat × List Nat × SsbMessage => (r.1 + (z.length + 12), r.2))
      (fun r : Nat × List Nat × SsbMessage =>
        (u32AsI32 r.2.2.value.sequence == s) && (r.2.2.value.author == a))
      (fun x => rfl)]
  cases hA : (parseablesR L1).find?
      (fun r => (u32AsI32 r.2.2.value.sequence == s) && (r.2.2.value.author == a)) with
  | some r => rfl
  | none =>
    cases hB : ((mkEntries (logWeight L1) L2).filterMap
        (fun e => (parseSsbMessage e.data).map (fun m => (e.offset, e.data, m)))).find?
        (fun r => (u32AsI32 r.2.2.value.sequence == s) && (r.2.2.value.author == a)) with
    | none => rfl
    | some r => rfl

/-! ### The f64 round-off of the high-water mark past 2^53 -/

theorem jsonParse_zero_head (rest : List Nat) : jsonParse (0 :: rest) = none := by
  have hskip : skipWs (0 :: rest) = 0 :: rest := skipWs_cons 0 rest (by decide)
  simp [jsonParse, List.length_cons, parseVal, hskip, numStart]

theorem parseSsbMessage_zero_head (rest : List Nat) : parseSsbMessage (0 :: rest) = none := by
  simp [parseSsbMessage, jsonParse_zero_head]

theorem cexFill1_cons : cexFill1 = 0 :: List.replicate (2 ^ 53 - 10) 0 := by
  show List.replicate (2 ^ 53 - 9) 0 = _
  rw [show (2 ^ 53 - 9 : Nat) = (2 ^ 53 - 10) + 1 from by norm_num, List.replicate_succ]

theorem cexFill1_unparseable : parseSsbMessage cexFill1 = none := by
  rw [cexFill1_cons]
  exact parseSsbMessage_zero_head _

theorem cexLog1_entries : logEntries cexLog1 =
    [⟨0, cexFill1⟩, ⟨9007199254740995, wPayA⟩, ⟨9007199254741054, wPayB⟩] := by
  show mkEntries 0 [cexFill1, wPayA, wPayB] = _
  simp only [mkEntries]
  rw [show cexFill1.length = 2 ^ 53 - 9 from List.length_replicate _ _,
    show wPayA.length = 47 from by decide]
  norm_num

theorem cexLog1_iter : iter_at_offset cexLog1 9007199254740996 =
    [⟨9007199254741054, wPayB⟩] := by
  rw [iter_at_offset, cexLog1_entries]
  decide

theorem cexLog1_noop : update_indexes_from_offset_file Env.ok cexLog1 cexSt1 =
    (cexSt1, none) := by
  simp only [update_indexes_from_offset_file, show Env.ok.getLatestOk = true from rfl, if_true,
    show startingOffset cexSt1 = 9007199254740996 from by decide,
    show numToSkip cexSt1 = 1 from by decide, cexLog1_iter]
  decide

theorem cexLog1_parseableMsgs : parseableMsgs cexLog1 =
    [(9007199254740995, (⟨[97], ⟨[98], 1⟩⟩ : SsbMessage)),
      (9007199254741054, (⟨[99], ⟨[98], 2⟩⟩ : SsbMessage))] := by
  have h0 : parseEntry (⟨0, cexFill1⟩ : LogEntry) = none := parseEntry_none cexFill1_unparseable
  have h1 : parseEntry (⟨9007199254740995, wPayA⟩ : LogEntry) =
      some (9007199254740995, ⟨[97], ⟨[98], 1⟩⟩) := parseEntry_of_parse (by decide)
  have h2 : parseEntry (⟨9007199254741054, wPayB⟩ : LogEntry) =
      some (9007199254741054, ⟨[99], ⟨[98], 2⟩⟩) := parseEntry_of_parse (by decide)
  rw [parseableMsgs_eq, cexLog1_entries, List.filterMap_cons_none h0,
    List.filterMap_cons_some h1, List.filterMap_cons_some h2, List.filterMap_nil]

theorem cexFill2_cons : cexFill2 = 0 :: List.replicate (2 ^ 57 - 12) 0 := by
  show List.replicate (2 ^ 57 - 11) 0 = _
  rw [show (2 ^ 57 - 11 : Nat) = (2 ^ 57 - 12) + 1 from by norm_num, List.replicate_succ]

theorem cexFill2_unparseable : parseSsbMessage cexFill2 = none := by
  rw [cexFill2_cons]
  exact parseSsbMessage_zero_head _

theorem cexLog2_entries : logEntries cexLog2 =
    [⟨0, cexFill2⟩, ⟨144115188075855873, wJunk⟩, ⟨144115188075855888, wPayA⟩] := by
  show mkEntries 0 [cexFill2, wJunk, wPayA] = _
  simp only [mkEntries]
  rw [show cexFill2.length = 2 ^ 57 - 11 from List.length_replicate _ _,
    show wJunk.length = 3 from rfl]
  norm_num

theorem cexLog2_iter : iter_at_offset cexLog2 144115188075855872 =
    [⟨144115188075855873, wJunk⟩, ⟨144115188075855888, wPayA⟩] := by
  rw [iter_at_offset, cexLog2_entries]
  decide

theorem cexLog2_update : update_indexes_from_offset_file Env.ok cexLog2 cexSt2 =
    (cexSt2, some .SqliteAppendError) := by
  simp only [update_indexes_from_offset_file, show Env.ok.getLatestOk = true from rfl, if_true,
    show startingOffset cexSt2 = 144115188075855872 from by decide,
    show numToSkip cexSt2 = 1 from by decide, cexLog2_iter]
  decide

theorem cexLog2_parseableMsgs : parseableMsgs cexLog2 =
    [(144115188075855888, (⟨[97], ⟨[98], 1⟩⟩ : SsbMessage))] := by
  have h0 : parseEntry (⟨0, cexFill2⟩ : LogEntry) = none := parseEntry_none cexFill2_unparseable
  have h1 : parseEntry (⟨144115188075855873, wJunk⟩ : LogEntry) = none :=
    parseEntry_none (by decide)
  have h2 : parseEntry (⟨144115188075855888, wPayA⟩ : LogEntry) =
      some (144115188075855888, ⟨[97], ⟨[98], 1⟩⟩) := parseEntry_of_parse (by decide)
  rw [parseableMsgs_eq, cexLog2_entries, List.filterMap_cons_none h0,
    List.filterMap_cons_none h1, List.filterMap_cons_some h2, List.filterMap_nil]

theorem cexLog2_current : flumeSeqs cexSt2 = (parseableOffsets cexLog2).map u64AsI64 := by
  rw [parseableOffsets_eq, cexLog2_parseableMsgs]
  decide

/-! ### The claims -/

/-- Claim C1 (amended): for logs whose byte offsets stay below 2^53 — the
range where the high-water-mark `as f64` cast is exact — after
`update_indexes_from_offset_file` returns successfully from a
consistent-prefix state, every frame whose payload parses as an envelope has
exactly one `messages` row whose `flume_seq` equals the frame's byte offset,
and a frame whose payload fails to parse has no such row. Past 2^53 the claim
fails (see the counterexample). -/
theorem C1_index_completeness (L : List (List Nat)) (st st1 : IndexState)
    (hsl : smallLog L) (hcp : ConsistentPrefix L st)
    (hrun : update_indexes_from_offset_file Env.ok L st = (st1, none)) (e : LogEntry)
    (he : e ∈ logEntries L) :
    (st1.messages.filter (fun r => r.flume_seq == (e.offset : Int))).length =
      if (parseSsbMessage e.data).isSome then 1 else 0 := by
  obtain ⟨st1', hrun', hfl⟩ := update_of_consistent L st hsl hcp
  rw [hrun'] at hrun
  have h1 : st1' = st1 := congrArg Prod.fst hrun
  rw [← h1]
  exact rows_per_offset L st1' hsl hfl e he

/-- Witness for C1 on a concrete two-frame log: the parseable frame at offset
0 has exactly one row, the unparseable frame at offset 59 has none. -/
theorem C1_witness :
    ((buildIndexFromLog [wPayA, wJunk]).messages.filter
        (fun r => r.flume_seq == (((⟨0, wPayA⟩ : LogEntry).offset : Nat) : Int))).length = 1 ∧
    ((buildIndexFromLog [wPayA, wJunk]).messages.filter
        (fun r => r.flume_seq == (((⟨59, wJunk⟩ : LogEntry).offset : Nat) : Int))).length = 0 := by
  constructor
  · have h := C1_index_completeness [wPayA, wJunk] emptyIndex
      (buildIndexFromLog [wPayA, wJunk]) (by unfold smallLog; decide) ⟨0, rfl⟩ (by decide)
      ⟨0, wPayA⟩ (by decide)
    rw [show (if (parseSsbMessage (⟨0, wPayA⟩ : LogEntry).data).isSome then 1 else 0) = 1
      from by decide] at h
    exact h
  · have h := C1_index_completeness [wPayA, wJunk] emptyIndex
      (buildIndexFromLog [wPayA, wJunk]) (by unfold smallLog; decide) ⟨0, rfl⟩ (by decide)
      ⟨59, wJunk⟩ (by decide)
    rw [show (if (parseSsbMessage (⟨59, wJunk⟩ : LogEntry).data).isSome then 1 else 0) = 0
      from by decide] at h
    exact h

/-- Counterexample for C1: past 2^53 the f64 cast rounds the high-water mark
up (i64AsF64 (2^53 + 3) = 2^53 + 4), so the iterator starts past the indexed
frame and `skip(1)` silently drops the unindexed parseable frame at offset
2^53 + 62: the run succeeds from an index that was a consistent prefix, yet
that frame ends with no `messages` row. -/
theorem C1_counterexample :
    flumeSeqs cexSt1 = ((parseableOffsets cexLog1).map u64AsI64).take 1 ∧
    update_indexes_from_offset_file Env.ok cexLog1 cexSt1 = (cexSt1, none) ∧
    (⟨9007199254741054, wPayB⟩ : LogEntry) ∈ logEntries cexLog1 ∧
    (parseSsbMessage wPayB).isSome = true ∧
    (cexSt1.messages.filter
        (fun r => r.flume_seq == ((9007199254741054 : Nat) : Int))).length = 0 := by
  refine ⟨?_, cexLog1_noop, ?_, by decide, by decide⟩
  · rw [parseableOffsets_eq, cexLog1_parseableMsgs]
    decide
  · rw [cexLog1_entries]
    exact List.mem_cons_of_mem _ (List.mem_cons_of_mem _ (List.mem_cons_self _ _))

/-- Claim C2 (amended): on logs and states within the f64-exact range, a run
over an index that already reflects the log changes nothing, and two
back-to-back runs produce the same index (the second is a no-op); the spec's
parenthetical that the post-skip iterator yields nothing is dropped. -/
theorem C2_amended_idempotence (L : List (List Nat)) (st : IndexState)
    (hsl : smallLog L) (hss : smallState st) :
    (flumeSeqs st = (parseableOffsets L).map u64AsI64 →
      update_indexes_from_offset_file Env.ok L st = (st, none)) ∧
    ∃ st1, update_indexes_from_offset_file Env.ok L st = (st1, none) ∧
      update_indexes_from_offset_file Env.ok L st1 = (st1, none) :=
  ⟨fun h => update_reflects_noop L st hsl h, update_run_fixpoint L st hsl hss⟩

/-- Counterexample for C2, in two parts. First, the parenthetical: over a log
ending in an unparseable frame, the index can fully reflect the log (and the
run is a no-op) while the iterator at the high-water mark still yields an
entry after the skip. Second, the f64 restriction: past 2^53 idempotence
itself fails — over `cexLog2` the f64 cast rounds the high-water mark
2^57 + 16 down to 2^57, the iterator re-yields the indexed frame after the
skip, and the run on a fully current index returns `SqliteAppendError`
instead of being a no-op. -/
theorem C2_counterexample :
    (flumeSeqs (canonicalSt (parseableMsgs [wPayA, wJunk])) =
        (parseableOffsets [wPayA, wJunk]).map u64AsI64 ∧
      update_indexes_from_offset_file Env.ok [wPayA, wJunk]
          (canonicalSt (parseableMsgs [wPayA, wJunk])) =
        (canonicalSt (parseableMsgs [wPayA, wJunk]), none) ∧
      (iter_at_offset [wPayA, wJunk]
            (startingOffset (canonicalSt (parseableMsgs [wPayA, wJunk])))).drop
          (numToSkip (canonicalSt (parseableMsgs [wPayA, wJunk]))) ≠ []) ∧
    (flumeSeqs cexSt2 = (parseableOffsets cexLog2).map u64AsI64 ∧
      update_indexes_from_offset_file Env.ok cexLog2 cexSt2 =
        (cexSt2, some .SqliteAppendError) ∧
      update_indexes_from_offset_file Env.ok cexLog2 cexSt2 ≠ (cexSt2, none)) := by
  refine ⟨⟨by decide, by decide, by decide⟩, cexLog2_current, cexLog2_update, ?_⟩
  rw [cexLog2_update]
  decide

/-- Witness for C2 at a concrete log and the empty index. -/
theorem C2_witness :
    (flumeSeqs emptyIndex = (parseableOffsets [wPayA]).map u64AsI64 →
      update_indexes_from_offset_file Env.ok [wPayA] emptyIndex = (emptyIndex, none)) ∧
    ∃ st1, update_indexes_from_offset_file Env.ok [wPayA] emptyIndex = (st1, none) ∧
      update_indexes_from_offset_file Env.ok [wPayA] st1 = (st1, none) :=
  C2_amended_idempotence [wPayA] emptyIndex (by unfold smallLog; decide)
    (by unfold smallState; decide)

/-- Claim C3 (amended): on states whose offsets stay below 2^53 (where the
`as f64` cast is exact) `get_latest` returns exactly the maximum `flume_seq`,
`none` on an empty table, and its value is the pipeline's starting offset; the
unqualified claim is false because of the f64 rounding. -/
theorem C3_amended_get_latest (st : IndexState) (hss : smallState st) :
    get_latest st = maxFlumeSeq st ∧ (st.messages = [] → get_latest st = none) ∧
    startingOffset st = ((maxFlumeSeq st).map f64AsU64).getD 0 := by
  have h1 : get_latest st = maxFlumeSeq st := by
    cases hq : maxFlumeSeq st with
    | none => simp [get_latest, hq]
    | some M =>
      obtain ⟨hMmem, _⟩ := listMaxI_mem_le _ M (by rw [← maxFlumeSeq_eq]; exact hq)
      obtain ⟨hM0, hM53⟩ := hss M hMmem
      simp only [get_latest, hq, Option.map_some']
      rw [i64AsF64_small hM0 hM53]
  refine ⟨h1, ?_, ?_⟩
  · intro hnil
    rw [h1, maxFlumeSeq_eq, flumeSeqs, hnil]
    rfl
  · rw [startingOffset, h1]

/-- Counterexample for C3: a row with `flume_seq` 2^53 + 1 makes `get_latest`
return 2^53 — not the maximum present in the table — and that rounded value is
what the pipeline uses as starting offset. -/
theorem C3_counterexample :
    maxFlumeSeq bigSt = some 9007199254740993 ∧
    get_latest bigSt = some 9007199254740992 ∧
    get_latest bigSt ≠ maxFlumeSeq bigSt ∧
    startingOffset bigSt = 9007199254740992 :=
  ⟨by decide, by decide, by decide, by decide⟩

/-- Witness for C3 on a concrete small state. -/
theorem C3_witness :
    get_latest staleSt = maxFlumeSeq staleSt ∧
    (staleSt.messages = [] → get_latest staleSt = none) ∧
    startingOffset staleSt = ((maxFlumeSeq staleSt).map f64AsU64).getD 0 :=
  C3_amended_get_latest staleSt (by unfold smallState; decide)

/-- Claim C4: on the canonical index of a log, `find_feed_flume_seqs_newer_than`
returns the offsets of exactly the indexed messages with matching author and
feed-sequence strictly greater than the threshold, in log order; a
non-negative limit takes a prefix, and the result is strictly ascending for
every limit. -/
theorem C4_find_newer (L : List (List Nat)) (hsl : smallLog L) (a : List Nat) (s : Int)
    (limit : Option Int) :
    (find_feed_flume_seqs_newer_than (canonicalSt (parseableMsgs L)) a s none =
      ((parseableMsgs L).filter (fun p =>
          decide (s < u32AsI32 p.2.value.sequence) && (p.2.value.author == a))).map
        (fun p => p.1)) ∧
    (∀ n : Int, 0 ≤ n →
      find_feed_flume_seqs_newer_than (canonicalSt (parseableMsgs L)) a s (some n) =
        (find_feed_flume_seqs_newer_than (canonicalSt (parseableMsgs L)) a s none).take
          n.toNat) ∧
    List.Pairwise (· < ·)
      (find_feed_flume_seqs_newer_than (canonicalSt (parseableMsgs L)) a s limit) := by
  refine ⟨?_, ?_, find_newer_canonical_sorted L hsl a s limit⟩
  · exact find_newer_canonical _ a s
      (fun p hp => lt_trans (parseableMsgs_bound L hsl p hp) (by norm_num))
  · intro n hn
    exact find_newer_some _ a s n hn

/-- Witness for C4 on a two-message feed with a limit. -/
theorem C4_witness :
    (find_feed_flume_seqs_newer_than (canonicalSt (parseableMsgs [wPayA, wPayB])) [98] 0 none =
      ((parseableMsgs [wPayA, wPayB]).filter (fun p =>
          decide ((0 : Int) < u32AsI32 p.2.value.sequence) && (p.2.value.author == [98]))).map
        (fun p => p.1)) ∧
    (∀ n : Int, 0 ≤ n →
      find_feed_flume_seqs_newer_than (canonicalSt (parseableMsgs [wPayA, wPayB])) [98] 0
          (some n) =
        (find_feed_flume_seqs_newer_than (canonicalSt (parseableMsgs [wPayA, wPayB])) [98] 0
            none).take n.toNat) ∧
    List.Pairwise (· < ·)
      (find_feed_flume_seqs_newer_than (canonicalSt (parseableMsgs [wPayA, wPayB])) [98] 0
        (some 1)) :=
  C4_find_newer [wPayA, wPayB] (by unfold smallLog; decide) [98] 0 (some 1)

/-- Claim C5 (amended): with both projection flags false the call returns the
`IncludeKeysIncludeValuesBothFalse` error and performs no log read — but the
SQL index query does run first, so the rejection is not before all I/O. -/
theorem C5_amended_both_false (L : List (List Nat)) (st : IndexState) (feed : List Nat)
    (s : Int) (limit : Option Int) :
    get_entries_newer_than_sequence L st feed s limit false false =
      ([Ev.sqlRead], .error .IncludeKeysIncludeValuesBothFalse) ∧
    ∀ o : Nat, Ev.logRead o ∉ (get_entries_newer_than_sequence L st feed s limit false false).1 := by
  refine ⟨rfl, ?_⟩
  intro o h
  simp [get_entries_newer_than_sequence] at h

/-- Counterexample for C5: the I/O trace of a rejected call is not empty — it
records the SQL read issued before the flag check. -/
theorem C5_counterexample :
    (get_entries_newer_than_sequence [wPayA] emptyIndex [98] 0 none false false).1 =
      [Ev.sqlRead] ∧
    (get_entries_newer_than_sequence [wPayA] emptyIndex [98] 0 none false false).1 ≠ [] :=
  ⟨rfl, by decide⟩

/-- Witness for C5 at concrete arguments. -/
theorem C5_witness :
    get_entries_newer_than_sequence [wPayA] staleSt [98] 0 none false false =
      ([Ev.sqlRead], .error .IncludeKeysIncludeValuesBothFalse) ∧
    ∀ o : Nat,
      Ev.logRead o ∉ (get_entries_newer_than_sequence [wPayA] staleSt [98] 0 none false false).1 :=
  C5_amended_both_false [wPayA] staleSt [98] 0 none

theorem fetched_mem_L (L : List (List Nat)) (os : List Nat) :
    ∀ b ∈ os.filterMap (logGet L), b ∈ L := by
  intro b hb
  obtain ⟨o, _, hgo⟩ := List.mem_filterMap.mp hb
  exact logGet_some_mem L o b hgo

/-- Claim C6 (amended): `append_batch` has three failure modes, not two — a
failed offset-log append leaves log and index untouched
(`OffsetAppendError`); after a successful log append a failed high-water-mark
read surfaces `UnableToGetLatestSequence` and a failed chunk transaction
surfaces `SqliteAppendError`; and for logs whose byte offsets stay below 2^53
(the f64-exact range), in every post-append outcome the index remains a
consistent prefix of the new log and a later successful
`update_indexes_from_offset_file` closes the gap. Past 2^53 the
closing-the-gap guarantee fails (see the counterexample). -/
theorem C6_amended_failure_modes (env : Env) (L msgs : List (List Nat)) (st : IndexState)
    (hsl : smallLog (L ++ msgs)) (hcp : ConsistentPrefix L st) :
    (env.logAppendOk = false →
      append_batch env L st msgs = (L, st, some .OffsetAppendError)) ∧
    (env.logAppendOk = true → env.getLatestOk = false →
      append_batch env L st msgs = (L ++ msgs, st, some .UnableToGetLatestSequence)) ∧
    (env.logAppendOk = true → env.getLatestOk = true →
      (append_batch env L st msgs).2.2 = none ∨
        (append_batch env L st msgs).2.2 = some .SqliteAppendError) ∧
    (env.logAppendOk = true →
      ∃ st1, append_batch env L st msgs = (L ++ msgs, st1, (append_batch env L st msgs).2.2) ∧
        ConsistentPrefix (L ++ msgs) st1 ∧
        ∃ st2, update_indexes_from_offset_file Env.ok (L ++ msgs) st1 = (st2, none) ∧
          flumeSeqs st2 = (parseableOffsets (L ++ msgs)).map u64AsI64) := by
  have hcp1 : ConsistentPrefix (L ++ msgs) st := ConsistentPrefix_mono L msgs st hcp
  refine ⟨?_, ?_, ?_, ?_⟩
  · intro h
    simp [append_batch, h]
  · intro h1 h2
    simp [append_batch, h1, update_indexes_from_offset_file, h2]
  · intro h1 h2
    have happ : (append_batch env L st msgs).2.2 =
        (runChunks env 0 st (chunks10000 ((iter_at_offset (L ++ msgs)
            (startingOffset st)).drop (numToSkip st)))).2 := by
      simp [append_batch, h1, update_indexes_from_offset_file, h2]
    rw [happ]
    exact runChunks_err env _ 0 st
  · intro h1
    have happ : append_batch env L st msgs =
        (L ++ msgs, (update_indexes_from_offset_file env (L ++ msgs) st).1,
          (update_indexes_from_offset_file env (L ++ msgs) st).2) := by
      simp [append_batch, h1]
    cases hgl : env.getLatestOk with
    | false =>
      have hupd : update_indexes_from_offset_file env (L ++ msgs) st =
          (st, some .UnableToGetLatestSequence) := by
        simp [update_indexes_from_offset_file, hgl]
      obtain ⟨st2, hst2, hfl2⟩ := update_of_consistent (L ++ msgs) st hsl hcp1
      refine ⟨st, ?_, hcp1, st2, hst2, hfl2⟩
      rw [happ, hupd]
    | true =>
      have hcons1 := update_consistent_general env (L ++ msgs) st hgl hsl hcp1
      obtain ⟨st2, hst2, hfl2⟩ := update_of_consistent (L ++ msgs)
        ((update_indexes_from_offset_file env (L ++ msgs) st).1) hsl hcons1
      refine ⟨(update_indexes_from_offset_file env (L ++ msgs) st).1, ?_, hcons1, st2, hst2,
        hfl2⟩
      rw [happ]

/-- Counterexample for C6, in two parts. First, the failure-mode count: when
the high-water-mark read fails after a successful log append, `append_batch`
surfaces a third error, `UnableToGetLatestSequence`, distinct from the two
failure modes the spec names — and the log has already been extended. Second,
the f64 restriction on closing the gap: past 2^53 a later successful
`update_indexes_from_offset_file` need not close the gap — over `cexLog1` the
run from the consistent state `cexSt1` succeeds yet the parseable frame at
offset 2^53 + 62 stays unindexed. -/
theorem C6_counterexample :
    ((append_batch ⟨false, true, fun _ => true⟩ [wPayA] emptyIndex [wPayB]).2.2 =
        some .UnableToGetLatestSequence ∧
      (append_batch ⟨false, true, fun _ => true⟩ [wPayA] emptyIndex [wPayB]).1 =
        [wPayA] ++ [wPayB] ∧
      some Error.UnableToGetLatestSequence ≠ some Error.OffsetAppendError ∧
      some Error.UnableToGetLatestSequence ≠ some Error.SqliteAppendError) ∧
    ((update_indexes_from_offset_file Env.ok cexLog1 cexSt1).2 = none ∧
      flumeSeqs (update_indexes_from_offset_file Env.ok cexLog1 cexSt1).1 ≠
        (parseableOffsets cexLog1).map u64AsI64) := by
  refine ⟨⟨by decide, by decide, by decide, by decide⟩, ?_, ?_⟩
  · rw [cexLog1_noop]
  · rw [cexLog1_noop, parseableOffsets_eq, cexLog1_parseableMsgs]
    decide

/-- Witness for C6 under an environment whose chunk transactions all fail. -/
theorem C6_witness :
    ((⟨true, true, fun _ => false⟩ : Env).logAppendOk = false →
      append_batch ⟨true, true, fun _ => false⟩ [wPayA] emptyIndex [wPayB] =
        ([wPayA], emptyIndex, some .OffsetAppendError)) ∧
    ((⟨true, true, fun _ => false⟩ : Env).logAppendOk = true →
      (⟨true, true, fun _ => false⟩ : Env).getLatestOk = false →
      append_batch ⟨true, true, fun _ => false⟩ [wPayA] emptyIndex [wPayB] =
        ([wPayA] ++ [wPayB], emptyIndex, some .UnableToGetLatestSequence)) ∧
    ((⟨true, true, fun _ => false⟩ : Env).logAppendOk = true →
      (⟨true, true, fun _ => false⟩ : Env).getLatestOk = true →
      (append_batch ⟨true, true, fun _ => false⟩ [wPayA] emptyIndex [wPayB]).2.2 = none ∨
        (append_batch ⟨true, true, fun _ => false⟩ [wPayA] emptyIndex [wPayB]).2.2 =
          some .SqliteAppendError) ∧
    ((⟨true, true, fun _ => false⟩ : Env).logAppendOk = true →
      ∃ st1, append_batch ⟨true, true, fun _ => false⟩ [wPayA] emptyIndex [wPayB] =
          ([wPayA] ++ [wPayB], st1,
            (append_batch ⟨true, true, fun _ => false⟩ [wPayA] emptyIndex [wPayB]).2.2) ∧
        ConsistentPrefix ([wPayA] ++ [wPayB]) st1 ∧
        ∃ st2, update_indexes_from_offset_file Env.ok ([wPayA] ++ [wPayB]) st1 = (st2, none) ∧
          flumeSeqs st2 = (parseableOffsets ([wPayA] ++ [wPayB])).map u64AsI64) :=
  C6_amended_failure_modes ⟨true, true, fun _ => false⟩ [wPayA] [wPayB] emptyIndex
    (by unfold smallLog; decide) ⟨0, rfl⟩

/-- Claim C7: an unparseable payload (such as a zeroed tombstone frame) is
skipped by `append_item` without error and without touching any table, and
inserting such a frame between real frames changes no query result of the
rebuilt index — for `get_feed_latest_sequence`, `get_entry_by_key`,
`get_entry_by_seq` and every projection mode of
`get_entries_newer_than_sequence`. -/
theorem C7_tombstone (L1 L2 : List (List Nat)) (z : List Nat)
    (hz : parseSsbMessage z = none) (hsl1 : smallLog (L1 ++ z :: L2))
    (hsl2 : smallLog (L1 ++ L2)) (a k : List Nat) (s : Int) (limit : Option Int)
    (ik iv : Bool) :
    (∀ st o, append_item st o z = .ok st) ∧
    get_feed_latest_sequence (canonicalSt (parseableMsgs (L1 ++ z :: L2))) a =
      get_feed_latest_sequence (canonicalSt (parseableMsgs (L1 ++ L2))) a ∧
    get_entry_by_key (L1 ++ z :: L2) (canonicalSt (parseableMsgs (L1 ++ z :: L2))) k =
      get_entry_by_key (L1 ++ L2) (canonicalSt (parseableMsgs (L1 ++ L2))) k ∧
    get_entry_by_seq (L1 ++ z :: L2) (canonicalSt (parseableMsgs (L1 ++ z :: L2))) a s =
      get_entry_by_seq (L1 ++ L2) (canonicalSt (parseableMsgs (L1 ++ L2))) a s ∧
    (get_entries_newer_than_sequence (L1 ++ z :: L2)
        (canonicalSt (parseableMsgs (L1 ++ z :: L2))) a s limit ik iv).2 =
      (get_entries_newer_than_sequence (L1 ++ L2)
        (canonicalSt (parseableMsgs (L1 ++ L2))) a s limit ik iv).2 :=
  ⟨fun st o => append_item_none st o z hz,
   feed_latest_tombstone L1 L2 z hz a,
   get_entry_by_key_tombstone L1 L2 z hz hsl1 hsl2 k,
   get_entry_by_seq_tombstone L1 L2 z hz hsl1 hsl2 a s,
   get_entries_tombstone L1 L2 z hz hsl1 hsl2 a s limit ik iv⟩

/-- Witness for C7: a zeroed frame inserted between two real frames. -/
theorem C7_witness :
    (∀ st o, append_item st o wJunk = .ok st) ∧
    get_feed_latest_sequence (canonicalSt (parseableMsgs ([wPayA] ++ wJunk :: [wPayB]))) [98] =
      get_feed_latest_sequence (canonicalSt (parseableMsgs ([wPayA] ++ [wPayB]))) [98] ∧
    get_entry_by_key ([wPayA] ++ wJunk :: [wPayB])
        (canonicalSt (parseableMsgs ([wPayA] ++ wJunk :: [wPayB]))) [97] =
      get_entry_by_key ([wPayA] ++ [wPayB])
        (canonicalSt (parseableMsgs ([wPayA] ++ [wPayB]))) [97] ∧
    get_entry_by_seq ([wPayA] ++ wJunk :: [wPayB])
        (canonicalSt (parseableMsgs ([wPayA] ++ wJunk :: [wPayB]))) [98] 0 =
      get_entry_by_seq ([wPayA] ++ [wPayB])
        (canonicalSt (parseableMsgs ([wPayA] ++ [wPayB]))) [98] 0 ∧
    (get_entries_newer_than_sequence ([wPayA] ++ wJunk :: [wPayB])
        (canonicalSt (parseableMsgs ([wPayA] ++ wJunk :: [wPayB]))) [98] 0 none true true).2 =
      (get_entries_newer_than_sequence ([wPayA] ++ [wPayB])
        (canonicalSt (parseableMsgs ([wPayA] ++ [wPayB]))) [98] 0 none true true).2 :=
  C7_tombstone [wPayA] [wPayB] wJunk (by decide) (by unfold smallLog; decide)
    (by unfold smallLog; decide) [98] [97] 0 none true true

/-- Claim C8: when the stored envelopes are serialized well-formed JSON
objects carrying a `value` field, the `(include_keys = false, include_values =
true)` projection succeeds and every returned byte string is exactly the
serialization of the envelope's `value` field: it parses back to the same
JSON object, with the object's fields in their original order. -/
theorem C8_value_projection (L : List (List Nat)) (st : IndexState) (feed : List Nat)
    (s : Int) (limit : Option Int)
    (hser : ∀ b ∈ L, ∃ fs val, b = serVal (.obj fs) ∧ wfVal (.obj fs) = true ∧
        lookupField fs valueStr = some val) :
    ∃ outs, (get_entries_newer_than_sequence L st feed s limit false true).2 = .ok outs ∧
      ∀ o ∈ outs, ∃ b fs val, b ∈ L ∧ jsonParse b = some (.obj fs) ∧
        lookupField fs valueStr = some val ∧ o = serVal val ∧ jsonParse o = some val := by
  have harm : (get_entries_newer_than_sequence L st feed s limit false true).2 =
      collectExcept ((((find_feed_flume_seqs_newer_than st feed s limit).filterMap
          (logGet L)).filterMap jsonParse).map projectValue) := rfl
  have hmemL : ∀ b ∈ (find_feed_flume_seqs_newer_than st feed s limit).filterMap (logGet L),
      b ∈ L := fetched_mem_L L _
  have hallok : ∀ x ∈ (((find_feed_flume_seqs_newer_than st feed s limit).filterMap
        (logGet L)).filterMap jsonParse).map projectValue, ∃ bb, x = .ok bb := by
    intro x hx
    obtain ⟨v, hv, hpx⟩ := List.mem_map.mp hx
    obtain ⟨b, hbf, hjb⟩ := List.mem_filterMap.mp hv
    obtain ⟨fs, val, hbser, hwf, hlook⟩ := hser b (hmemL b hbf)
    have hjb2 : jsonParse b = some (.obj fs) := by
      rw [hbser]
      exact jsonParse_serVal _ hwf
    have hv2 : v = .obj fs := Option.some.inj (hjb.symm.trans hjb2)
    refine ⟨serVal val, ?_⟩
    rw [← hpx, hv2]
    simp [projectValue, hlook]
  obtain ⟨outs, houts, _, hmem⟩ := collectExcept_ok _ hallok
  refine ⟨outs, by rw [harm]; exact houts, ?_⟩
  intro o ho
  obtain ⟨v, hv, hpv⟩ := List.mem_map.mp (hmem o ho)
  obtain ⟨b, hbf, hjb⟩ := List.mem_filterMap.mp hv
  obtain ⟨fs, val, hbser, hwf, hlook⟩ := hser b (hmemL b hbf)
  have hjb2 : jsonParse b = some (.obj fs) := by
    rw [hbser]
    exact jsonParse_serVal _ hwf
  have hv2 : v = .obj fs := Option.some.inj (hjb.symm.trans hjb2)
  have hproj : projectValue v = .ok (serVal val) := by
    rw [hv2]
    simp [projectValue, hlook]
  have ho2 : o = serVal val := Except.ok.inj (hpv.symm.trans hproj)
  have hwfval : wfVal val = true := wfVal_lookupField hwf hlook
  exact ⟨b, fs, val, hmemL b hbf, hjb2, hlook, ho2, by rw [ho2]; exact jsonParse_serVal _ hwfval⟩

/-- Witness for C8 on an envelope whose value object's fields are not in
sorted order. -/
theorem C8_witness :
    ∃ outs, (get_entries_newer_than_sequence [wPayC] (canonicalSt (parseableMsgs [wPayC]))
        [101] 0 none false true).2 = .ok outs ∧
      ∀ o ∈ outs, ∃ b fs val, b ∈ [wPayC] ∧ jsonParse b = some (.obj fs) ∧
        lookupField fs valueStr = some val ∧ o = serVal val ∧ jsonParse o = some val :=
  C8_value_projection [wPayC] (canonicalSt (parseableMsgs [wPayC])) [101] 0 none
    (by
      intro b hb
      rw [List.mem_singleton] at hb
      subst hb
      exact ⟨fsC, valC, rfl, by decide, rfl⟩)

/-- Claim C9: when some selected offset's log read fails, the `(true, true)`
mode aborts the whole call with `OffsetGetError`, whereas the `(true, false)`
and `(false, true)` modes silently drop the failing entry and still succeed
(with strictly fewer results than selected rows). -/
theorem C9_failure_asymmetry (L : List (List Nat)) (st : IndexState) (feed : List Nat)
    (s : Int) (limit : Option Int)
    (hfail : ∃ o ∈ find_feed_flume_seqs_newer_than st feed s limit, logGet L o = none)
    (hser : ∀ b ∈ L, ∃ fs val, b = serVal (.obj fs) ∧ wfVal (.obj fs) = true ∧
        lookupField fs valueStr = some val) :
    (get_entries_newer_than_sequence L st feed s limit true true).2 =
        .error .OffsetGetError ∧
    (∃ r1, (get_entries_newer_than_sequence L st feed s limit true false).2 = .ok r1 ∧
      r1.length < (find_feed_flume_seqs_newer_than st feed s limit).length) ∧
    (∃ r2, (get_entries_newer_than_sequence L st feed s limit false true).2 = .ok r2 ∧
      r2.length < (find_feed_flume_seqs_newer_than st feed s limit).length) := by
  obtain ⟨o0, ho0, hnone⟩ := hfail
  have hfetchlen : ((find_feed_flume_seqs_newer_than st feed s limit).filterMap
      (logGet L)).length < (find_feed_flume_seqs_newer_than st feed s limit).length :=
    filterMap_length_lt (logGet L) _ o0 ho0 hnone
  have hmemL : ∀ b ∈ (find_feed_flume_seqs_newer_than st feed s limit).filterMap (logGet L),
      b ∈ L := fetched_mem_L L _
  refine ⟨?_, ?_, ?_⟩
  · exact getAllTr_error L _ ⟨o0, ho0, hnone⟩
  · refine ⟨_, rfl, ?_⟩
    have h1 := List.length_filterMap_le parseSsbMessage
      ((find_feed_flume_seqs_newer_than st feed s limit).filterMap (logGet L))
    rw [List.length_map]
    omega
  · have harm : (get_entries_newer_than_sequence L st feed s limit false true).2 =
        collectExcept ((((find_feed_flume_seqs_newer_than st feed s limit).filterMap
            (logGet L)).filterMap jsonParse).map projectValue) := rfl
    have hjlen : (((find_feed_flume_seqs_newer_than st feed s limit).filterMap
        (logGet L)).filterMap jsonParse).length =
        ((find_feed_flume_seqs_newer_than st feed s limit).filterMap (logGet L)).length := by
      apply filterMap_length_of_some
      intro b hb
      obtain ⟨fs, val, hbser, hwf, _⟩ := hser b (hmemL b hb)
      rw [hbser, jsonParse_serVal _ hwf]
      rfl
    have hallok : ∀ x ∈ (((find_feed_flume_seqs_newer_than st feed s limit).filterMap
        (logGet L)).filterMap jsonParse).map projectValue, ∃ bb, x = .ok bb := by
      intro x hx
      obtain ⟨v, hv, hpx⟩ := List.mem_map.mp hx
      obtain ⟨b, hbf, hjb⟩ := List.mem_filterMap.mp hv
      obtain ⟨fs, val, hbser, hwf, hlook⟩ := hser b (hmemL b hbf)
      have hjb2 : jsonParse b = some (.obj fs) := by
        rw [hbser]
        exact jsonParse_serVal _ hwf
      have hv2 : v = .obj fs := Option.some.inj (hjb.symm.trans hjb2)
      refine ⟨serVal val, ?_⟩
      rw [← hpx, hv2]
      simp [projectValue, hlook]
    obtain ⟨outs, houts, hlen, _⟩ := collectExcept_ok _ hallok
    refine ⟨outs, by rw [harm]; exact houts, ?_⟩
    rw [hlen, List.length_map, hjlen]
    exact hfetchlen

/-- Witness for C9: a stale index row at offset 999 of a one-frame log. -/
theorem C9_witness :
    (get_entries_newer_than_sequence [wPayA] staleSt [98] 0 none true true).2 =
        .error .OffsetGetError ∧
    (∃ r1, (get_entries_newer_than_sequence [wPayA] staleSt [98] 0 none true false).2 =
        .ok r1 ∧
      r1.length < (find_feed_flume_seqs_newer_than staleSt [98] 0 none).length) ∧
    (∃ r2, (get_entries_newer_than_sequence [wPayA] staleSt [98] 0 none false true).2 =
        .ok r2 ∧
      r2.length < (find_feed_flume_seqs_newer_than staleSt [98] 0 none).length) :=
  C9_failure_asymmetry [wPayA] staleSt [98] 0 none ⟨999, by decide, by decide⟩
    (by
      intro b hb
      rw [List.mem_singleton] at hb
      subst hb
      exact ⟨fsA, .obj [(authorStr, .str [98]), (sequenceStr, .num [49])], rfl, by decide,
        rfl⟩)

/-- Claim C10: the indexer stores each message's declared u32 sequence as
`sequence as i32`: below 2^31 the stored `seq` equals the declared value,
while at or above 2^31 it equals the declared value minus 2^32, a negative
integer that every non-negative signed threshold comparison (as used by the
sequence-filtering queries) rejects. -/
theorem C10_sequence_cast (st : IndexState) (o : Nat) (raw : List Nat) (m : SsbMessage)
    (hp : parseSsbMessage raw = some m)
    (hfresh : ∀ x ∈ flumeSeqs st, x < u64AsI64 o) :
    ∃ st1 r, append_item st o raw = .ok st1 ∧ st1.messages = st.messages ++ [r] ∧
      r.seq = u32AsI32 m.value.sequence ∧
      (m.value.sequence < 2 ^ 31 → r.seq = (m.value.sequence : Int)) ∧
      (2 ^ 31 ≤ m.value.sequence → m.value.sequence < 2 ^ 32 →
        r.seq = (m.value.sequence : Int) - 2 ^ 32 ∧ r.seq < 0 ∧
        ∀ s : Int, 0 ≤ s → decide (s < r.seq) = false) := by
  obtain ⟨st1, hrun, kid, aid, hmsg, _, _⟩ := append_item_some st o raw m hp hfresh
  refine ⟨st1, _, hrun, hmsg, rfl, ?_, ?_⟩
  · intro hlt
    show u32AsI32 m.value.sequence = (m.value.sequence : Int)
    simp only [u32AsI32]
    rw [if_pos hlt]
  · intro hge hlt
    have hneg : u32AsI32 m.value.sequence = (m.value.sequence : Int) - 2 ^ 32 := by
      simp only [u32AsI32]
      rw [if_neg (not_lt.mpr hge)]
    have hcast : (m.value.sequence : Int) < 2 ^ 32 := by exact_mod_cast hlt
    refine ⟨hneg, ?_, ?_⟩
    · show u32AsI32 m.value.sequence < 0
      rw [hneg]
      omega
    · intro s hs
      show decide (s < u32AsI32 m.value.sequence) = false
      rw [hneg]
      simp only [decide_eq_false_iff_not, not_lt]
      omega

/-- Witness for C10 on an envelope declaring sequence 2^31. -/
theorem C10_witness :
    ∃ st1 r, append_item emptyIndex 0 wPayD = .ok st1 ∧
      st1.messages = emptyIndex.messages ++ [r] ∧
      r.seq = u32AsI32 (⟨[102], ⟨[103], 2147483648⟩⟩ : SsbMessage).value.sequence ∧
      ((⟨[102], ⟨[103], 2147483648⟩⟩ : SsbMessage).value.sequence < 2 ^ 31 →
        r.seq = ((⟨[102], ⟨[103], 2147483648⟩⟩ : SsbMessage).value.sequence : Int)) ∧
      (2 ^ 31 ≤ (⟨[102], ⟨[103], 2147483648⟩⟩ : SsbMessage).value.sequence →
        (⟨[102], ⟨[103], 2147483648⟩⟩ : SsbMessage).value.sequence < 2 ^ 32 →
        r.seq = ((⟨[102], ⟨[103], 2147483648⟩⟩ : SsbMessage).value.sequence : Int) - 2 ^ 32 ∧
          r.seq < 0 ∧ ∀ s : Int, 0 ≤ s → decide (s < r.seq) = false) :=
  C10_sequence_cast emptyIndex 0 wPayD ⟨[102], ⟨[103], 2147483648⟩⟩ (by decide)
    (by intro x hx; exact absurd hx (List.not_mem_nil x))

end SsbDb